import Mathlib

/-! # with-go/standard : the ordered key-value `Collection`

A shallow embedding of `collection/collection.go`, of `AsMap` of
`collection/presenter.go`, of the operations of `array/array.go`, of
`AsInt64Slice` and `AsUint64Slice` of `array/presenter.go`, of
`object/object.go` and of `AsStruct` of `object/presenter.go`.

* Go's `interface{}` values are the inductive type `Value`.  Values are data:
  a stored `*Collection` is the sequence of pairs it points to, so a value
  graph is a finite tree (no cycles, no sharing between two handles).
* `Collection` is the slice `pairs []*Pair`; the slice is private to the
  package and never shared between two collections, so it is a `List`.
* A Go function that can return `(result, error)` or end in a run-time panic
  returns an `Outcome`.
* `int` results are `Int` (`IndexOf` returns `-1`), lengths are `Nat`.
* An `Array` is the list of its elements; `Concat`, which appends again and
  again to what it got from the last `append`, is on slice headers (`Slice`)
  over the backing arrays that they share (`Store`).
* What the library leaves to Go or to a caller is a parameter: `==` on
  interface values (`equal`), the default formatting of `fmt` (`format`), the
  JSON decoder (`decode`), the capacity that `append` allocates (`grow`), the
  callbacks.
* The outer loop of `Sort` has no bound of its own; it takes a number of
  passes (`fuel`) and the theorems give the number that suffices.
-/

namespace Standard

/-- The key type of a Go map, as far as `reflect` tells key types apart in
`NewFromMap`: `string` itself, the empty interface, or any other type (to which
a `string` value is not assignable). -/
inductive MapKeyType where
  | string
  | iface
  | other (typeName : String)
  deriving DecidableEq, Repr

/-- The signed integer kinds of `reflect`. -/
inductive SignedKind where
  | Int
  | Int8
  | Int16
  | Int32
  | Int64
  deriving DecidableEq, Repr

/-- The unsigned integer kinds of `reflect`. -/
inductive UnsignedKind where
  | Uint
  | Uint8
  | Uint16
  | Uint32
  | Uint64
  | Uintptr
  deriving DecidableEq, Repr

/-- Pair defines key-value pair of an element in Collection
(`type Pair struct { key string; value interface{} }`).  The value type is a
parameter only so that `Value` can contain pairs; it is always `Value`. -/
structure Pair (V : Type) where
  key : String
  value : V
  deriving Repr

/-- A Go value held in an `interface{}`.

* `nil` is the nil interface;
* `str s` is a value of type `string`, `namedStr typeName s` a value of a
  defined type whose underlying type is `string`;
* `map keyType entries` is a map value, its entries in enumeration order;
* `ptr none` is a nil pointer and `ptr (some x)` a pointer to a variable that
  holds `x`, for a pointer type whose element type is not named `Collection`;
* `collection pairs` is a non-nil `*Collection`;
* `namedCollection elem` is any other pointer whose element type is named
  `Collection`: a nil `*Collection` (`elem = none`), or a pointer, nil or not,
  to a type of that name declared elsewhere;
* `other kind text` is a value of any other kind (float, slice, struct, ...),
  `text` being its default formatting;
* `int i` is a value of type `int`; `signed kind i` is a value of another
  signed integer type, of the given kind (`int8`, ..., `int64`, or a defined
  type), and `unsigned kind n` a value of an unsigned integer type. -/
inductive Value where
  | nil
  | bool (b : Bool)
  | int (i : Int)
  | str (s : String)
  | map (keyType : MapKeyType) (entries : List (Value × Value))
  | ptr (elem : Option Value)
  | collection (pairs : List (Pair Value))
  | other (kind : String) (text : String)
  | namedStr (typeName : String) (s : String)
  | namedCollection (elem : Option Value)
  | signed (kind : SignedKind) (i : Int)
  | unsigned (kind : UnsignedKind) (n : Nat)

/-- Collection defines a Collection Type: `struct { pairs []*Pair }`. -/
structure Collection where
  pairs : List (Pair Value)

/-- The package-level error values. -/
inductive Error where
  | NonMapTypeError
  /-- An error value of another package, here of `encoding/json`. -/
  | JsonError (message : String)
  | ElementTypeNotFloat64Error
  | ElementTypeNotInt64Error
  | ElementTypeNotUint64Error
  | NonPtrTypeError
  | PtrToNonStructTypeError
  deriving DecidableEq, Repr

/-- What a call does: return a result, return an error, or panic. -/
inductive Outcome (α : Type) where
  | ok (result : α)
  | error (err : Error)
  | fault

namespace Collection

/-- The New() function creates a new Collection. -/
def New : Collection := ⟨[]⟩

/-- The loop of `IndexOf`: `index` is the position of the head of the list. -/
def indexOfLoop (key : String) : List (Pair Value) → Nat → Int
  | [], _ => -1
  | pair :: rest, index =>
    if pair.key = key then (index : Int) else indexOfLoop key rest (index + 1)

/-- The IndexOf() function returns the index of the first Pair with the given
key, or -1. -/
def IndexOf (collection : Collection) (key : String) : Int :=
  indexOfLoop key collection.pairs 0

/-- The PairOf() function returns the first Pair with the given key, `none`
standing for the nil pointer. -/
def PairOf (collection : Collection) (key : String) : Option (Pair Value) :=
  collection.pairs.find? (fun pair => decide (pair.key = key))

/-- The Get() function: the value of `PairOf key`, or nil. -/
def Get (collection : Collection) (key : String) : Value :=
  match collection.PairOf key with
  | none => Value.nil
  | some pair => pair.value

/-- The Has() function: `PairOf(key) != nil`. -/
def Has (collection : Collection) (key : String) : Bool :=
  (collection.PairOf key).isSome

/-- The HasAll() function. -/
def HasAll (collection : Collection) : List String → Bool
  | [] => true
  | key :: rest => if !collection.Has key then false else HasAll collection rest

/-- The HasSome() function. -/
def HasSome (collection : Collection) : List String → Bool
  | [] => false
  | key :: rest => if collection.Has key then true else HasSome collection rest

/-- The Keys() function. -/
def Keys (collection : Collection) : List String :=
  collection.pairs.map (fun pair => pair.key)

/-- The Values() function. -/
def Values (collection : Collection) : List Value :=
  collection.pairs.map (fun pair => pair.value)

/-- The Length() function. -/
def Length (collection : Collection) : Nat :=
  collection.pairs.length

/-- The Clear() function. -/
def Clear (_collection : Collection) : Collection := ⟨[]⟩

/-- The Delete() function:
`append(pairs[:index], pairs[index+1:]...)` when `IndexOf(key) != -1`. -/
def Delete (collection : Collection) (key : String) : Collection :=
  let index := collection.IndexOf key
  if index ≠ -1 then
    ⟨collection.pairs.take index.toNat ++ collection.pairs.drop (index.toNat + 1)⟩
  else collection

/-- The Add() function: `Delete(key)`, then append a new pair. -/
def Add (collection : Collection) (key : String) (value : Value) : Collection :=
  ⟨(collection.Delete key).pairs ++ [⟨key, value⟩]⟩

/-- Assignment through the pointer that `PairOf` returns: the first pair whose
key is `key` gets `key` and `value`; the slice itself is untouched. -/
def assignPair (key : String) (value : Value) : List (Pair Value) → List (Pair Value)
  | [] => []
  | pair :: rest =>
    if pair.key = key then ⟨key, value⟩ :: rest else pair :: assignPair key value rest

/-- The Set() function. -/
def Set (collection : Collection) (key : String) (value : Value) : Collection :=
  match collection.PairOf key with
  | some _ => ⟨assignPair key value collection.pairs⟩
  | none => ⟨collection.pairs ++ [⟨key, value⟩]⟩

/-- The ForEach() function.  The callback is a state transformer: `σ` is
whatever the closure can reach, the collection itself excluded. -/
def ForEach {σ : Type} (collection : Collection)
    (function : String → Value → σ → σ) (state : σ) : σ :=
  collection.pairs.foldl (fun s pair => function pair.key pair.value s) state

/-- A run of `Set` calls, in order. -/
def setAll (collection : Collection) (calls : List (String × Value)) : Collection :=
  calls.foldl (fun c call => c.Set call.1 call.2) collection

/-- The `reflect.Kind` of a value, as far as `NewFromMap` tells kinds apart. -/
inductive ValueKind where
  | Invalid
  | Map
  | Ptr
  | Other
  deriving DecidableEq, Repr

/-- The result of `reflect.ValueOf(v).Kind()`. -/
def kindOf : Value → ValueKind
  | Value.nil => ValueKind.Invalid
  | Value.map _ _ => ValueKind.Map
  | Value.ptr _ => ValueKind.Ptr
  | Value.collection _ => ValueKind.Ptr
  | Value.namedCollection _ => ValueKind.Ptr
  | _ => ValueKind.Other

/-- The result of `key.String()` on a key that `MapKeys()` returns: the text of
a key of type `string`, and `<T Value>` for a key of another type `T` (a type
whose kind is String but is not `string` is counted under `other`: the loop
that follows panics at its first `MapIndex`, whatever the texts are). -/
def keyString : MapKeyType → Value → String
  | MapKeyType.string, Value.str s => s
  | MapKeyType.string, _ => ""
  | MapKeyType.iface, _ => "<interface \x7b\x7d Value>"
  | MapKeyType.other typeName, _ => "<" ++ typeName ++ " Value>"

/-- The result of `sort.Strings`: ascending order. -/
def sortStrings (keys : List String) : List String :=
  keys.insertionSort (fun a b => a.toList ≤ b.toList)

/-- Map access with a key that is a `string`: the element stored under the
key whose dynamic value is that string, if any. -/
def lookupString {β : Type} (key : String) : List (Value × β) → Option β
  | [] => none
  | (Value.str s, element) :: rest =>
    if s = key then some element else lookupString key rest
  | _ :: rest => lookupString key rest

/-- The result of `valueOfV.MapIndex(reflect.ValueOf(key))` for a `string` key:
a panic when `string` is not assignable to the key type, the zero Value
(`none`) when the map has no such key, the element otherwise. -/
def mapIndex {β : Type} (keyType : MapKeyType) (entries : List (Value × β))
    (key : String) : Outcome (Option β) :=
  match keyType with
  | MapKeyType.other _ => Outcome.fault
  | _ => Outcome.ok (lookupString key entries)

/-- The loop of `NewFromMap` over the sorted keys.  `converted` holds, for each
entry of the map, what the `switch value.Kind()` makes of its element; the
loop reads it with `MapIndex`, a zero Value making `Interface()` panic. -/
def convertLoop (keyType : MapKeyType) (converted : List (Value × Outcome Value)) :
    List String → Collection → Outcome Collection
  | [], collection => Outcome.ok collection
  | key :: rest, collection =>
    match mapIndex keyType converted key with
    | Outcome.fault => Outcome.fault
    | Outcome.error err => Outcome.error err
    | Outcome.ok none => Outcome.fault
    | Outcome.ok (some (Outcome.ok value)) =>
      convertLoop keyType converted rest ⟨collection.pairs ++ [⟨key, value⟩]⟩
    | Outcome.ok (some (Outcome.error err)) => Outcome.error err
    | Outcome.ok (some Outcome.fault) => Outcome.fault

/-- The body of `NewFromMap` on a map: collect the texts of the keys, sort
them, and run the loop from `New()`. -/
def newFromEntries (keyType : MapKeyType) (entries : List (Value × Value))
    (converted : List (Value × Outcome Value)) : Outcome Collection :=
  let keys := sortStrings (entries.map (fun entry => keyString keyType entry.1))
  convertLoop keyType converted keys New

/-- What the `switch` does with the result of the nested `NewFromMap`:
`pair.value = convertedValue`, or `return nil, err`. -/
def nestedResult : Outcome Collection → Outcome Value
  | Outcome.ok converted => Outcome.ok (Value.collection converted.pairs)
  | Outcome.error err => Outcome.error err
  | Outcome.fault => Outcome.fault

mutual
/-- The body of the `switch value.Kind()` of `NewFromMap` for one element:
a map is converted by `NewFromMap`, a pointer is dereferenced and what it
points to is given to `NewFromMap` (`Elem().Interface()` panics on a nil
pointer, and what is not a map is a NonMapTypeError), anything else is kept
(`Interface()` panics on the zero Value of a nil element).  The nested call of
`NewFromMap` is written as its body, `newFromEntries`. -/
def convertValue : Value → Outcome Value
  | Value.map keyType entries =>
    nestedResult (newFromEntries keyType entries (convertEntries entries))
  | Value.ptr none => Outcome.fault
  | Value.ptr (some (Value.map keyType entries)) =>
    nestedResult (newFromEntries keyType entries (convertEntries entries))
  | Value.ptr (some _) => Outcome.error Error.NonMapTypeError
  | Value.namedCollection none => Outcome.fault
  | Value.namedCollection (some (Value.map keyType entries)) =>
    nestedResult (newFromEntries keyType entries (convertEntries entries))
  | Value.namedCollection (some _) => Outcome.error Error.NonMapTypeError
  | Value.collection _ => Outcome.error Error.NonMapTypeError
  | Value.nil => Outcome.fault
  | value => Outcome.ok value
termination_by structural value => value
/-- The body of the `switch value.Kind()` of `NewFromMap`, for every entry. -/
def convertEntries : List (Value × Value) → List (Value × Outcome Value)
  | [] => []
  | (key, value) :: rest => (key, convertValue value) :: convertEntries rest
termination_by structural entries => entries
end

/-- The NewFromMap() function returns a new Collection from a given map, its
keys sorted; NonMapTypeError if the parameter is not a map. -/
def NewFromMap : Value → Outcome Collection
  | Value.map keyType entries => newFromEntries keyType entries (convertEntries entries)
  | _ => Outcome.error Error.NonMapTypeError

/-- The NewFromJsonString() function parses a given JSON string, and returns
the result as a new Collection.  `decode` is `json.NewDecoder(...).Decode` into
a fresh `map[string]interface{}`: the error it returns, or the entries of the
map it filled. -/
def NewFromJsonString (decode : String → Except Error (List (Value × Value)))
    (v : String) : Outcome Collection :=
  match decode v with
  | Except.error err => Outcome.error err
  | Except.ok object => NewFromMap (Value.map MapKeyType.string object)

/-- A map value as Go builds it: the keys of a `map[string]T` are strings,
and no key occurs twice. -/
def wellFormedMap (keyType : MapKeyType) (entries : List (Value × Value)) : Prop :=
  (entries.map (fun entry => entry.1)).Nodup ∧
    (keyType = MapKeyType.string → ∀ entry ∈ entries, ∃ s, entry.1 = Value.str s)

/-- The nested call of `NewFromMap` that the `switch value.Kind()` makes for an
element, with its result: on the element itself when it is a map, on what the
element points to when it is a non-nil pointer (a `Collection` struct, for a
`*Collection`, is not a map); no call for a nil pointer or another kind. -/
def nestedCall : Value → Option (Outcome Collection)
  | Value.map keyType entries => some (NewFromMap (Value.map keyType entries))
  | Value.ptr (some elem) => some (NewFromMap elem)
  | Value.namedCollection (some elem) => some (NewFromMap elem)
  | Value.collection _ => some (Outcome.error Error.NonMapTypeError)
  | _ => none

/-- The value that the loop of `NewFromMap` stores under a key, read from the
converted elements. -/
def storedAt (converted : List (Value × Outcome Value)) (key : String) : Value :=
  match lookupString key converted with
  | some (Outcome.ok value) => value
  | _ => Value.nil

/-- The order of `sort.Strings` on two keys. -/
def keyLE (a b : String) : Prop := a.toList ≤ b.toList

instance keyLE_total : IsTotal String keyLE :=
  ⟨fun a b => le_total a.toList b.toList⟩

instance keyLE_trans : IsTrans String keyLE :=
  ⟨fun _ _ _ hab hbc => le_trans hab hbc⟩

instance keyLE_antisymm : IsAntisymm String keyLE :=
  ⟨fun _ _ hab hba => String.ext (le_antisymm hab hba)⟩

instance keyLE_decidable : DecidableRel keyLE :=
  fun a b => inferInstanceAs (Decidable (a.toList ≤ b.toList))

/-- The strict order of Go's `<` on two strings: lexicographic in the bytes of
the UTF-8 text, which is the lexicographic order of the characters. -/
def keyLT (a b : String) : Prop := a.toList < b.toList

/-- Whether a value has type `string`. -/
def isStr : Value → Bool
  | Value.str _ => true
  | _ => false

/-- The entries of a `map[string]T` as Go builds it, decidably: every key is a
`string` and no key occurs twice. -/
def stringKeys (entries : List (Value × Value)) : Bool :=
  entries.all (fun entry => isStr entry.1) &&
    decide ((entries.map (fun entry => keyString MapKeyType.string entry.1)).Nodup)

/-- The map that the `switch value.Kind()` of `NewFromMap` converts for an
element: the element itself, or what it points to. -/
def nestedMapOf : Value → Option Value
  | Value.map keyType entries => some (Value.map keyType entries)
  | Value.ptr (some (Value.map keyType entries)) => some (Value.map keyType entries)
  | Value.namedCollection (some (Value.map keyType entries)) =>
    some (Value.map keyType entries)
  | _ => none

mutual
/-- Every map that `NewFromMap` reaches from the value (the value itself, the
elements of such a map, what a pointer element points to) has key type
`string`. -/
def stringKeyed : Value → Bool
  | Value.map keyType entries =>
    decide (keyType = MapKeyType.string) && stringKeys entries && stringKeyedEntries entries
  | Value.ptr (some (Value.map keyType entries)) =>
    decide (keyType = MapKeyType.string) && stringKeys entries && stringKeyedEntries entries
  | Value.namedCollection (some (Value.map keyType entries)) =>
    decide (keyType = MapKeyType.string) && stringKeys entries && stringKeyedEntries entries
  | _ => true
termination_by structural value => value
/-- The elements of a map are `stringKeyed`. -/
def stringKeyedEntries : List (Value × Value) → Bool
  | [] => true
  | (_, value) :: rest => stringKeyed value && stringKeyedEntries rest
termination_by structural entries => entries
end

/-- Two values are the same up to the order in which their maps are enumerated:
equal values; two entry lists of one mapping, that is, the same keys, in any
order, and under each key elements that are the same in this sense; pointers to
such values. -/
inductive SameMapping : Value → Value → Prop where
  | same (value : Value) : SameMapping value value
  | map (keyType : MapKeyType) (entries entries' : List (Value × Value))
      (hkeys : (entries.map (fun entry => entry.1)).Perm
        (entries'.map (fun entry => entry.1)))
      (helements : ∀ key element element', (key, element) ∈ entries →
        (key, element') ∈ entries' → SameMapping element element') :
      SameMapping (Value.map keyType entries) (Value.map keyType entries')
  | ptr (elem elem' : Value) (h : SameMapping elem elem') :
      SameMapping (Value.ptr (some elem)) (Value.ptr (some elem'))
  | namedCollection (elem elem' : Value) (h : SameMapping elem elem') :
      SameMapping (Value.namedCollection (some elem)) (Value.namedCollection (some elem'))

/-- The stored value `Value.collection pairs`, a `*Collection`, mirrors the
string-keyed map `source`: the Collection has as many pairs as the source has
entries, its `Keys()` are the keys of the source, in strictly ascending order,
and under every key whose element is a nested map (or points to one) `Get`
returns a Collection that mirrors the nested map. -/
inductive Mirrors : Value → Value → Prop where
  | intro (entries : List (Value × Value)) (pairs : List (Pair Value))
      (hlength : (Collection.mk pairs).Length = entries.length)
      (hkeys : (Collection.mk pairs).Keys.Perm
        (entries.map (fun entry => keyString MapKeyType.string entry.1)))
      (hascending : (Collection.mk pairs).Keys.Pairwise keyLT)
      (hnested : ∀ key element nested, lookupString key entries = some element →
        nestedMapOf element = some nested →
        Mirrors nested ((Collection.mk pairs).Get key)) :
      Mirrors (Value.map MapKeyType.string entries) (Value.collection pairs)

end Collection

/-- Array defines an Array Type: `type Array []interface{}`. -/
structure Array where
  values : List Value

namespace Array

/-- The loop of `Find`: `index` is the position of the head of the list. -/
def findLoop (array : Array) (function : Array → Int → Value → Bool) :
    List Value → Nat → Value
  | [], _ => Value.nil
  | v :: rest, index =>
    if function array (index : Int) v then v else findLoop array function rest (index + 1)

/-- The Find() function returns the value of the first element that satisfies
the testing function, otherwise nil.  The testing function is a function of
its three arguments. -/
def Find (array : Array) (function : Array → Int → Value → Bool) : Value :=
  findLoop array function array.values 0

/-- The loop of `FindIndex`. -/
def findIndexLoop (array : Array) (function : Array → Int → Value → Bool) :
    List Value → Nat → Int
  | [], _ => -1
  | v :: rest, index =>
    if function array (index : Int) v then (index : Int)
    else findIndexLoop array function rest (index + 1)

/-- The FindIndex() function returns the index of the first element that
satisfies the testing function, otherwise -1. -/
def FindIndex (array : Array) (function : Array → Int → Value → Bool) : Int :=
  findIndexLoop array function array.values 0

/-- The index expression `array[i]`: the element at position `i`, or a
run-time panic when `i` is out of range. -/
def index (array : Array) (i : Int) : Outcome Value :=
  if 0 ≤ i ∧ i < (array.values.length : Int) then
    match array.values[i.toNat]? with
    | some v => Outcome.ok v
    | none => Outcome.fault
  else Outcome.fault

/-- The loop of `Includes`.  `equal` is Go's `==` on two interface values, the
element on the left: true or false, or a run-time panic when both operands hold
the same uncomparable type (two slices, two maps). -/
def includesLoop (equal : Value → Value → Outcome Bool) (value : Value) :
    List Value → Outcome Bool
  | [] => Outcome.ok false
  | v :: rest =>
    match equal v value with
    | Outcome.ok true => Outcome.ok true
    | Outcome.ok false => includesLoop equal value rest
    | Outcome.error err => Outcome.error err
    | Outcome.fault => Outcome.fault

/-- The Includes() function determines whether the Array includes a certain
value among its entries. -/
def Includes (array : Array) (equal : Value → Value → Outcome Bool) (value : Value) :
    Outcome Bool :=
  includesLoop equal value array.values

/-- The loop of `IndexOf`: `i` is the position of the head of the list. -/
def indexOfLoop (equal : Value → Value → Outcome Bool) (value : Value) :
    List Value → Nat → Outcome Int
  | [], _ => Outcome.ok (-1)
  | v :: rest, i =>
    match equal v value with
    | Outcome.ok true => Outcome.ok (i : Int)
    | Outcome.ok false => indexOfLoop equal value rest (i + 1)
    | Outcome.error err => Outcome.error err
    | Outcome.fault => Outcome.fault

/-- The IndexOf() function returns the first index at which a given element
can be found in the Array, or -1 if it is not present. -/
def IndexOf (array : Array) (equal : Value → Value → Outcome Bool) (value : Value) :
    Outcome Int :=
  indexOfLoop equal value array.values 0

/-- The loop `for i := fromIndex; i >= 0; i--` of `LastIndexOf`, with `i + 1`
as its argument: `lastIndexOfLoop 0` is the exit at `i = -1`. -/
def lastIndexOfLoop (array : Array) (equal : Value → Value → Outcome Bool)
    (value : Value) : Nat → Outcome Int
  | 0 => Outcome.ok (-1)
  | i + 1 =>
    match array.index (i : Int) with
    | Outcome.ok v =>
      match equal v value with
      | Outcome.ok true => Outcome.ok (i : Int)
      | Outcome.ok false => lastIndexOfLoop array equal value i
      | Outcome.error err => Outcome.error err
      | Outcome.fault => Outcome.fault
    | Outcome.error err => Outcome.error err
    | Outcome.fault => Outcome.fault

/-- The start of the backward scan of `LastIndexOf`: `fromIndex`, set to the
last index when it is less than 0 or more than the last index. -/
def lastIndexOfStart (array : Array) (fromIndex : Int) : Int :=
  if fromIndex < 0 ∨ fromIndex > (array.values.length : Int) - 1 then
    (array.values.length : Int) - 1
  else fromIndex

/-- The LastIndexOf() function returns the last index at which a given element
can be found in the Array, or -1 if it is not present.  The Array is searched
backwards, starting at fromIndex. -/
def LastIndexOf (array : Array) (equal : Value → Value → Outcome Bool) (value : Value)
    (fromIndex : Int) : Outcome Int :=
  lastIndexOfLoop array equal value (array.lastIndexOfStart fromIndex + 1).toNat

/-- The loop of `Join`: `i` is the position of the head of the list, `length`
is `len(array)`, `str` the text built so far.  `format` is the default
formatting of `fmt` (`%v`). -/
def joinLoop (format : Value → String) (separator : String) (length : Nat) :
    List Value → Nat → String → String
  | [], _, str => str
  | v :: rest, i, str =>
    joinLoop format separator length rest (i + 1)
      (if (i : Int) ≠ (length : Int) - 1 then str ++ format v ++ separator
       else str ++ format v)

/-- The Join() function creates and returns a new string by concatenating all
of the elements in the Array, separated by a specified separator string. -/
def Join (array : Array) (format : Value → String) (separator : String) : String :=
  joinLoop format separator array.values.length array.values 0 ""

/-- The Push() function adds one or more elements to the end of an array and
returns the new Array: `append(array, values...)`. -/
def Push (array : Array) (values : List Value) : Array :=
  ⟨array.values ++ values⟩

/-- The New() function creates a new Array; the values given are pushed as its
elements. -/
def New (values : List Value) : Array :=
  (Array.mk []).Push values

/-- The storage that slices share: the backing arrays, each the list of its
cells. -/
abbrev Store := List (List Value)

/-- A slice header, which is what a value of Go type `Array` is: the backing
array, the position of the first element in it, the length and the capacity. -/
structure Slice where
  array : Nat
  offset : Nat
  length : Nat
  capacity : Nat

/-- The elements of a slice: `length` cells of its backing array, from
`offset` on. -/
def elements (store : Store) (array : Slice) : List Value :=
  ((store.getD array.array []).drop array.offset).take array.length

/-- The cells of a backing array after `values` are written from `position` on. -/
def writeCells (cells : List Value) (position : Nat) (values : List Value) : List Value :=
  cells.take position ++ values ++ cells.drop (position + values.length)

/-- Go's `append(array, values...)` on the storage: when the capacity suffices,
the values are written into the backing array of `array`, behind its elements,
and the result shares that backing array; otherwise a new backing array is
allocated, of a capacity chosen by the runtime (`grow`, at least what is
needed), and the elements and the values are copied into it.  The elements of
the result are those that `Push` gives (lemma `append_elements`). -/
def append (grow : Nat → Nat → Nat) (store : Store) (array : Slice) (values : List Value) :
    Store × Slice :=
  if array.length + values.length ≤ array.capacity then
    (store.set array.array
        (writeCells (store.getD array.array []) (array.offset + array.length) values),
      ⟨array.array, array.offset, array.length + values.length, array.capacity⟩)
  else
    let needed := array.length + values.length
    let capacity := max needed (grow array.capacity needed)
    (store ++ [elements store array ++ values ++ List.replicate (capacity - needed) Value.nil],
      ⟨store.length, 0, needed, capacity⟩)

/-- The Concat() function is used to merge two or more Arrays: each of the
others is pushed, in order, `concatenatedArray = concatenatedArray.Push(other...)`;
the elements of an other are those that it has when its turn comes. -/
def Concat (grow : Nat → Nat → Nat) (store : Store) (array : Slice) (others : List Slice) :
    Store × Slice :=
  others.foldl
    (fun concatenated other =>
      append grow concatenated.1 concatenated.2 (elements concatenated.1 other))
    (store, array)

/-- The Array that Pop() returns: the Array itself when it is empty, else
`array[:lastIndex]`, which keeps the backing array and the capacity. -/
def popSlice (array : Slice) : Slice :=
  if array.length = 0 then array
  else ⟨array.array, array.offset, array.length - 1, array.capacity⟩

/-- The Array that Shift() returns: the Array itself when it is empty, else
`array[1:]`, which starts one cell further in the same backing array. -/
def shiftSlice (array : Slice) : Slice :=
  if array.length = 0 then array
  else ⟨array.array, array.offset + 1, array.length - 1, array.capacity - 1⟩

/-- New() on the storage: the values are pushed on the empty `Array{}`. -/
def newSlice (grow : Nat → Nat → Nat) (store : Store) (values : List Value) : Store × Slice :=
  append grow store ⟨store.length, 0, 0, 0⟩ values

/-- The storage and the Array after `base := New(1, 2)`, from an empty storage. -/
def sharedBase (grow : Nat → Nat → Nat) : Store × Slice :=
  newSlice grow [] [Value.int 1, Value.int 2]

/-- The storage and the Array after the `New(9)` that follows. -/
def sharedOther (grow : Nat → Nat → Nat) : Store × Slice :=
  newSlice grow (sharedBase grow).1 [Value.int 9]

/-- The storage and the Array after `a.Concat(New(9), o2)`, where `a` is the
Array that `base.Pop()` returns and `o2` the one that `base.Shift()` returns. -/
def sharedConcat (grow : Nat → Nat → Nat) : Store × Slice :=
  Concat grow (sharedOther grow).1 (popSlice (sharedBase grow).2)
    [(sharedOther grow).2, shiftSlice (sharedBase grow).2]

/-- A slice header is valid in a storage when its length is within its capacity
and its capacity within its backing array. -/
def valid (store : Store) (array : Slice) : Prop :=
  array.length ≤ array.capacity ∧
    array.offset + array.capacity ≤ (store.getD array.array []).length

instance valid_decidable (store : Store) (array : Slice) : Decidable (valid store array) := by
  unfold valid; infer_instance

/-- An other shares no storage with the receiver: it is empty, or its backing
array is another one of the storage. -/
def separate (store : Store) (array other : Slice) : Prop :=
  other.length = 0 ∨ (other.array ≠ array.array ∧ other.array < store.length)

instance separate_decidable (store : Store) (array other : Slice) :
    Decidable (separate store array other) := by
  unfold separate; infer_instance

/-- The Pop() function removes the last element from the Array and returns the
new Array, `array[:lastIndex]`, and that last element. -/
def Pop (array : Array) : Outcome (Array × Value) :=
  if array.values.length = 0 then Outcome.ok (array, Value.nil)
  else
    let lastIndex : Int := (array.values.length : Int) - 1
    match array.index lastIndex with
    | Outcome.ok lastValue => Outcome.ok (⟨array.values.take lastIndex.toNat⟩, lastValue)
    | Outcome.error err => Outcome.error err
    | Outcome.fault => Outcome.fault

/-- The Shift() function removes the first element from the Array and returns
the new Array, `array[1:]`, and that removed element. -/
def Shift (array : Array) : Outcome (Array × Value) :=
  if array.values.length = 0 then Outcome.ok (array, Value.nil)
  else
    match array.index 0 with
    | Outcome.ok firstValue => Outcome.ok (⟨array.values.drop 1⟩, firstValue)
    | Outcome.error err => Outcome.error err
    | Outcome.fault => Outcome.fault

/-- The loop `for i := len(array) - 1; i >= 0; i--` of `Reverse`, with `i + 1`
as its argument. -/
def reverseLoop (array : Array) : Nat → Array → Outcome Array
  | 0, reversedArray => Outcome.ok reversedArray
  | i + 1, reversedArray =>
    match array.index (i : Int) with
    | Outcome.ok v => reverseLoop array i (reversedArray.Push [v])
    | Outcome.error err => Outcome.error err
    | Outcome.fault => Outcome.fault

/-- The Reverse() function returns the Array reversed: the first element
becomes the last, and the last becomes the first. -/
def Reverse (array : Array) : Outcome Array :=
  reverseLoop array ((array.values.length : Int) - 1 + 1).toNat (New [])

/-- The texts with the separator between each two of them: nothing before the
first text and nothing after the last. -/
def joinWith (separator : String) : List String → String
  | [] => ""
  | [text] => text
  | text :: next :: rest => text ++ separator ++ joinWith separator (next :: rest)

/-- What `Includes` returns when `IndexOf` returns `result`: whether the index
is not -1. -/
def foundAt : Outcome Int → Outcome Bool
  | Outcome.ok result => Outcome.ok (decide (result ≠ -1))
  | Outcome.error err => Outcome.error err
  | Outcome.fault => Outcome.fault

/-- The inner loop `for i := 1; i < len(array); i++` of `Sort` from position
`i`, with `a = array[i-1]` and the elements from `array[i]` on: the elements
from position `i - 1` on after the loop, and the number of swaps.  The loops of
`Sort` are written for any element type; `Sort` is their instance at
`interface{}`, and the instance at elements that carry their input position
follows each element through the passes. -/
def sortPassFrom {α : Type} (function : α → α → Int) : α → List α → List α × Nat
  | a, [] => ([a], 0)
  | a, b :: rest =>
    if function a b > 0 then
      (b :: (sortPassFrom function a rest).1, (sortPassFrom function a rest).2 + 1)
    else
      (a :: (sortPassFrom function b rest).1, (sortPassFrom function b rest).2)

/-- One pass of the inner loop of `Sort`: the array after the pass and
`shiftCount`. -/
def sortPass {α : Type} (function : α → α → Int) : List α → List α × Nat
  | [] => ([], 0)
  | a :: rest => sortPassFrom function a rest

/-- The outer loop `for { ... if shiftCount == 0 { break } }` of `Sort`, for at
most `fuel` passes: the array when the loop ends, `none` when `fuel` passes do
not end it. -/
def sortLoop {α : Type} (function : α → α → Int) : Nat → List α → Option (List α)
  | 0, _ => none
  | fuel + 1, array =>
    if (sortPass function array).2 = 0 then some (sortPass function array).1
    else sortLoop function fuel (sortPass function array).1

/-- The Sort() function sorts the elements of the Array in place based on a
provided compare function: the elements of the Array after the call, when
`fuel` passes are enough (`SortWith` here: `Sort` is a keyword of Lean). -/
def SortWith (array : Array) (function : Value → Value → Int) (fuel : Nat) : Option Array :=
  (sortLoop function fuel array.values).map Array.mk

/-- The number of inverted pairs of a list: positions `i < j` with
`function (l[i]) (l[j]) > 0`. -/
def inversions {α : Type} (function : α → α → Int) : List α → Nat
  | [] => 0
  | x :: rest => rest.countP (fun y => decide (function x y > 0)) + inversions function rest

/-- The loop of `Filter`: `i` is the position of the head of the list,
`filteredArray` the Array built so far. -/
def filterLoop (array : Array) (function : Array → Int → Value → Bool) :
    List Value → Nat → Array → Array
  | [], _, filteredArray => filteredArray
  | v :: rest, i, filteredArray =>
    if function array (i : Int) v then
      filterLoop array function rest (i + 1) (filteredArray.Push [v])
    else filterLoop array function rest (i + 1) filteredArray

/-- The Filter() function creates a new Array with all elements that pass the
test implemented by the provided function. -/
def Filter (array : Array) (function : Array → Int → Value → Bool) : Array :=
  filterLoop array function array.values 0 (New [])

/-- The loop of `Map`. -/
def mapLoop (array : Array) (function : Array → Int → Value → Value) :
    List Value → Nat → Array → Array
  | [], _, newArray => newArray
  | v :: rest, i, newArray =>
    mapLoop array function rest (i + 1) (newArray.Push [function array (i : Int) v])

/-- The Map() function creates a new Array populated with the results of
calling a provided function on every element in the Array. -/
def Map (array : Array) (function : Array → Int → Value → Value) : Array :=
  mapLoop array function array.values 0 (New [])

/-- The number of bits of a signed integer kind (`int` has 64). -/
def signedBits : SignedKind → Nat
  | SignedKind.Int => 64
  | SignedKind.Int8 => 8
  | SignedKind.Int16 => 16
  | SignedKind.Int32 => 32
  | SignedKind.Int64 => 64

/-- The number of bits of an unsigned integer kind (`uint` has 64). -/
def unsignedBits : UnsignedKind → Nat
  | UnsignedKind.Uint => 64
  | UnsignedKind.Uint8 => 8
  | UnsignedKind.Uint16 => 16
  | UnsignedKind.Uint32 => 32
  | UnsignedKind.Uint64 => 64
  | UnsignedKind.Uintptr => 64

/-- The kinds of the `case reflect.Uint, reflect.Uint8, reflect.Uint16,
reflect.Uint32, reflect.Uint64` of the switches of the Array presenter:
`reflect.Uintptr` is not among them. -/
def inUnsignedCase : UnsignedKind → Bool
  | UnsignedKind.Uintptr => false
  | _ => true

/-- An integer value lies in the range of its type; every other value passes. -/
def inRange : Value → Prop
  | Value.int i => -2 ^ 63 ≤ i ∧ i < 2 ^ 63
  | Value.signed kind i => -2 ^ (signedBits kind - 1) ≤ i ∧ i < 2 ^ (signedBits kind - 1)
  | Value.unsigned kind n => n < 2 ^ unsignedBits kind
  | _ => True

/-- The number that an element of an integer kind holds. -/
def numericValue : Value → Option Int
  | Value.int i => some i
  | Value.signed _ i => some i
  | Value.unsigned _ n => some (n : Int)
  | _ => none

/-- The conversion `int64(x)` of a `uint64` `x`: the same 64 bits read in
two's complement. -/
def int64OfUint64 (n : Nat) : Int :=
  ((n : Int) + 2 ^ 63) % 2 ^ 64 - 2 ^ 63

/-- The conversion `uint64(x)` of an `int64` `x`: the same 64 bits read as an
unsigned number. -/
def uint64OfInt64 (i : Int) : Nat :=
  (i % 2 ^ 64).toNat

/-- The `switch reflection.Kind()` of `AsInt64Slice` for one element:
`int64(reflection.Uint())` for the unsigned kinds of the first case,
`reflection.Int()` for the signed kinds, and ElementTypeNotInt64Error
otherwise. -/
def asInt64 : Value → Outcome Int
  | Value.unsigned kind n =>
    if inUnsignedCase kind then Outcome.ok (int64OfUint64 n)
    else Outcome.error Error.ElementTypeNotInt64Error
  | Value.signed _ i => Outcome.ok i
  | Value.int i => Outcome.ok i
  | _ => Outcome.error Error.ElementTypeNotInt64Error

/-- The loop of `AsInt64Slice`: `slice` holds the elements filled so far. -/
def asInt64Loop : List Value → List Int → Outcome (List Int)
  | [], slice => Outcome.ok slice
  | v :: rest, slice =>
    match asInt64 v with
    | Outcome.ok value => asInt64Loop rest (slice ++ [value])
    | Outcome.error err => Outcome.error err
    | Outcome.fault => Outcome.fault

/-- The AsInt64Slice() function of the Presenter of an Array returns the Array
as a int64 slice. -/
def AsInt64Slice (array : Array) : Outcome (List Int) :=
  asInt64Loop array.values []

/-- The `switch reflection.Kind()` of `AsUint64Slice` for one element:
`reflection.Uint()` for the unsigned kinds of the first case; for the signed
kinds
ElementTypeNotUint64Error when `reflection.Int() < 0` and
`uint64(reflection.Int())` otherwise; ElementTypeNotUint64Error for any other
kind. -/
def asUint64 : Value → Outcome Nat
  | Value.unsigned kind n =>
    if inUnsignedCase kind then Outcome.ok n
    else Outcome.error Error.ElementTypeNotUint64Error
  | Value.signed _ i =>
    if i < 0 then Outcome.error Error.ElementTypeNotUint64Error
    else Outcome.ok (uint64OfInt64 i)
  | Value.int i =>
    if i < 0 then Outcome.error Error.ElementTypeNotUint64Error
    else Outcome.ok (uint64OfInt64 i)
  | _ => Outcome.error Error.ElementTypeNotUint64Error

/-- The loop of `AsUint64Slice`. -/
def asUint64Loop : List Value → List Nat → Outcome (List Nat)
  | [], slice => Outcome.ok slice
  | v :: rest, slice =>
    match asUint64 v with
    | Outcome.ok value => asUint64Loop rest (slice ++ [value])
    | Outcome.error err => Outcome.error err
    | Outcome.fault => Outcome.fault

/-- The AsUint64Slice() function of the Presenter of an Array returns the
Array as a uint64 slice. -/
def AsUint64Slice (array : Array) : Outcome (List Nat) :=
  asUint64Loop array.values []

/-- The condition of the specification on an element: of an integer kind,
signed or unsigned (`Uintptr` is one), and, when the kind is signed, not
negative. -/
def isNonNegativeInteger (value : Value) : Prop :=
  ∃ i, numericValue value = some i ∧ 0 ≤ i

/-- Whether a value is of kind `Uintptr`. -/
def isUintptr : Value → Bool
  | Value.unsigned UnsignedKind.Uintptr _ => true
  | _ => false

/-- An element that `AsUint64Slice` accepts: of one of the integer kinds `Int`,
`Int8`, ..., `Int64`, `Uint`, `Uint8`, ..., `Uint64` and, when the kind is
signed, not negative. -/
def isAccepted (value : Value) : Prop :=
  isNonNegativeInteger value ∧ isUintptr value = false

end Array

/-- Object defines a Object Type: `type Object map[string]interface{}`: the
nil map, or a map with its entries in one order of enumeration; in a map each
key occurs once (`wellFormed`). -/
inductive Object where
  | nil
  | map (entries : List (String × Value))

/-- What `AsStruct` inspects of its parameter `v interface{}`: the nil
interface, a value whose type is not a pointer type, or a pointer (nil when
`pointee` is `none`) whose element type is a struct type or not. -/
inductive Target where
  | nilInterface
  | nonPointer (value : Value)
  | pointer (toStruct : Bool) (pointee : Option Value)

namespace Object

/-- The entries of the map; the nil map has none. -/
def entries : Object → List (String × Value)
  | Object.nil => []
  | Object.map entries => entries

/-- The New() function creates a new Object: `Object{}`. -/
def New : Object := Object.map []

/-- The invariant of a Go map: no key occurs twice. -/
def wellFormed (object : Object) : Prop :=
  (object.entries.map (fun entry => entry.1)).Nodup

/-- The map access `v, exists := object[key]`. -/
def lookup (key : String) : List (String × Value) → Option Value
  | [] => none
  | (k, v) :: rest => if k = key then some v else lookup key rest

/-- The index expression `object[key]`: the element, or nil when the key is
absent. -/
def index (object : Object) (key : String) : Value :=
  match lookup key object.entries with
  | some value => value
  | none => Value.nil

/-- The Has() function returns a boolean indicating whether an element with the
specified key exists or not. -/
def Has (object : Object) (key : String) : Bool :=
  (lookup key object.entries).isSome

/-- The Get() function returns a specified element from the Object, nil if the
element does not exist. -/
def Get (object : Object) (key : String) : Value :=
  if !object.Has key then Value.nil else object.index key

/-- The assignment `object[key] = value` on the entries. -/
def assign (key : String) (value : Value) : List (String × Value) → List (String × Value)
  | [] => [(key, value)]
  | (k, v) :: rest =>
    if k = key then (k, value) :: rest else (k, v) :: assign key value rest

/-- The Set() function adds or updates an element with a specified key and
value to the Object; the assignment to an entry of the nil map panics. -/
def Set (object : Object) (key : String) (value : Value) : Outcome Object :=
  match object with
  | Object.nil => Outcome.fault
  | Object.map entries => Outcome.ok (Object.map (assign key value entries))

/-- The statement `delete(object, key)` on the entries. -/
def remove (key : String) (entries : List (String × Value)) : List (String × Value) :=
  entries.filter (fun entry => decide (entry.1 ≠ key))

/-- The Delete() function removes the specified element from the Object by
key. -/
def Delete (object : Object) (key : String) : Object :=
  if object.Has key then Object.map (remove key object.entries) else object

/-- The Clear() function removes all elements from the Object: the loop
`for key, _ := range object { delete(object, key) }` over the keys. -/
def Clear (object : Object) : Object :=
  match object with
  | Object.nil => Object.nil
  | Object.map entries =>
    Object.map ((entries.map (fun entry => entry.1)).foldl
      (fun entries key => remove key entries) entries)

/-- The Keys() function returns the keys of the Object, sorted. -/
def Keys (object : Object) : List String :=
  Collection.sortStrings (object.entries.map (fun entry => entry.1))

/-- The Length() function returns the number of elements contained inside the
Object. -/
def Length (object : Object) : Nat :=
  object.entries.length

/-- The Values() function returns the values for each element in the Object,
ordered by the sorted keys. -/
def Values (object : Object) : List Value :=
  (Collection.sortStrings (object.entries.map (fun entry => entry.1))).map
    (fun key => object.index key)

/-- The ForEach() function executes a provided function once for each Object
element, the keys sorted.  The callback is a state transformer: `σ` is whatever
the closure can reach, the Object itself excluded. -/
def ForEach {σ : Type} (object : Object) (f : String → Value → σ → σ) (state : σ) : σ :=
  object.Keys.foldl (fun s key => f key (object.index key) s) state

/-- The AsStruct() function of the Presenter of an Object: the error it
returns (`none` for nil) and the target afterwards.  `marshal` is `String()`
of the Object (`json.Marshal`), and `decode` is `json.NewDecoder(...).Decode(v)`:
the error it returns and the target after it. -/
def AsStruct (marshal : Object → String)
    (decode : String → Target → Option Error × Target)
    (object : Object) (v : Target) : Outcome (Option Error × Target) :=
  match v with
  | Target.nilInterface => Outcome.fault
  | Target.nonPointer _ => Outcome.ok (some Error.NonPtrTypeError, v)
  | Target.pointer false _ => Outcome.ok (some Error.PtrToNonStructTypeError, v)
  | Target.pointer true _ => Outcome.ok (decode (marshal object) v)

end Object

namespace Collection

/-- The assignment `object[key] = value` on a Go map with string keys, on its
entries: the element under the key is replaced, or a new entry is added. -/
def mapAssign (key : String) (value : Value) : List (Value × Value) → List (Value × Value)
  | [] => [(Value.str key, value)]
  | (Value.str s, element) :: rest =>
    if s = key then (Value.str s, value) :: rest
    else (Value.str s, element) :: mapAssign key value rest
  | entry :: rest => entry :: mapAssign key value rest

/-- The map that the nested `AsMap()` returns, as the value stored in
`object[pair.key]`. -/
def asMapResult : Outcome (List (Value × Value)) → Outcome Value
  | Outcome.ok object => Outcome.ok (Value.map MapKeyType.string object)
  | Outcome.error err => Outcome.error err
  | Outcome.fault => Outcome.fault

mutual
/-- What the body of the loop of `AsMap` leaves in `object[pair.key]` for the
value of a pair.  `reflect.TypeOf(nil)` is nil and its `Kind()` panics; a
pointer whose element type is named `Collection` is asserted to be a
`*Collection` and presented by `AsMap()`, which panics when the type is another
one or the pointer is nil; any other value is stored as it is.  The nested
`AsMap()` is written as its body, `asMapLoop` from the empty map. -/
def presentValue : Value → Outcome Value
  | Value.nil => Outcome.fault
  | Value.collection pairs => asMapResult (asMapLoop pairs [])
  | Value.namedCollection _ => Outcome.fault
  | value => Outcome.ok value
termination_by structural value => value
/-- The loop of `AsMap` over the pairs, `object` being the map built so far. -/
def asMapLoop : List (Pair Value) → List (Value × Value) →
    Outcome (List (Value × Value))
  | [], object => Outcome.ok object
  | ⟨key, value⟩ :: rest, object =>
    match presentValue value with
    | Outcome.ok presented => asMapLoop rest (mapAssign key presented object)
    | Outcome.error err => Outcome.error err
    | Outcome.fault => Outcome.fault
termination_by structural pairs => pairs
end

/-- The AsMap() function of the Presenter of a Collection, `Present().AsMap()`:
a `map[string]interface{}` based on the elements inside the Collection. -/
def AsMap (collection : Collection) : Outcome Value :=
  asMapResult (asMapLoop collection.pairs [])

/-- The value that `AsMap` stores for a value of a pair, when it stores one. -/
def presentedOf (value : Value) : Value :=
  match presentValue value with
  | Outcome.ok presented => presented
  | _ => Value.nil

mutual
/-- A nested map of plain values: a map with key type `string` whose elements
are again such maps or leaves that are neither nil, nor a pointer, nor a map
(numbers, strings, booleans and the like). -/
def plainValue : Value → Bool
  | Value.map keyType entries =>
    decide (keyType = MapKeyType.string) && stringKeys entries && plainEntries entries
  | Value.bool _ => true
  | Value.int _ => true
  | Value.str _ => true
  | Value.other _ _ => true
  | Value.namedStr _ _ => true
  | Value.signed _ _ => true
  | Value.unsigned _ _ => true
  | _ => false
termination_by structural value => value
/-- The elements of a map are `plainValue`s. -/
def plainEntries : List (Value × Value) → Bool
  | [] => true
  | (_, value) :: rest => plainValue value && plainEntries rest
termination_by structural entries => entries
end

/-- The text that `String()` returns for a nested Collection, when `fmt` gets
one from the call; `fmt` recovers from a panic of a `String` method and prints
its own text in place, here `fallback`. -/
def stringerText (fallback : String) : Outcome String → String
  | Outcome.ok text => text
  | _ => fallback

mutual
/-- What the `switch reflect.ValueOf(pair.value).Kind()` of `String()` appends
for the value of a pair.  `format` is the default formatting of `fmt` (`%v`)
for the values that are not Stringers.  A value of kind String is asserted to
be a `string`, which panics for a defined string type; for a `*Collection`,
`%v` calls `String()`. -/
def renderValue (format : Value → String) : Value → Outcome String
  | Value.str s => Outcome.ok ("\"" ++ s ++ "\"")
  | Value.namedStr _ _ => Outcome.fault
  | Value.collection pairs =>
    Outcome.ok (stringerText (format (Value.collection pairs))
      (match stringLoop format pairs 0 "" with
        | Outcome.ok str => Outcome.ok ("\x7b" ++ str ++ "\x7d")
        | Outcome.error err => Outcome.error err
        | Outcome.fault => Outcome.fault))
  | value => Outcome.ok (format value)
termination_by structural value => value
/-- The loop of `String()`: `index` is the position of the head of the list,
`str` the text built so far. -/
def stringLoop (format : Value → String) :
    List (Pair Value) → Nat → String → Outcome String
  | [], _, str => Outcome.ok str
  | ⟨key, value⟩ :: rest, index, str =>
    match renderValue format value with
    | Outcome.ok text =>
      stringLoop format rest (index + 1)
        ((if index ≠ 0 then str ++ "," else str) ++ ("\"" ++ key ++ "\":") ++ text)
    | Outcome.error err => Outcome.error err
    | Outcome.fault => Outcome.fault
termination_by structural pairs => pairs
end

/-- The String() function returns a string representing the specified
Collection and its elements (`StringOf` here: `String` is the type of Lean's
strings). -/
def StringOf (format : Value → String) (collection : Collection) : Outcome String :=
  match stringLoop format collection.pairs 0 "" with
  | Outcome.ok str => Outcome.ok ("\x7b" ++ str ++ "\x7d")
  | Outcome.error err => Outcome.error err
  | Outcome.fault => Outcome.fault

/-- The comma-separated list of the texts: no leading or trailing comma. -/
def joinComma : List String → String
  | [] => ""
  | [text] => text
  | text :: next :: rest => text ++ "," ++ joinComma (next :: rest)

/-- The rendering of a value in the words of the specification: in double
quotes when it is a string, the nested `String()` when it is a Collection, the
default formatting otherwise. -/
def valueText (format : Value → String) : Value → String
  | Value.str s => "\"" ++ s ++ "\""
  | Value.collection pairs =>
    stringerText (format (Value.collection pairs)) (StringOf format ⟨pairs⟩)
  | value => format value

/-- The rendering of a pair in the words of the specification: the key in
double quotes, a colon, the rendering of the value. -/
def pairText (format : Value → String) (pair : Pair Value) : String :=
  "\"" ++ pair.key ++ "\":" ++ valueText format pair.value

/-- Whether a value has a defined type whose underlying type is `string`. -/
def isNamedStr : Value → Bool
  | Value.namedStr _ _ => true
  | _ => false

mutual
/-- A value that `AsMap` can present: not nil, not a nil `*Collection` or a
pointer to another type named `Collection`, and, for a `*Collection`, only such
values inside, at every depth. -/
def presentable : Value → Bool
  | Value.nil => false
  | Value.namedCollection _ => false
  | Value.collection pairs => presentablePairs pairs
  | _ => true
termination_by structural value => value
/-- The values of the pairs are `presentable`. -/
def presentablePairs : List (Pair Value) → Bool
  | [] => true
  | ⟨_, value⟩ :: rest => presentable value && presentablePairs rest
termination_by structural pairs => pairs
end

/-! ## Lemmas on the loops -/

/-- The predicate that the loops of `IndexOf` and `PairOf` test. -/
def hasKey (key : String) (pair : Pair Value) : Bool := decide (pair.key = key)

theorem indexOfLoop_eq (key : String) (pairs : List (Pair Value)) (start : Nat) :
    indexOfLoop key pairs start =
      if pairs.findIdx (hasKey key) < pairs.length
      then ((start + pairs.findIdx (hasKey key) : Nat) : Int) else -1 := by
  induction pairs generalizing start with
  | nil => simp [indexOfLoop]
  | cons pair rest ih =>
    by_cases h : pair.key = key
    · simp [indexOfLoop, List.findIdx_cons, hasKey, h]
    · simp only [indexOfLoop, List.findIdx_cons, hasKey, h, if_false, decide_False, cond_false,
        List.length_cons, Nat.add_lt_add_iff_right]
      rw [ih (start + 1)]
      split
      · congr 1; omega
      · rfl

theorem IndexOf_eq (c : Collection) (key : String) :
    c.IndexOf key =
      if c.pairs.findIdx (hasKey key) < c.pairs.length
      then ((c.pairs.findIdx (hasKey key) : Nat) : Int) else -1 := by
  unfold IndexOf
  rw [indexOfLoop_eq]
  simp

theorem findIdx_lt_iff_mem_keys (key : String) (pairs : List (Pair Value)) :
    pairs.findIdx (hasKey key) < pairs.length ↔ key ∈ pairs.map (fun pair => pair.key) := by
  rw [List.findIdx_lt_length]
  simp [hasKey]

theorem PairOf_eq_none_iff (c : Collection) (key : String) :
    c.PairOf key = none ↔ key ∉ c.Keys := by
  simp [PairOf, Keys, List.find?_eq_none]

theorem Has_iff_mem_keys (c : Collection) (key : String) :
    c.Has key = true ↔ key ∈ c.Keys := by
  unfold Has
  rw [Option.isSome_iff_ne_none, Ne, PairOf_eq_none_iff]
  exact not_not

theorem take_drop_findIdx (p : Pair Value → Bool) (pairs : List (Pair Value))
    (h : pairs.findIdx p < pairs.length) :
    pairs.take (pairs.findIdx p) ++ pairs.drop (pairs.findIdx p + 1) = pairs.eraseP p := by
  induction pairs with
  | nil => simp at h
  | cons pair rest ih =>
    cases hp : p pair with
    | true => simp [List.findIdx_cons, hp, List.eraseP_cons]
    | false =>
      simp only [List.findIdx_cons, hp, cond_false, List.length_cons,
        Nat.add_lt_add_iff_right] at h
      simp [List.findIdx_cons, hp, List.eraseP_cons, ih h]

theorem Delete_pairs (c : Collection) (key : String) :
    (c.Delete key).pairs = c.pairs.eraseP (hasKey key) := by
  unfold Delete
  simp only [IndexOf_eq]
  by_cases h : c.pairs.findIdx (hasKey key) < c.pairs.length
  · have hne : ((c.pairs.findIdx (hasKey key) : Nat) : Int) ≠ -1 := by omega
    simp only [h, if_true, hne, ne_eq, not_false_eq_true, Int.toNat_ofNat]
    exact take_drop_findIdx _ _ h
  · simp only [h, if_false, ne_eq, not_true_eq_false]
    have hall : ∀ pair ∈ c.pairs, ¬ hasKey key pair = true := by
      intro pair hmem hp
      exact h (List.findIdx_lt_length.2 ⟨pair, hmem, hp⟩)
    exact (List.eraseP_of_forall_not hall).symm

theorem eraseP_eq_filter_of_nodup (key : String) (pairs : List (Pair Value))
    (hu : (pairs.map (fun pair => pair.key)).Nodup) :
    pairs.eraseP (hasKey key) = pairs.filter (fun pair => !hasKey key pair) := by
  induction pairs with
  | nil => rfl
  | cons pair rest ih =>
    rw [List.map_cons, List.nodup_cons] at hu
    by_cases h : pair.key = key
    · have hrest : ∀ q ∈ rest, (!hasKey key q) = true := by
        intro q hq
        have : q.key ≠ key := by
          intro hqk
          exact hu.1 (List.mem_map.2 ⟨q, hq, by rw [hqk, h]⟩)
        simp [hasKey, this]
      simp [List.eraseP_cons, hasKey, h, List.filter_cons]
      exact (List.filter_eq_self.2 hrest).symm
    · simp [List.eraseP_cons, hasKey, h, List.filter_cons]
      have := ih hu.2
      simpa [hasKey] using this

theorem assignPair_keys (key : String) (value : Value) (pairs : List (Pair Value)) :
    (assignPair key value pairs).map (fun pair => pair.key) =
      pairs.map (fun pair => pair.key) := by
  induction pairs with
  | nil => rfl
  | cons pair rest ih =>
    by_cases h : pair.key = key
    · simp [assignPair, h]
    · simp [assignPair, h, ih]

theorem assignPair_find_same (key : String) (value : Value) (pairs : List (Pair Value))
    (h : key ∈ pairs.map (fun pair => pair.key)) :
    (assignPair key value pairs).find? (fun pair => decide (pair.key = key)) =
      some ⟨key, value⟩ := by
  induction pairs with
  | nil => simp at h
  | cons pair rest ih =>
    by_cases hk : pair.key = key
    · simp [assignPair, hk]
    · have hrest : key ∈ rest.map (fun pair => pair.key) := by
        simp only [List.map_cons, List.mem_cons] at h
        rcases h with h | h
        · exact absurd h.symm hk
        · exact h
      simp [assignPair, hk, List.find?_cons, ih hrest]

theorem assignPair_find_other (key other : String) (value : Value)
    (pairs : List (Pair Value)) (hne : other ≠ key) :
    (assignPair key value pairs).find? (fun pair => decide (pair.key = other)) =
      pairs.find? (fun pair => decide (pair.key = other)) := by
  induction pairs with
  | nil => rfl
  | cons pair rest ih =>
    by_cases hk : pair.key = key
    · have h1 : ¬ pair.key = other := by rw [hk]; exact fun h => hne h.symm
      have h2 : ¬ key = other := fun h => hne h.symm
      simp [assignPair, hk, List.find?_cons, h2]
    · by_cases ho : pair.key = other
      · have hk2 : ¬ other = key := hne
        simp [assignPair, List.find?_cons, ho, hk2]
      · simp [assignPair, hk, List.find?_cons, ho, ih]

theorem Set_of_absent (c : Collection) (key : String) (value : Value)
    (h : key ∉ c.Keys) : (c.Set key value).pairs = c.pairs ++ [⟨key, value⟩] := by
  unfold Set
  rw [(PairOf_eq_none_iff c key).2 h]

theorem Set_of_present (c : Collection) (key : String) (value : Value)
    (h : key ∈ c.Keys) : (c.Set key value).pairs = assignPair key value c.pairs := by
  unfold Set
  cases hp : c.PairOf key with
  | none => exact absurd h ((PairOf_eq_none_iff c key).1 hp)
  | some pair => rfl

theorem setAll_pairs (calls : List (String × Value)) (c : Collection)
    (hfresh : ∀ call ∈ calls, call.1 ∉ c.Keys)
    (hu : (calls.map Prod.fst).Nodup) :
    (setAll c calls).pairs = c.pairs ++ calls.map (fun call => ⟨call.1, call.2⟩) := by
  induction calls generalizing c with
  | nil => simp [setAll]
  | cons call rest ih =>
    rw [List.map_cons, List.nodup_cons] at hu
    have hhead : call.1 ∉ c.Keys := hfresh call (List.mem_cons_self _ _)
    have hset := Set_of_absent c call.1 call.2 hhead
    have hfresh2 : ∀ call2 ∈ rest, call2.1 ∉ (c.Set call.1 call.2).Keys := by
      intro call2 hmem hin
      unfold Keys at hin
      rw [hset, List.map_append, List.mem_append] at hin
      rcases hin with hin | hin
      · exact hfresh call2 (List.mem_cons_of_mem _ hmem) hin
      · simp only [List.map_cons, List.map_nil, List.mem_singleton] at hin
        exact hu.1 (List.mem_map.2 ⟨call2, hmem, hin⟩)
    have hstep : setAll c (call :: rest) = setAll (c.Set call.1 call.2) rest := by
      simp [setAll]
    rw [hstep, ih (c.Set call.1 call.2) hfresh2 hu.2, hset]
    simp

theorem find_filter_same (key : String) (pairs : List (Pair Value)) :
    (pairs.filter (fun pair => !hasKey key pair)).find?
      (fun pair => decide (pair.key = key)) = none := by
  rw [List.find?_eq_none]
  intro pair hmem
  have := (List.mem_filter.1 hmem).2
  simpa [hasKey] using this

theorem find_filter_other (key other : String) (pairs : List (Pair Value))
    (hne : other ≠ key) :
    (pairs.filter (fun pair => !hasKey key pair)).find?
      (fun pair => decide (pair.key = other)) =
    pairs.find? (fun pair => decide (pair.key = other)) := by
  induction pairs with
  | nil => rfl
  | cons pair rest ih =>
    by_cases hk : pair.key = key
    · have ho : ¬ pair.key = other := by rw [hk]; exact fun h => hne h.symm
      simp [List.filter_cons, hasKey, hk, List.find?_cons, ho, ih]
      have hk2 : ¬ key = other := fun h => hne h.symm
      simp [hk2]
      simpa [hasKey] using ih
    · by_cases ho : pair.key = other
      · have hk2 : ¬ other = key := hne
        simp [List.filter_cons, hasKey, List.find?_cons, ho, hk2]
      · simp [List.filter_cons, hasKey, hk, List.find?_cons, ho]
        simpa [hasKey] using ih

theorem Add_pairs_of_nodup (c : Collection) (key : String) (value : Value)
    (hu : c.Keys.Nodup) :
    (c.Add key value).pairs =
      c.pairs.filter (fun pair => !hasKey key pair) ++ [⟨key, value⟩] := by
  unfold Add
  rw [Delete_pairs, eraseP_eq_filter_of_nodup key c.pairs hu]

/-- The map case of the `switch`: `NewFromMap(value.Interface())`. -/
theorem convertValue_map (keyType : MapKeyType) (entries : List (Value × Value)) :
    convertValue (Value.map keyType entries) =
      nestedResult (NewFromMap (Value.map keyType entries)) := by
  rw [convertValue, NewFromMap]

/-- The pointer case of the `switch`: `NewFromMap(value.Elem().Interface())`. -/
theorem convertValue_ptr (elem : Value) :
    convertValue (Value.ptr (some elem)) = nestedResult (NewFromMap elem) := by
  cases elem <;> simp [convertValue, NewFromMap, nestedResult]

/-- The default case of the `switch`: `pair.value = value.Interface()`. -/
theorem convertValue_default (value : Value) (h : kindOf value = ValueKind.Other) :
    convertValue value = Outcome.ok value := by
  cases value <;> simp [kindOf] at h <;> simp [convertValue]

theorem convertLoop_keys (keyType : MapKeyType)
    (converted : List (Value × Outcome Value)) (keys : List String)
    (start result : Collection)
    (h : convertLoop keyType converted keys start = Outcome.ok result) :
    result.Keys = start.Keys ++ keys := by
  induction keys generalizing start with
  | nil =>
    simp only [convertLoop, Outcome.ok.injEq] at h
    simp [← h]
  | cons key rest ih =>
    unfold convertLoop at h
    split at h
    · exact absurd h (by simp)
    · exact absurd h (by simp)
    · exact absurd h (by simp)
    · rw [ih _ h]
      simp [Keys]
    · exact absurd h (by simp)
    · exact absurd h (by simp)

theorem NewFromMap_keys (keyType : MapKeyType) (entries : List (Value × Value))
    (result : Collection)
    (h : NewFromMap (Value.map keyType entries) = Outcome.ok result) :
    result.Keys = sortStrings (entries.map (fun entry => keyString keyType entry.1)) := by
  have := convertLoop_keys _ _ _ _ _ h
  simpa [New, Keys] using this

theorem keyString_nodup (entries : List (Value × Value))
    (hwf : wellFormedMap MapKeyType.string entries) :
    (entries.map (fun entry => keyString MapKeyType.string entry.1)).Nodup := by
  have hmap : entries.map (fun entry => keyString MapKeyType.string entry.1) =
      (entries.map (fun entry => entry.1)).map (keyString MapKeyType.string) := by
    simp [Function.comp_def]
  rw [hmap]
  refine List.Nodup.map_on ?_ hwf.1
  intro x hx y hy hxy
  obtain ⟨ex, hex, rfl⟩ := List.mem_map.1 hx
  obtain ⟨ey, hey, rfl⟩ := List.mem_map.1 hy
  obtain ⟨sx, hsx⟩ := hwf.2 rfl ex hex
  obtain ⟨sy, hsy⟩ := hwf.2 rfl ey hey
  rw [hsx, hsy] at hxy ⊢
  simp only [keyString] at hxy
  rw [hxy]

theorem sortStrings_nodup (keys : List String) (h : keys.Nodup) :
    (sortStrings keys).Nodup :=
  (List.Perm.nodup_iff (List.perm_insertionSort _ keys)).2 h

theorem Set_keys_nodup (c : Collection) (k : String) (v : Value)
    (hu : c.Keys.Nodup) : (c.Set k v).Keys.Nodup := by
  by_cases hmem : k ∈ c.Keys
  · unfold Keys
    rw [Set_of_present c k v hmem, assignPair_keys]
    exact hu
  · unfold Keys
    rw [Set_of_absent c k v hmem, List.map_append]
    refine List.Nodup.append hu (by simp) ?_
    intro key h1 h2
    simp only [List.map_cons, List.map_nil, List.mem_singleton] at h2
    exact hmem (h2 ▸ h1)

theorem Delete_keys_nodup (c : Collection) (k : String)
    (hu : c.Keys.Nodup) : (c.Delete k).Keys.Nodup := by
  unfold Keys
  rw [Delete_pairs]
  exact List.Nodup.sublist ((List.eraseP_sublist c.pairs).map _) hu

theorem Add_keys_nodup (c : Collection) (k : String) (v : Value)
    (hu : c.Keys.Nodup) : (c.Add k v).Keys.Nodup := by
  unfold Keys
  rw [Add_pairs_of_nodup c k v hu, List.map_append]
  refine List.Nodup.append ?_ (by simp) ?_
  · exact List.Nodup.sublist ((List.filter_sublist c.pairs).map _) hu
  · intro key h1 h2
    simp only [List.map_cons, List.map_nil, List.mem_singleton] at h2
    obtain ⟨pair, hpair, hkey⟩ := List.mem_map.1 h1
    have := (List.mem_filter.1 hpair).2
    simp [hasKey] at this
    exact this (hkey.trans h2)

theorem find_eq_getElem_findIdx (p : Pair Value → Bool) (pairs : List (Pair Value)) :
    pairs.find? p = pairs[pairs.findIdx p]? := by
  induction pairs with
  | nil => rfl
  | cons pair rest ih =>
    cases hp : p pair with
    | true => simp [List.find?_cons, List.findIdx_cons, hp]
    | false => simp [List.find?_cons, List.findIdx_cons, hp, ih]

theorem HasAll_iff (c : Collection) (keys : List String) :
    c.HasAll keys = true ↔ ∀ key ∈ keys, c.Has key = true := by
  induction keys with
  | nil => simp [HasAll]
  | cons key rest ih =>
    cases h : c.Has key <;> simp [HasAll, h, ih]

theorem HasSome_iff (c : Collection) (keys : List String) :
    c.HasSome keys = true ↔ ∃ key ∈ keys, c.Has key = true := by
  induction keys with
  | nil => simp [HasSome]
  | cons key rest ih =>
    cases h : c.Has key <;> simp [HasSome, h, ih]

theorem IndexOf_of_mem (c : Collection) (k : String) (hmem : k ∈ c.Keys) :
    ∃ i : Nat, c.IndexOf k = (i : Int) ∧ i < c.pairs.length ∧
      c.PairOf k = c.pairs[i]? ∧ c.Keys[i]? = some k ∧
      ∀ j : Nat, j < i → c.Keys[j]? ≠ some k := by
  have hlt := (findIdx_lt_iff_mem_keys k c.pairs).2 hmem
  have hkey : (c.pairs[c.pairs.findIdx (hasKey k)]).key = k := by
    have := @List.findIdx_getElem _ (hasKey k) c.pairs hlt
    simpa [hasKey] using this
  refine ⟨c.pairs.findIdx (hasKey k), ?_, hlt, ?_, ?_, ?_⟩
  · rw [IndexOf_eq, if_pos hlt]
  · exact find_eq_getElem_findIdx (hasKey k) c.pairs
  · simp only [Keys, List.getElem?_map, List.getElem?_eq_getElem hlt, Option.map_some', hkey]
  · intro j hj
    have hjlt : j < c.pairs.length := Nat.lt_trans hj hlt
    have hnot := List.not_of_lt_findIdx hj
    simp only [Keys, List.getElem?_map, List.getElem?_eq_getElem hjlt, Option.map_some',
      ne_eq, Option.some.injEq]
    simpa [hasKey] using hnot

theorem IndexOf_of_not_mem (c : Collection) (k : String) (hmem : k ∉ c.Keys) :
    c.IndexOf k = -1 := by
  have hlt : ¬ c.pairs.findIdx (hasKey k) < c.pairs.length :=
    fun h => hmem ((findIdx_lt_iff_mem_keys k c.pairs).1 h)
  rw [IndexOf_eq, if_neg hlt]

/-! ## The claims -/

/-- C1: starting from `New()`, a run of `Set` calls whose keys are pairwise
distinct leaves `Keys()` equal to the keys in call order and `Values()` equal
to the values in call order. -/
theorem set_run_keeps_call_order (calls : List (String × Value))
    (hdistinct : (calls.map Prod.fst).Nodup) :
    (setAll New calls).Keys = calls.map Prod.fst ∧
      (setAll New calls).Values = calls.map Prod.snd := by
  have h := setAll_pairs calls New (by simp [New, Keys]) hdistinct
  constructor
  · unfold Keys
    rw [h]
    simp [New, Function.comp_def]
  · unfold Values
    rw [h]
    simp [New, Function.comp_def]

theorem set_run_keeps_call_order_witness :
    ([("pkg", Value.str "standard"), ("year", Value.int 2020),
        ("isPublic", Value.bool true)].map Prod.fst).Nodup ∧
      (setAll New [("pkg", Value.str "standard"), ("year", Value.int 2020),
        ("isPublic", Value.bool true)]).Keys =
        [("pkg", Value.str "standard"), ("year", Value.int 2020),
          ("isPublic", Value.bool true)].map Prod.fst ∧
      (setAll New [("pkg", Value.str "standard"), ("year", Value.int 2020),
        ("isPublic", Value.bool true)]).Values =
        [("pkg", Value.str "standard"), ("year", Value.int 2020),
          ("isPublic", Value.bool true)].map Prod.snd :=
  ⟨by decide, set_run_keeps_call_order _ (by decide)⟩

/-- C2: `Set(k, v)` on a key that is present leaves `Keys()` and `Length()` as
they were, makes `Get(k)` return `v`, and leaves `Get` of every other key
unchanged (uniqueness of the keys is not needed for this). -/
theorem set_present_key_in_place (c : Collection) (k : String) (v : Value)
    (hhas : c.Has k = true) :
    (c.Set k v).Keys = c.Keys ∧ (c.Set k v).Length = c.Length ∧
      (c.Set k v).Get k = v ∧
      ∀ other : String, other ≠ k → (c.Set k v).Get other = c.Get other := by
  have hmem := (Has_iff_mem_keys c k).1 hhas
  have hp := Set_of_present c k v hmem
  have hkeys : (c.Set k v).Keys = c.Keys := by
    unfold Keys
    rw [hp, assignPair_keys]
  refine ⟨hkeys, ?_, ?_, ?_⟩
  · have := congrArg List.length hkeys
    simpa [Keys, Length] using this
  · unfold Get PairOf
    rw [hp, assignPair_find_same k v c.pairs hmem]
  · intro other hne
    unfold Get PairOf
    rw [hp, assignPair_find_other k other v c.pairs hne]

theorem set_present_key_in_place_witness :
    (Collection.mk [⟨"a", Value.int 1⟩, ⟨"b", Value.int 2⟩]).Has "a" = true ∧
      ((Collection.mk [⟨"a", Value.int 1⟩, ⟨"b", Value.int 2⟩]).Set "a" (Value.int 3)).Keys =
        ["a", "b"] ∧
      ((Collection.mk [⟨"a", Value.int 1⟩, ⟨"b", Value.int 2⟩]).Set "a" (Value.int 3)).Get "a" =
        Value.int 3 := by
  have h := set_present_key_in_place
    (Collection.mk [⟨"a", Value.int 1⟩, ⟨"b", Value.int 2⟩]) "a" (Value.int 3) (by decide)
  exact ⟨by decide, h.1, h.2.2.1⟩

/-- C3: on a Collection with unique keys, `Add(k, v)` leaves the pairs whose
key is not `k`, in their order and with their values, followed by the pair
`(k, v)`: `Keys()` is the previous `Keys()` without `k`, then `k`; `Get(k)` is
`v` and `Get` of any other key is unchanged.  Keys `[a, b]` become `[b, a]`
after `Add(a, v)`, and adding the only key again does not duplicate it. -/
theorem add_moves_key_to_end (c : Collection) (k : String) (v : Value)
    (hu : c.Keys.Nodup) :
    (c.Add k v).pairs = c.pairs.filter (fun pair => decide (pair.key ≠ k)) ++ [⟨k, v⟩] ∧
      (c.Add k v).Keys = c.Keys.filter (fun key => decide (key ≠ k)) ++ [k] ∧
      (c.Add k v).Get k = v ∧
      (∀ other : String, other ≠ k → (c.Add k v).Get other = c.Get other) ∧
      (∀ (b : String) (va vb : Value), b ≠ k →
        ((Collection.mk [⟨k, va⟩, ⟨b, vb⟩]).Add k v).Keys = [b, k]) ∧
      (∀ va : Value, ((Collection.mk [⟨k, va⟩]).Add k v).Keys = [k]) := by
  have hp := Add_pairs_of_nodup c k v hu
  have hfilter : (fun pair : Pair Value => !hasKey k pair) =
      (fun pair => decide (pair.key ≠ k)) := by
    funext pair; simp [hasKey]
  refine ⟨?_, ?_, ?_, ?_, ?_, ?_⟩
  · rw [hp, hfilter]
  · unfold Keys
    rw [hp, hfilter, List.map_append, List.filter_map]
    rfl
  · unfold Get PairOf
    rw [hp, List.find?_append, find_filter_same]
    simp
  · intro other hne
    unfold Get PairOf
    rw [hp, List.find?_append, find_filter_other k other c.pairs hne]
    have hk : ¬ k = other := fun h => hne h.symm
    cases List.find? (fun pair => decide (pair.key = other)) c.pairs <;> simp [hk]
  · intro b va vb hne
    have hu2 : (Collection.mk [⟨k, va⟩, ⟨b, vb⟩]).Keys.Nodup := by
      simp [Keys]; exact fun h => hne h.symm
    unfold Keys
    rw [Add_pairs_of_nodup _ k v hu2]
    simp [hasKey, hne]
  · intro va
    have hu2 : (Collection.mk [⟨k, va⟩]).Keys.Nodup := by simp [Keys]
    unfold Keys
    rw [Add_pairs_of_nodup _ k v hu2]
    simp [hasKey]

theorem add_moves_key_to_end_witness :
    (Collection.mk [⟨"a", Value.int 1⟩, ⟨"b", Value.int 2⟩]).Keys.Nodup ∧
      ((Collection.mk [⟨"a", Value.int 1⟩, ⟨"b", Value.int 2⟩]).Add "a" (Value.int 3)).Keys =
        ["b", "a"] ∧
      ((Collection.mk [⟨"a", Value.int 1⟩, ⟨"b", Value.int 2⟩]).Add "a" (Value.int 3)).Get "a" =
        Value.int 3 := by
  have h := add_moves_key_to_end
    (Collection.mk [⟨"a", Value.int 1⟩, ⟨"b", Value.int 2⟩]) "a" (Value.int 3) (by decide)
  exact ⟨by decide, by decide, h.2.2.1⟩

/-- C4, the code at the failing input: `NewFromMap` succeeds on the map
`map[interface{}]interface{}{"<interface \x7b\x7d Value>": 1, 7: 2}`, whose two keys
both have the text `<interface {} Value>`, and returns a Collection in which
that key occurs twice, both times with the element 1: the element under the
key 7 is lost. -/
theorem newFromMap_repeats_key_of_interface_keyed_map :
    wellFormedMap MapKeyType.iface
        [(Value.str "<interface \x7b\x7d Value>", Value.int 1), (Value.int 7, Value.int 2)] ∧
      ∃ c : Collection,
        NewFromMap (Value.map MapKeyType.iface
          [(Value.str "<interface \x7b\x7d Value>", Value.int 1), (Value.int 7, Value.int 2)]) =
          Outcome.ok c ∧
        c.Keys = ["<interface \x7b\x7d Value>", "<interface \x7b\x7d Value>"] ∧ ¬ c.Keys.Nodup ∧
        c.Values = [Value.int 1, Value.int 1] := by
  refine ⟨⟨by simp, by simp⟩, ?_⟩
  refine ⟨⟨[⟨"<interface \x7b\x7d Value>", Value.int 1⟩, ⟨"<interface \x7b\x7d Value>", Value.int 1⟩]⟩,
    by rfl, by rfl, by decide, by rfl⟩

/-- Key uniqueness where the code keeps it: `New()` has no duplicate key; a
successful `NewFromMap` of a map whose key type is `string` has no duplicate
key; and `Set`, `Add`, `Delete` and `Clear` of a Collection without duplicate
keys give a Collection without duplicate keys. -/
theorem key_uniqueness_invariant (c : Collection) (hu : c.Keys.Nodup)
    (entries : List (Value × Value)) (result : Collection)
    (hwf : wellFormedMap MapKeyType.string entries)
    (hok : NewFromMap (Value.map MapKeyType.string entries) = Outcome.ok result) :
    New.Keys.Nodup ∧ result.Keys.Nodup ∧
      (∀ (k : String) (v : Value), (c.Set k v).Keys.Nodup) ∧
      (∀ (k : String) (v : Value), (c.Add k v).Keys.Nodup) ∧
      (∀ k : String, (c.Delete k).Keys.Nodup) ∧
      c.Clear.Keys.Nodup := by
  refine ⟨by simp [New, Keys], ?_, ?_, ?_, ?_, by simp [Clear, Keys]⟩
  · rw [NewFromMap_keys _ _ _ hok]
    exact sortStrings_nodup _ (keyString_nodup entries hwf)
  · exact fun k v => Set_keys_nodup c k v hu
  · exact fun k v => Add_keys_nodup c k v hu
  · exact fun k => Delete_keys_nodup c k hu

theorem key_uniqueness_invariant_witness :
    (Collection.mk [⟨"a", Value.int 1⟩, ⟨"b", Value.int 2⟩]).Keys.Nodup ∧
      wellFormedMap MapKeyType.string
        [(Value.str "b", Value.int 1), (Value.str "a", Value.int 2)] ∧
      NewFromMap (Value.map MapKeyType.string
        [(Value.str "b", Value.int 1), (Value.str "a", Value.int 2)]) =
        Outcome.ok ⟨[⟨"a", Value.int 2⟩, ⟨"b", Value.int 1⟩]⟩ ∧
      (Collection.mk [⟨"a", Value.int 2⟩, ⟨"b", Value.int 1⟩]).Keys.Nodup ∧
      ((Collection.mk [⟨"a", Value.int 1⟩, ⟨"b", Value.int 2⟩]).Add "a" Value.nil).Keys.Nodup := by
  have hwf : wellFormedMap MapKeyType.string
      [(Value.str "b", Value.int 1), (Value.str "a", Value.int 2)] := by
    refine ⟨by simp, ?_⟩
    intro _ entry hmem
    simp only [List.mem_cons, List.mem_singleton, List.not_mem_nil, or_false] at hmem
    rcases hmem with rfl | rfl
    · exact ⟨"b", rfl⟩
    · exact ⟨"a", rfl⟩
  have h := key_uniqueness_invariant
    (Collection.mk [⟨"a", Value.int 1⟩, ⟨"b", Value.int 2⟩]) (by decide)
    [(Value.str "b", Value.int 1), (Value.str "a", Value.int 2)]
    ⟨[⟨"a", Value.int 2⟩, ⟨"b", Value.int 1⟩]⟩ hwf (by rfl)
  exact ⟨by decide, hwf, by rfl, h.2.1, h.2.2.2.1 "a" Value.nil⟩

/-- C5: on a Collection with unique keys, `Delete(k)` of a key that is present
makes `Has(k)` false, makes `Length()` one less, and leaves exactly the pairs
whose key is not `k`, in their order and with their values (so `Get` of any
other key is unchanged); `Delete(k)` of an absent key leaves `Keys()` and
`Values()` unchanged. -/
theorem delete_removes_the_key (c : Collection) (k : String) (hu : c.Keys.Nodup) :
    (c.Has k = true →
      (c.Delete k).Has k = false ∧ (c.Delete k).Length + 1 = c.Length ∧
        (c.Delete k).pairs = c.pairs.filter (fun pair => decide (pair.key ≠ k)) ∧
        ∀ other : String, other ≠ k → (c.Delete k).Get other = c.Get other) ∧
      (c.Has k = false →
        (c.Delete k).Keys = c.Keys ∧ (c.Delete k).Values = c.Values) := by
  have hfilter : (fun pair : Pair Value => !hasKey k pair) =
      (fun pair => decide (pair.key ≠ k)) := by
    funext pair; simp [hasKey]
  have hp : (c.Delete k).pairs = c.pairs.filter (fun pair => !hasKey k pair) := by
    rw [Delete_pairs, eraseP_eq_filter_of_nodup k c.pairs hu]
  constructor
  · intro hhas
    have hmem := (Has_iff_mem_keys c k).1 hhas
    obtain ⟨pair, hpair, hkey⟩ := List.mem_map.1 hmem
    refine ⟨?_, ?_, ?_, ?_⟩
    · unfold Has PairOf
      rw [hp, find_filter_same]
      rfl
    · unfold Length
      rw [Delete_pairs, List.length_eraseP_of_mem hpair (by simp [hasKey, hkey])]
      have : 0 < c.pairs.length := List.length_pos_of_mem hpair
      omega
    · rw [hp, hfilter]
    · intro other hne
      unfold Get PairOf
      rw [hp, find_filter_other k other c.pairs hne]
  · intro hhas
    have hnot : k ∉ c.Keys := by
      intro hmem
      rw [(Has_iff_mem_keys c k).2 hmem] at hhas
      exact absurd hhas (by simp)
    have hall : ∀ pair ∈ c.pairs, ¬ hasKey k pair = true := by
      intro pair hmem hpk
      apply hnot
      simp only [hasKey, decide_eq_true_eq] at hpk
      exact List.mem_map.2 ⟨pair, hmem, hpk⟩
    have hsame : (c.Delete k).pairs = c.pairs := by
      rw [Delete_pairs, List.eraseP_of_forall_not hall]
    unfold Keys Values
    rw [hsame]
    exact ⟨rfl, rfl⟩

theorem delete_removes_the_key_witness :
    (Collection.mk [⟨"name", Value.str "X"⟩, ⟨"description", Value.str "Y"⟩]).Keys.Nodup ∧
      ((Collection.mk [⟨"name", Value.str "X"⟩, ⟨"description", Value.str "Y"⟩]).Delete
        "description").Has "description" = false ∧
      ((Collection.mk [⟨"name", Value.str "X"⟩, ⟨"description", Value.str "Y"⟩]).Delete
        "description").Length + 1 = 2 := by
  have h := (delete_removes_the_key
    (Collection.mk [⟨"name", Value.str "X"⟩, ⟨"description", Value.str "Y"⟩])
    "description" (by decide)).1 (by decide)
  exact ⟨by decide, h.1, h.2.1⟩

/-- C6: after `Clear()`, on any Collection, `Length()` is 0 and `Keys()` is
empty, and a second `Clear()` gives the same Collection. -/
theorem clear_empties_and_is_idempotent (c : Collection) :
    c.Clear.Length = 0 ∧ c.Clear.Keys = [] ∧ c.Clear.Clear = c.Clear :=
  ⟨rfl, rfl, rfl⟩

/-- C7: `Has(k)` is true iff `k` occurs in `Keys()`; when it is true, `IndexOf(k)`
is a position of the sequence, the pair there is the first pair whose key is
`k`, and `Get(k)` is `Values()[IndexOf(k)]`; when it is false, `Get(k)` is
nil. -/
theorem get_is_value_of_first_match (c : Collection) (k : String) :
    (c.Has k = true ↔ k ∈ c.Keys) ∧
      (c.Has k = true →
        0 ≤ c.IndexOf k ∧
        c.Values[(c.IndexOf k).toNat]? = some (c.Get k) ∧
        c.Keys[(c.IndexOf k).toNat]? = some k ∧
        ∀ j : Nat, j < (c.IndexOf k).toNat → c.Keys[j]? ≠ some k) ∧
      (c.Has k = false → c.Get k = Value.nil) := by
  refine ⟨Has_iff_mem_keys c k, ?_, ?_⟩
  · intro hhas
    obtain ⟨i, hidx, hlt, hfind, hkey, hfirst⟩ :=
      IndexOf_of_mem c k ((Has_iff_mem_keys c k).1 hhas)
    rw [hidx]
    refine ⟨by omega, ?_, hkey, ?_⟩
    · simp only [Int.toNat_ofNat, Values, Get, List.getElem?_map, hfind,
        List.getElem?_eq_getElem hlt, Option.map_some']
    · intro j hj
      exact hfirst j (by simpa using hj)
  · intro hhas
    unfold Has at hhas
    unfold Get
    cases hp : c.PairOf k with
    | none => rfl
    | some pair => rw [hp] at hhas; exact absurd hhas (by simp)

/-- C8: `HasAll(keys)` is true iff every key of the list is present, that is,
is the key of a pair of the Collection (a member of `Keys()`), and
`HasSome(keys)` is true iff at least one is; with no keys `HasAll` is true and
`HasSome` is false. -/
theorem hasAll_every_hasSome_any (c : Collection) (keys : List String) :
    (c.HasAll keys = true ↔ ∀ key ∈ keys, key ∈ c.Keys) ∧
      (c.HasSome keys = true ↔ ∃ key ∈ keys, key ∈ c.Keys) ∧
      c.HasAll [] = true ∧ c.HasSome [] = false := by
  refine ⟨?_, ?_, rfl, rfl⟩
  · rw [HasAll_iff]
    exact ⟨fun h key hkey => (Has_iff_mem_keys c key).1 (h key hkey),
      fun h key hkey => (Has_iff_mem_keys c key).2 (h key hkey)⟩
  · rw [HasSome_iff]
    exact ⟨fun ⟨key, hkey, h⟩ => ⟨key, hkey, (Has_iff_mem_keys c key).1 h⟩,
      fun ⟨key, hkey, h⟩ => ⟨key, hkey, (Has_iff_mem_keys c key).2 h⟩⟩

/-- C9: `IndexOf(k)` is -1 iff `k` is absent; otherwise
`0 <= IndexOf(k) < Length()`, `Keys()[IndexOf(k)]` is `k`, and no smaller index
holds `k`. -/
theorem indexOf_first_position_or_minus_one (c : Collection) (k : String) :
    (c.IndexOf k = -1 ↔ k ∉ c.Keys) ∧
      (k ∈ c.Keys →
        0 ≤ c.IndexOf k ∧ c.IndexOf k < (c.Length : Int) ∧
        c.Keys[(c.IndexOf k).toNat]? = some k ∧
        ∀ j : Nat, (j : Int) < c.IndexOf k → c.Keys[j]? ≠ some k) := by
  constructor
  · constructor
    · intro h hmem
      obtain ⟨i, hidx, _⟩ := IndexOf_of_mem c k hmem
      omega
    · exact IndexOf_of_not_mem c k
  · intro hmem
    obtain ⟨i, hidx, hlt, _, hkey, hfirst⟩ := IndexOf_of_mem c k hmem
    rw [hidx]
    refine ⟨by omega, ?_, hkey, ?_⟩
    · unfold Length; omega
    · intro j hj
      exact hfirst j (by omega)

/-- C10: `Keys()` and `Values()` have length `Length()` and are parallel (the
pair at position `i` is `Keys()[i]` with `Values()[i]`), and `ForEach(fn)` runs
`fn` on the pairs `(Keys()[i], Values()[i])` in order, `Length()` times: the
calls it makes are those of a left fold over `Keys()` zipped with `Values()`,
and a callback that records its arguments records exactly that list. -/
theorem keys_values_parallel_and_forEach (c : Collection) :
    c.Keys.length = c.Length ∧ c.Values.length = c.Length ∧
      (∀ i : Nat, c.pairs[i]?.map (fun pair => (pair.key, pair.value)) =
        (c.Keys.zip c.Values)[i]?) ∧
      (∀ (σ : Type) (fn : String → Value → σ → σ) (state : σ),
        c.ForEach fn state =
          (c.Keys.zip c.Values).foldl (fun s call => fn call.1 call.2 s) state) ∧
      c.ForEach (fun key value calls => calls ++ [(key, value)]) [] = c.Keys.zip c.Values ∧
      (c.ForEach (fun key value calls => calls ++ [(key, value)]) []).length = c.Length := by
  have hzip : c.Keys.zip c.Values = c.pairs.map (fun pair => (pair.key, pair.value)) := by
    unfold Keys Values
    rw [List.zip_map']
  have hfold : ∀ (σ : Type) (fn : String → Value → σ → σ) (state : σ),
      c.ForEach fn state =
        (c.Keys.zip c.Values).foldl (fun s call => fn call.1 call.2 s) state := by
    intro σ fn state
    rw [hzip, List.foldl_map]
    rfl
  have hrec : ∀ (calls : List (String × Value)) (start : List (String × Value)),
      calls.foldl (fun (s : List (String × Value)) call => s ++ [(call.1, call.2)]) start =
        start ++ calls := by
    intro calls
    induction calls with
    | nil => simp
    | cons call rest ih => intro start; simp [ih]
  have hlog : c.ForEach (fun key value calls => calls ++ [(key, value)]) [] =
      c.Keys.zip c.Values := by
    rw [hfold, hrec]
    simp
  refine ⟨by simp [Keys, Length], by simp [Values, Length], ?_, hfold, hlog, ?_⟩
  · intro i
    rw [hzip, List.getElem?_map]
  · rw [hlog, hzip]
    simp [Length]

/-! ## Lemmas on NewFromMap -/

theorem lookupString_convertEntries (key : String) (entries : List (Value × Value)) :
    lookupString key (convertEntries entries) =
      (lookupString key entries).map convertValue := by
  induction entries with
  | nil => simp [convertEntries, lookupString]
  | cons entry rest ih =>
    obtain ⟨k, v⟩ := entry
    cases k <;> simp only [convertEntries, lookupString, ih]
    split <;> simp

theorem nestedCall_error (element : Value) (err : Error)
    (h : nestedCall element = some (Outcome.error err)) :
    convertValue element = Outcome.error err := by
  cases element with
  | map keyType entries =>
    simp only [nestedCall, Option.some.injEq] at h
    rw [convertValue_map, h]; rfl
  | ptr elem =>
    cases elem with
    | none => simp [nestedCall] at h
    | some x =>
      simp only [nestedCall, Option.some.injEq] at h
      rw [convertValue_ptr, h]; rfl
  | namedCollection elem =>
    cases elem with
    | none => simp [nestedCall] at h
    | some x =>
      simp only [nestedCall, Option.some.injEq] at h
      cases x <;> simp_all [convertValue, NewFromMap, nestedResult]
  | collection pairs =>
    simp only [nestedCall, Option.some.injEq, Outcome.error.injEq] at h
    simp [convertValue, h]
  | _ => simp [nestedCall] at h

theorem convertLoop_stored_before (keyType : MapKeyType)
    (hkt : ∀ name, keyType ≠ MapKeyType.other name)
    (converted : List (Value × Outcome Value)) (before rest : List String)
    (start : Collection)
    (hok : ∀ k ∈ before, ∃ v, lookupString k converted = some (Outcome.ok v)) :
    convertLoop keyType converted (before ++ rest) start =
      convertLoop keyType converted rest
        ⟨start.pairs ++ before.map (fun k => ⟨k, storedAt converted k⟩)⟩ := by
  induction before generalizing start with
  | nil => simp
  | cons key more ih =>
    obtain ⟨v, hv⟩ := hok key (List.mem_cons_self _ _)
    have hidx : mapIndex keyType converted key = Outcome.ok (some (Outcome.ok v)) := by
      cases keyType with
      | other name => exact absurd rfl (hkt name)
      | string => simp [mapIndex, hv]
      | iface => simp [mapIndex, hv]
    rw [List.cons_append, convertLoop, hidx]
    simp only
    rw [ih _ (fun k hk => hok k (List.mem_cons_of_mem _ hk))]
    simp [storedAt, hv]

theorem convertLoop_error_at (keyType : MapKeyType)
    (hkt : ∀ name, keyType ≠ MapKeyType.other name)
    (converted : List (Value × Outcome Value)) (key : String) (rest : List String)
    (start : Collection) (err : Error)
    (h : lookupString key converted = some (Outcome.error err)) :
    convertLoop keyType converted (key :: rest) start = Outcome.error err := by
  have hidx : mapIndex keyType converted key = Outcome.ok (some (Outcome.error err)) := by
    cases keyType with
    | other name => exact absurd rfl (hkt name)
    | string => simp [mapIndex, h]
    | iface => simp [mapIndex, h]
  rw [convertLoop, hidx]

theorem convertLoop_fault_at (keyType : MapKeyType)
    (converted : List (Value × Outcome Value)) (key : String) (rest : List String)
    (start : Collection)
    (h : lookupString key converted = some Outcome.fault ∨ lookupString key converted = none) :
    convertLoop keyType converted (key :: rest) start = Outcome.fault := by
  cases keyType with
  | other name => simp [convertLoop, mapIndex]
  | string => rcases h with h | h <;> simp [convertLoop, mapIndex, h]
  | iface => rcases h with h | h <;> simp [convertLoop, mapIndex, h]

/-! ## Lemmas on the sorted keys -/

theorem sortStrings_perm (keys : List String) : (sortStrings keys).Perm keys :=
  List.perm_insertionSort _ keys

theorem sortStrings_sorted (keys : List String) : (sortStrings keys).Pairwise keyLE := by
  have h := List.sorted_insertionSort keyLE keys
  exact h

theorem sortStrings_strict (keys : List String) (h : keys.Nodup) :
    (sortStrings keys).Pairwise keyLT := by
  have hs := sortStrings_sorted keys
  have hn : (sortStrings keys).Pairwise (fun a b => a ≠ b) := sortStrings_nodup keys h
  refine (hs.and hn).imp ?_
  intro a b hab
  refine lt_of_le_of_ne hab.1 ?_
  intro heq
  exact hab.2 (String.ext heq)

theorem sortStrings_eq_of_perm (keys keys' : List String) (h : keys.Perm keys') :
    sortStrings keys = sortStrings keys' := by
  refine List.eq_of_perm_of_sorted ?_ (List.sorted_insertionSort keyLE keys)
    (List.sorted_insertionSort keyLE keys')
  exact ((sortStrings_perm keys).trans h).trans (sortStrings_perm keys').symm

/-! ## Lemmas on the loop of NewFromMap -/

theorem convertLoop_ok (keyType : MapKeyType)
    (converted : List (Value × Outcome Value)) (keys : List String)
    (start result : Collection)
    (h : convertLoop keyType converted keys start = Outcome.ok result) :
    result.pairs = start.pairs ++ keys.map (fun k => ⟨k, storedAt converted k⟩) ∧
      ∀ k ∈ keys, ∃ v, lookupString k converted = some (Outcome.ok v) := by
  induction keys generalizing start with
  | nil =>
    simp only [convertLoop, Outcome.ok.injEq] at h
    simp [← h]
  | cons key rest ih =>
    unfold convertLoop at h
    split at h
    · exact absurd h (by simp)
    · exact absurd h (by simp)
    · exact absurd h (by simp)
    · rename_i value hidx
      have hlook : lookupString key converted = some (Outcome.ok value) := by
        cases keyType <;> simp_all [mapIndex]
      obtain ⟨hpairs, hall⟩ := ih _ h
      constructor
      · rw [hpairs]
        simp [storedAt, hlook]
      · intro k hk
        rcases List.mem_cons.1 hk with rfl | hk
        · exact ⟨value, hlook⟩
        · exact hall k hk
    · exact absurd h (by simp)
    · exact absurd h (by simp)

theorem Get_of_keyed (keys : List String) (f : String → Value) (k : String)
    (hk : k ∈ keys) :
    (Collection.mk (keys.map (fun key => ⟨key, f key⟩))).Get k = f k := by
  induction keys with
  | nil => simp at hk
  | cons key rest ih =>
    by_cases hkey : key = k
    · subst hkey
      simp [Get, PairOf]
    · have hk2 : k ∈ rest := by
        rcases List.mem_cons.1 hk with h | h
        · exact absurd h.symm hkey
        · exact h
      have := ih hk2
      simpa [Get, PairOf, List.find?_cons, hkey] using this

theorem lookupString_mem {β : Type} (key : String) (entries : List (Value × β))
    (element : β) (h : lookupString key entries = some element) :
    (Value.str key, element) ∈ entries := by
  induction entries with
  | nil => simp [lookupString] at h
  | cons entry rest ih =>
    obtain ⟨k, v⟩ := entry
    cases k with
    | str s =>
      simp only [lookupString] at h
      split at h
      · rename_i hs
        simp only [Option.some.injEq] at h
        simp [hs, h]
      · exact List.mem_cons_of_mem _ (ih h)
    | _ =>
      simp only [lookupString] at h
      exact List.mem_cons_of_mem _ (ih h)

theorem sizeOf_lt_of_lookup (key : String) (keyType : MapKeyType)
    (entries : List (Value × Value)) (element : Value)
    (h : lookupString key entries = some element) :
    sizeOf element < sizeOf (Value.map keyType entries) := by
  have hmem := lookupString_mem key entries element h
  have h1 := List.sizeOf_lt_of_mem hmem
  simp only [Prod.mk.sizeOf_spec] at h1
  simp only [Value.map.sizeOf_spec]
  omega

theorem stringKeyed_map (keyType : MapKeyType) (entries : List (Value × Value)) :
    stringKeyed (Value.map keyType entries) = true ↔
      keyType = MapKeyType.string ∧ stringKeys entries = true ∧
        stringKeyedEntries entries = true := by
  simp [stringKeyed, and_assoc]

theorem stringKeyedEntries_mem (entries : List (Value × Value))
    (h : stringKeyedEntries entries = true) (key element : Value)
    (hmem : (key, element) ∈ entries) : stringKeyed element = true := by
  induction entries with
  | nil => simp at hmem
  | cons entry rest ih =>
    obtain ⟨k, v⟩ := entry
    simp only [stringKeyedEntries, Bool.and_eq_true] at h
    rcases List.mem_cons.1 hmem with heq | hrest
    · simp only [Prod.mk.injEq] at heq
      rw [heq.2]; exact h.1
    · exact ih h.2 hrest

theorem nestedMapOf_some (element nested : Value)
    (h : nestedMapOf element = some nested) :
    convertValue element = nestedResult (NewFromMap nested) ∧
      stringKeyed element = stringKeyed nested ∧
      sizeOf nested ≤ sizeOf element ∧
      ∃ keyType entries, nested = Value.map keyType entries := by
  cases element with
  | map keyType entries =>
    simp only [nestedMapOf, Option.some.injEq] at h
    subst h
    exact ⟨convertValue_map _ _, rfl, le_refl _, _, _, rfl⟩
  | ptr elem =>
    cases elem with
    | none => simp [nestedMapOf] at h
    | some x =>
      cases x <;> simp only [nestedMapOf, Option.some.injEq, reduceCtorEq] at h
      subst h
      refine ⟨convertValue_ptr _, ?_, ?_, _, _, rfl⟩
      · simp [stringKeyed]
      · simp only [Value.ptr.sizeOf_spec, Option.some.sizeOf_spec]; omega
  | namedCollection elem =>
    cases elem with
    | none => simp [nestedMapOf] at h
    | some x =>
      cases x <;> simp only [nestedMapOf, Option.some.injEq, reduceCtorEq] at h
      subst h
      refine ⟨?_, ?_, ?_, _, _, rfl⟩
      · simp [convertValue, NewFromMap]
      · simp [stringKeyed]
      · simp only [Value.namedCollection.sizeOf_spec, Option.some.sizeOf_spec]; omega
  | _ => simp [nestedMapOf] at h

theorem mirrors_of_ok (n : Nat) : ∀ (source : Value) (c : Collection),
    sizeOf source ≤ n → stringKeyed source = true →
    NewFromMap source = Outcome.ok c → Mirrors source (Value.collection c.pairs) := by
  induction n with
  | zero =>
    intro source c hsize
    cases source <;> simp at hsize
  | succ n ih =>
    intro source c hsize hkeyed hok
    cases source with
    | map keyType entries =>
      obtain ⟨hkt, hkeys, hdeep⟩ := (stringKeyed_map keyType entries).1 hkeyed
      subst hkt
      have hloop : convertLoop MapKeyType.string (convertEntries entries)
          (sortStrings (entries.map (fun entry => keyString MapKeyType.string entry.1)))
          New = Outcome.ok c := hok
      obtain ⟨hpairs, hall⟩ := convertLoop_ok _ _ _ _ _ hloop
      simp only [New, List.nil_append] at hpairs
      have hnodup : (entries.map
          (fun entry => keyString MapKeyType.string entry.1)).Nodup := by
        simp only [stringKeys, Bool.and_eq_true, decide_eq_true_eq] at hkeys
        exact hkeys.2
      have hK : (Collection.mk c.pairs).Keys =
          sortStrings (entries.map (fun entry => keyString MapKeyType.string entry.1)) := by
        rw [hpairs]; simp [Keys, Function.comp_def]
      refine Mirrors.intro entries c.pairs ?_ ?_ ?_ ?_
      · rw [hpairs]
        simp [Length, (sortStrings_perm _).length_eq]
      · rw [hK]; exact sortStrings_perm _
      · rw [hK]; exact sortStrings_strict _ hnodup
      · intro key element nested hlook hnested
        obtain ⟨hconv, hsk, hsz, -⟩ := nestedMapOf_some element nested hnested
        have hmem := lookupString_mem key entries element hlook
        have hkey : key ∈ sortStrings
            (entries.map (fun entry => keyString MapKeyType.string entry.1)) := by
          refine (sortStrings_perm _).mem_iff.2 ?_
          exact List.mem_map.2 ⟨_, hmem, rfl⟩
        obtain ⟨v, hv⟩ := hall key hkey
        have hget : (Collection.mk c.pairs).Get key =
            storedAt (convertEntries entries) key := by
          rw [hpairs]; exact Get_of_keyed _ _ key hkey
        rw [lookupString_convertEntries, hlook] at hv
        simp only [Option.map_some', Option.some.injEq] at hv
        rw [hconv] at hv
        cases hres : NewFromMap nested with
        | ok inner =>
          rw [hres] at hv
          simp only [nestedResult, Outcome.ok.injEq] at hv
          have hstored : storedAt (convertEntries entries) key =
              Value.collection inner.pairs := by
            simp [storedAt, lookupString_convertEntries, hlook, hconv, hres, nestedResult]
          rw [hget, hstored]
          have hlt := sizeOf_lt_of_lookup key MapKeyType.string entries element hlook
          refine ih nested inner (by omega) ?_ hres
          rw [← hsk]
          exact stringKeyedEntries_mem entries hdeep _ _ hmem
        | error err => rw [hres] at hv; simp [nestedResult] at hv
        | fault => rw [hres] at hv; simp [nestedResult] at hv
    | _ => simp [NewFromMap] at hok

theorem lookupString_eq_none_iff {β : Type} (key : String) (entries : List (Value × β)) :
    lookupString key entries = none ↔
      Value.str key ∉ entries.map (fun entry => entry.1) := by
  induction entries with
  | nil => simp [lookupString]
  | cons entry rest ih =>
    obtain ⟨k, v⟩ := entry
    cases k with
    | str s =>
      by_cases hs : s = key
      · simp [lookupString, hs]
      · have hs2 : ¬ key = s := fun h => hs h.symm
        simp [lookupString, hs, hs2, ih]
    | _ => simp [lookupString, ih]

theorem convertLoop_congr (keyType : MapKeyType)
    (converted converted' : List (Value × Outcome Value)) (keys : List String)
    (start : Collection)
    (h : ∀ k ∈ keys, mapIndex keyType converted k = mapIndex keyType converted' k) :
    convertLoop keyType converted keys start =
      convertLoop keyType converted' keys start := by
  induction keys generalizing start with
  | nil => rfl
  | cons key rest ih =>
    have hrest : ∀ k ∈ rest, mapIndex keyType converted k =
        mapIndex keyType converted' k := fun k hk => h k (List.mem_cons_of_mem _ hk)
    rw [convertLoop, convertLoop, h key (List.mem_cons_self _ _)]
    split <;> first | rfl | exact ih _ hrest

theorem convertValue_namedCollection (elem : Value) :
    convertValue (Value.namedCollection (some elem)) = nestedResult (NewFromMap elem) := by
  cases elem <;> simp [convertValue, NewFromMap, nestedResult]

theorem sameMapping_converts (source source' : Value) (h : SameMapping source source') :
    NewFromMap source = NewFromMap source' ∧ convertValue source = convertValue source' := by
  induction h with
  | same value => exact ⟨rfl, rfl⟩
  | map keyType entries entries' hkeys helements ih =>
    have hsorted : sortStrings (entries.map (fun entry => keyString keyType entry.1)) =
        sortStrings (entries'.map (fun entry => keyString keyType entry.1)) := by
      refine sortStrings_eq_of_perm _ _ ?_
      have := hkeys.map (keyString keyType)
      simpa [Function.comp_def] using this
    have hlook : ∀ k, lookupString k (convertEntries entries) =
        lookupString k (convertEntries entries') := by
      intro k
      rw [lookupString_convertEntries, lookupString_convertEntries]
      cases h1 : lookupString k entries with
      | none =>
        have hnot := (lookupString_eq_none_iff k entries).1 h1
        have hnot' : Value.str k ∉ entries'.map (fun entry => entry.1) :=
          fun hmem => hnot (hkeys.mem_iff.2 hmem)
        rw [(lookupString_eq_none_iff k entries').2 hnot']
      | some x =>
        cases h2 : lookupString k entries' with
        | none =>
          have hnot' := (lookupString_eq_none_iff k entries').1 h2
          have hmem : Value.str k ∈ entries.map (fun entry => entry.1) :=
            List.mem_map.2 ⟨_, lookupString_mem k entries x h1, rfl⟩
          exact absurd (hkeys.mem_iff.1 hmem) hnot'
        | some x' =>
          have := (ih (Value.str k) x x' (lookupString_mem k entries x h1)
            (lookupString_mem k entries' x' h2)).2
          simp [this]
    have hnew : NewFromMap (Value.map keyType entries) =
        NewFromMap (Value.map keyType entries') := by
      show newFromEntries keyType entries (convertEntries entries) =
        newFromEntries keyType entries' (convertEntries entries')
      unfold newFromEntries
      simp only [hsorted]
      refine convertLoop_congr _ _ _ _ _ ?_
      intro k _
      cases keyType <;> simp [mapIndex, hlook k]
    exact ⟨hnew, by rw [convertValue_map, convertValue_map, hnew]⟩
  | ptr elem elem' _ ih =>
    refine ⟨rfl, ?_⟩
    rw [convertValue_ptr, convertValue_ptr, ih.1]
  | namedCollection elem elem' _ ih =>
    refine ⟨rfl, ?_⟩
    rw [convertValue_namedCollection, convertValue_namedCollection, ih.1]

theorem element_unique_of_nodup_keys (entries : List (Value × Value))
    (hnodup : (entries.map (fun entry => entry.1)).Nodup) (key element element' : Value)
    (h : (key, element) ∈ entries) (h' : (key, element') ∈ entries) :
    element = element' := by
  induction entries with
  | nil => simp at h
  | cons entry rest ih =>
    simp only [List.map_cons, List.nodup_cons] at hnodup
    have hkey : ∀ x, (key, x) ∈ rest → key ∈ rest.map (fun entry => entry.1) :=
      fun x hx => List.mem_map.2 ⟨_, hx, rfl⟩
    rcases List.mem_cons.1 h with heq | hin <;> rcases List.mem_cons.1 h' with heq' | hin'
    · rw [← heq] at heq'
      exact ((Prod.mk.injEq _ _ _ _).mp heq'.symm).2
    · rw [← heq] at hnodup
      exact absurd (hkey _ hin') hnodup.1
    · rw [← heq'] at hnodup
      exact absurd (hkey _ hin) hnodup.1
    · exact ih hnodup.2 hin hin'

/-- A permutation of the entry list of a map is another enumeration of the same
mapping. -/
theorem sameMapping_of_perm (keyType : MapKeyType) (entries entries' : List (Value × Value))
    (hnodup : (entries.map (fun entry => entry.1)).Nodup)
    (hperm : entries.Perm entries') :
    SameMapping (Value.map keyType entries) (Value.map keyType entries') := by
  refine SameMapping.map keyType entries entries' (hperm.map _) ?_
  intro key element element' h h'
  rw [element_unique_of_nodup_keys entries hnodup key element element' h
    (hperm.mem_iff.2 h')]
  exact SameMapping.same _

/-! ## Lemmas on string-keyed maps and on AsMap -/

theorem stringKeys_cons (key element : Value) (rest : List (Value × Value))
    (h : stringKeys ((key, element) :: rest) = true) :
    (∃ s, key = Value.str s ∧
      s ∉ rest.map (fun entry => keyString MapKeyType.string entry.1)) ∧
      stringKeys rest = true := by
  simp only [stringKeys, List.all_cons, List.map_cons, List.nodup_cons, Bool.and_eq_true,
    decide_eq_true_eq] at h ⊢
  obtain ⟨⟨hstr, hall⟩, hnot, hnodup⟩ := h
  cases key <;> simp only [isStr, reduceCtorEq] at hstr
  rename_i s
  exact ⟨⟨s, rfl, by simpa [keyString] using hnot⟩, hall, hnodup⟩

theorem lookupString_of_mem (entries : List (Value × Value))
    (h : stringKeys entries = true) (key : String) (element : Value)
    (hmem : (Value.str key, element) ∈ entries) :
    lookupString key entries = some element := by
  induction entries with
  | nil => simp at hmem
  | cons entry rest ih =>
    obtain ⟨k, v⟩ := entry
    obtain ⟨⟨s, hs, hnot⟩, hrest⟩ := stringKeys_cons k v rest h
    subst hs
    rcases List.mem_cons.1 hmem with heq | hin
    · simp only [Prod.mk.injEq, Value.str.injEq] at heq
      simp [lookupString, heq.1, heq.2]
    · have hne : ¬ s = key := by
        intro hsk
        subst hsk
        exact hnot (List.mem_map.2 ⟨_, hin, rfl⟩)
      simp only [lookupString, hne, if_false]
      exact ih hrest hin

theorem stringKeys_mem_str (entries : List (Value × Value))
    (h : stringKeys entries = true) (key element : Value)
    (hmem : (key, element) ∈ entries) : ∃ s, key = Value.str s := by
  simp only [stringKeys, Bool.and_eq_true, List.all_eq_true] at h
  have := h.1 _ hmem
  cases key <;> simp only [isStr, reduceCtorEq] at this
  exact ⟨_, rfl⟩

theorem stringKeys_lookup (entries : List (Value × Value))
    (h : stringKeys entries = true) (key : String)
    (hmem : key ∈ entries.map (fun entry => keyString MapKeyType.string entry.1)) :
    ∃ element, lookupString key entries = some element := by
  obtain ⟨entry, hentry, hkey⟩ := List.mem_map.1 hmem
  obtain ⟨k, v⟩ := entry
  obtain ⟨s, hs⟩ := stringKeys_mem_str entries h k v hentry
  subst hs
  simp only [keyString] at hkey
  subst hkey
  exact ⟨v, lookupString_of_mem entries h _ v hentry⟩

theorem mapAssign_of_absent (key : String) (value : Value) (object : List (Value × Value))
    (h : Value.str key ∉ object.map (fun entry => entry.1)) :
    mapAssign key value object = object ++ [(Value.str key, value)] := by
  induction object with
  | nil => rfl
  | cons entry rest ih =>
    obtain ⟨k, v⟩ := entry
    simp only [List.map_cons, List.mem_cons, not_or] at h
    cases k with
    | str s =>
      have hne : ¬ s = key := fun hs => h.1 (by rw [hs])
      simp [mapAssign, hne, ih h.2]
    | _ => simp [mapAssign, ih h.2]

theorem asMapLoop_ok (pairs : List (Pair Value)) : ∀ (object : List (Value × Value)),
    (pairs.map (fun pair => pair.key)).Nodup →
    (∀ pair ∈ pairs, Value.str pair.key ∉ object.map (fun entry => entry.1)) →
    (∀ pair ∈ pairs, ∃ presented, presentValue pair.value = Outcome.ok presented) →
    asMapLoop pairs object = Outcome.ok
      (object ++ pairs.map (fun pair => (Value.str pair.key, presentedOf pair.value))) := by
  induction pairs with
  | nil => intro object _ _ _; simp [asMapLoop]
  | cons pair rest ih =>
    intro object hnodup hfresh hok
    obtain ⟨key, value⟩ := pair
    obtain ⟨presented, hp⟩ := hok _ (List.mem_cons_self _ _)
    simp only [List.map_cons, List.nodup_cons] at hnodup
    have habsent := hfresh _ (List.mem_cons_self _ _)
    simp only at habsent hp
    rw [asMapLoop, hp]
    simp only
    rw [mapAssign_of_absent key presented object habsent]
    rw [ih _ hnodup.2 ?_ (fun p hpmem => hok p (List.mem_cons_of_mem _ hpmem))]
    · simp [presentedOf, hp]
    · intro p hpmem
      simp only [List.map_append, List.map_cons, List.map_nil, List.mem_append,
        List.mem_singleton, Value.str.injEq, not_or]
      refine ⟨hfresh p (List.mem_cons_of_mem _ hpmem), ?_⟩
      intro hkey
      exact hnodup.1 (List.mem_map.2 ⟨p, hpmem, hkey⟩)

theorem plainEntries_mem (entries : List (Value × Value))
    (h : plainEntries entries = true) (key element : Value)
    (hmem : (key, element) ∈ entries) : plainValue element = true := by
  induction entries with
  | nil => simp at hmem
  | cons entry rest ih =>
    obtain ⟨k, v⟩ := entry
    simp only [plainEntries, Bool.and_eq_true] at h
    rcases List.mem_cons.1 hmem with heq | hrest
    · simp only [Prod.mk.injEq] at heq
      rw [heq.2]; exact h.1
    · exact ih h.2 hrest

theorem stringKeys_keys (entries : List (Value × Value))
    (h : stringKeys entries = true) :
    entries.map (fun entry => entry.1) =
      (entries.map (fun entry => keyString MapKeyType.string entry.1)).map Value.str := by
  induction entries with
  | nil => rfl
  | cons entry rest ih =>
    obtain ⟨k, v⟩ := entry
    obtain ⟨⟨s, hs, -⟩, hrest⟩ := stringKeys_cons k v rest h
    subst hs
    simp [keyString, ih hrest]

theorem roundTrip_of_plain (n : Nat) : ∀ (source : Value),
    sizeOf source ≤ n → plainValue source = true →
    ∃ stored presented, convertValue source = Outcome.ok stored ∧
      presentValue stored = Outcome.ok presented ∧ SameMapping source presented ∧
      (∀ keyType entries, source = Value.map keyType entries →
        ∃ c, NewFromMap source = Outcome.ok c ∧ stored = Value.collection c.pairs) := by
  induction n with
  | zero =>
    intro source hsize
    cases source <;> simp at hsize
  | succ n ih =>
    intro source hsize hplain
    cases source with
    | map keyType entries =>
      simp only [plainValue, Bool.and_eq_true, decide_eq_true_eq] at hplain
      obtain ⟨⟨hkt, hkeys⟩, hdeep⟩ := hplain
      subst hkt
      have hnodup : (entries.map
          (fun entry => keyString MapKeyType.string entry.1)).Nodup := by
        simp only [stringKeys, Bool.and_eq_true, decide_eq_true_eq] at hkeys
        exact hkeys.2
      have hK : ∀ k ∈ sortStrings
          (entries.map (fun entry => keyString MapKeyType.string entry.1)),
          ∃ element stored presented, lookupString k entries = some element ∧
            convertValue element = Outcome.ok stored ∧
            storedAt (convertEntries entries) k = stored ∧
            presentValue stored = Outcome.ok presented ∧
            SameMapping element presented := by
        intro k hk
        have hk2 := (sortStrings_perm _).mem_iff.1 hk
        obtain ⟨element, hlook⟩ := stringKeys_lookup entries hkeys k hk2
        have hmem := lookupString_mem k entries element hlook
        have hlt := sizeOf_lt_of_lookup k MapKeyType.string entries element hlook
        obtain ⟨stored, presented, hconv, hpres, hsame, -⟩ :=
          ih element (by omega) (plainEntries_mem entries hdeep _ _ hmem)
        refine ⟨element, stored, presented, hlook, hconv, ?_, hpres, hsame⟩
        simp [storedAt, lookupString_convertEntries, hlook, hconv]
      have hpre : ∀ k ∈ sortStrings
          (entries.map (fun entry => keyString MapKeyType.string entry.1)),
          ∃ v, lookupString k (convertEntries entries) = some (Outcome.ok v) := by
        intro k hk
        obtain ⟨element, stored, -, hlook, hconv, -, -, -⟩ := hK k hk
        exact ⟨stored, by simp [lookupString_convertEntries, hlook, hconv]⟩
      have hnew : NewFromMap (Value.map MapKeyType.string entries) = Outcome.ok
          ⟨(sortStrings (entries.map
            (fun entry => keyString MapKeyType.string entry.1))).map
              (fun k => ⟨k, storedAt (convertEntries entries) k⟩)⟩ := by
        show newFromEntries MapKeyType.string entries (convertEntries entries) = _
        unfold newFromEntries
        have := convertLoop_stored_before MapKeyType.string
          (by intro name h; cases h) (convertEntries entries)
          (sortStrings (entries.map (fun entry => keyString MapKeyType.string entry.1)))
          [] New hpre
        simp only [List.append_nil] at this
        rw [this]
        simp only [convertLoop, New, List.nil_append]
      have hloop := asMapLoop_ok
        ((sortStrings (entries.map
          (fun entry => keyString MapKeyType.string entry.1))).map
            (fun k => (⟨k, storedAt (convertEntries entries) k⟩ : Pair Value))) []
        (by
          simp only [List.map_map, Function.comp_def, List.map_id']
          exact sortStrings_nodup _ hnodup)
        (by intro pair _; simp)
        (by
          intro pair hpair
          obtain ⟨k, hk, rfl⟩ := List.mem_map.1 hpair
          obtain ⟨-, stored, presented, -, -, hst, hpres, -⟩ := hK k hk
          exact ⟨presented, by simp only [hst, hpres]⟩)
      simp only [List.nil_append, List.map_map, Function.comp_def] at hloop
      refine ⟨Value.collection ((sortStrings (entries.map
          (fun entry => keyString MapKeyType.string entry.1))).map
            (fun k => ⟨k, storedAt (convertEntries entries) k⟩)),
        Value.map MapKeyType.string ((sortStrings (entries.map
          (fun entry => keyString MapKeyType.string entry.1))).map
            (fun k => (Value.str k, presentedOf (storedAt (convertEntries entries) k)))),
        ?_, ?_, ?_, ?_⟩
      · rw [convertValue_map, hnew]; rfl
      · rw [presentValue, hloop]; rfl
      · refine SameMapping.map _ _ _ ?_ ?_
        · rw [stringKeys_keys entries hkeys]
          have hperm := ((sortStrings_perm (entries.map
            (fun entry => keyString MapKeyType.string entry.1))).map Value.str).symm
          simpa only [List.map_map, Function.comp_def] using hperm
        · intro key element element' hmem hmem'
          obtain ⟨k, hk, heq⟩ := List.mem_map.1 hmem'
          simp only [Prod.mk.injEq] at heq
          obtain ⟨hkey, helement⟩ := heq
          subst hkey
          obtain ⟨x, stored, presented, hlook, -, hst, hpres, hsame⟩ := hK k hk
          have hx := lookupString_of_mem entries hkeys k element hmem
          rw [hlook] at hx
          simp only [Option.some.injEq] at hx
          subst hx
          rw [← helement, hst]
          simp only [presentedOf, hpres]
          exact hsame
      · intro _ _ _
        exact ⟨_, hnew, rfl⟩
    | bool b => exact ⟨_, _, rfl, rfl, SameMapping.same _, by intro _ _ h; cases h⟩
    | int i => exact ⟨_, _, rfl, rfl, SameMapping.same _, by intro _ _ h; cases h⟩
    | str s => exact ⟨_, _, rfl, rfl, SameMapping.same _, by intro _ _ h; cases h⟩
    | other kind text =>
      exact ⟨_, _, rfl, rfl, SameMapping.same _, by intro _ _ h; cases h⟩
    | namedStr name s =>
      exact ⟨_, _, rfl, rfl, SameMapping.same _, by intro _ _ h; cases h⟩
    | signed kind i =>
      exact ⟨_, _, rfl, rfl, SameMapping.same _, by intro _ _ h; cases h⟩
    | unsigned kind n =>
      exact ⟨_, _, rfl, rfl, SameMapping.same _, by intro _ _ h; cases h⟩
    | _ => simp [plainValue] at hplain

/-! ## The claims on NewFromMap -/

/-- C11, the code at the failing input: on the `map[interface{}]interface{}`
with the keys `"<interface {} Value>"`, `"b"` and `"a"`, `NewFromMap` succeeds
and the result has three pairs, all under the key `"<interface {} Value>"`:
`"a"` is not among its keys, and the keys are not strictly ascending. -/
theorem newFromMap_keys_differ_on_interface_keyed_map :
    ∃ c : Collection,
      NewFromMap (Value.map MapKeyType.iface
        [(Value.str "<interface \x7b\x7d Value>", Value.bool true),
         (Value.str "b", Value.int 1), (Value.str "a", Value.int 2)]) = Outcome.ok c ∧
      c.Keys = ["<interface \x7b\x7d Value>", "<interface \x7b\x7d Value>",
        "<interface \x7b\x7d Value>"] ∧
      "a" ∉ c.Keys ∧ ¬ c.Keys.Pairwise keyLT := by
  refine ⟨_, rfl, rfl, by decide, ?_⟩
  intro h
  have h2 : keyLT "<interface \x7b\x7d Value>" "<interface \x7b\x7d Value>" :=
    (List.pairwise_cons.1 h).1 _ (List.mem_cons_self _ _)
  exact lt_irrefl _ h2

/-- On sources whose maps have key type `string` (the source, and every
element, at any depth, that is a map or points to one): when `NewFromMap`
succeeds, the result mirrors the source: `Length()` is the number of entries,
`Keys()` are the keys of the source in strictly ascending order, and the same
holds for every nested Collection made from a nested map. -/
theorem newFromMap_mirrors_source (source : Value) (c : Collection)
    (hkeyed : stringKeyed source = true)
    (hok : NewFromMap source = Outcome.ok c) :
    Mirrors source (Value.collection c.pairs) :=
  mirrors_of_ok (sizeOf source) source c (le_refl _) hkeyed hok

/-- A string-keyed source, `{"b": 1, "a": {"d": true, "c": "x"}}`, is mirrored. -/
theorem newFromMap_mirrors_source_witness :
    NewFromMap (Value.map MapKeyType.string
        [(Value.str "b", Value.int 1),
         (Value.str "a", Value.map MapKeyType.string
            [(Value.str "d", Value.bool true), (Value.str "c", Value.str "x")])]) =
      Outcome.ok ⟨[⟨"a", Value.collection [⟨"c", Value.str "x"⟩, ⟨"d", Value.bool true⟩]⟩,
        ⟨"b", Value.int 1⟩]⟩ ∧
    Mirrors (Value.map MapKeyType.string
        [(Value.str "b", Value.int 1),
         (Value.str "a", Value.map MapKeyType.string
            [(Value.str "d", Value.bool true), (Value.str "c", Value.str "x")])])
      (Value.collection
        [⟨"a", Value.collection [⟨"c", Value.str "x"⟩, ⟨"d", Value.bool true⟩]⟩,
         ⟨"b", Value.int 1⟩]) :=
  ⟨rfl, newFromMap_mirrors_source _ _ (by decide) rfl⟩

/-- C12: two enumerations of one mapping, at every nesting level, give the same
result of `NewFromMap`, whether a Collection, an error or a panic; two
Collections so obtained have the same `Keys()` and `Values()`, nested
Collections included, the values being equal. -/
theorem newFromMap_deterministic (source source' : Value)
    (h : SameMapping source source') :
    NewFromMap source = NewFromMap source' ∧
      ∀ c c', NewFromMap source = Outcome.ok c → NewFromMap source' = Outcome.ok c' →
        c.Keys = c'.Keys ∧ c.Values = c'.Values := by
  have heq := (sameMapping_converts source source' h).1
  refine ⟨heq, ?_⟩
  intro c c' hc hc'
  rw [heq, hc'] at hc
  simp only [Outcome.ok.injEq] at hc
  rw [hc]
  exact ⟨rfl, rfl⟩

/-- C12 at a concrete input: `{"b": {"y": 1, "x": 2}, "a": 3}` enumerated in
two orders, the nested map too. -/
theorem newFromMap_deterministic_witness :
    NewFromMap (Value.map MapKeyType.string
        [(Value.str "b", Value.map MapKeyType.string
            [(Value.str "y", Value.int 1), (Value.str "x", Value.int 2)]),
         (Value.str "a", Value.int 3)]) =
      NewFromMap (Value.map MapKeyType.string
        [(Value.str "a", Value.int 3),
         (Value.str "b", Value.map MapKeyType.string
            [(Value.str "x", Value.int 2), (Value.str "y", Value.int 1)])]) :=
  by
  have hnested : SameMapping
      (Value.map MapKeyType.string
        [(Value.str "y", Value.int 1), (Value.str "x", Value.int 2)])
      (Value.map MapKeyType.string
        [(Value.str "x", Value.int 2), (Value.str "y", Value.int 1)]) := by
    refine SameMapping.map _ _ _ (by exact List.Perm.swap _ _ []) ?_
    intro key x x' h3 h4
    simp only [List.mem_cons, Prod.mk.injEq, List.mem_singleton, List.not_mem_nil,
      or_false] at h3 h4
    rcases h3 with ⟨hx, rfl⟩ | ⟨hx, rfl⟩ <;> rcases h4 with ⟨hx', rfl⟩ | ⟨hx', rfl⟩
    · rw [hx] at hx'; simp at hx'
    · exact SameMapping.same _
    · exact SameMapping.same _
    · rw [hx] at hx'; simp at hx'
  have hsame : SameMapping
      (Value.map MapKeyType.string
        [(Value.str "b", Value.map MapKeyType.string
            [(Value.str "y", Value.int 1), (Value.str "x", Value.int 2)]),
         (Value.str "a", Value.int 3)])
      (Value.map MapKeyType.string
        [(Value.str "a", Value.int 3),
         (Value.str "b", Value.map MapKeyType.string
            [(Value.str "x", Value.int 2), (Value.str "y", Value.int 1)])]) := by
    refine SameMapping.map _ _ _ (by exact List.Perm.swap _ _ []) ?_
    intro key element element' h1 h2
    simp only [List.mem_cons, Prod.mk.injEq, List.mem_singleton, List.not_mem_nil,
      or_false] at h1 h2
    rcases h1 with ⟨hk, he⟩ | ⟨hk, he⟩ <;> rcases h2 with ⟨hk', he'⟩ | ⟨hk', he'⟩
    · rw [hk] at hk'; simp at hk'
    · rw [he, he']; exact hnested
    · rw [he, he']; exact SameMapping.same _
    · rw [hk] at hk'; simp at hk'
  exact (newFromMap_deterministic _ _ hsame).1

/-- C13: a source that is not a map gives NonMapTypeError (an `Outcome.error`
carries no Collection); and when the loop over the sorted keys has stored the
keys `before` and the nested call of `NewFromMap` made for the element at the
next key fails with `err`, `NewFromMap` of the enclosing map fails with `err`,
whatever was stored so far. -/
theorem newFromMap_error_propagation (source : Value)
    (hsource : kindOf source ≠ ValueKind.Map)
    (keyType : MapKeyType) (entries : List (Value × Value))
    (before after : List String) (key : String) (element : Value) (err : Error)
    (hkt : ∀ name, keyType ≠ MapKeyType.other name)
    (hkeys : sortStrings (entries.map (fun entry => keyString keyType entry.1)) =
      before ++ key :: after)
    (hbefore : ∀ k ∈ before, ∃ x v, lookupString k entries = some x ∧
      convertValue x = Outcome.ok v)
    (helement : lookupString key entries = some element)
    (hnested : nestedCall element = some (Outcome.error err)) :
    NewFromMap source = Outcome.error Error.NonMapTypeError ∧
      NewFromMap (Value.map keyType entries) = Outcome.error err := by
  constructor
  · cases source <;> first | rfl | exact absurd rfl hsource
  · have hpre : ∀ k ∈ before, ∃ v,
        lookupString k (convertEntries entries) = some (Outcome.ok v) := by
      intro k hk
      obtain ⟨x, v, hx, hv⟩ := hbefore k hk
      exact ⟨v, by rw [lookupString_convertEntries, hx]; simp [hv]⟩
    have hat : lookupString key (convertEntries entries) = some (Outcome.error err) := by
      rw [lookupString_convertEntries, helement]
      simp [nestedCall_error element err hnested]
    show newFromEntries keyType entries (convertEntries entries) = _
    unfold newFromEntries
    simp only [hkeys]
    rw [convertLoop_stored_before keyType hkt _ before (key :: after) New hpre]
    exact convertLoop_error_at keyType hkt _ key after _ err hat

/-- C13 at a concrete input: the string `"x"` is not a map, and in
`{"a": 1, "b": {"c": &5}}` the nested conversion under `"b"` fails after `"a"`
was stored. -/
theorem newFromMap_error_propagation_witness :
    NewFromMap (Value.str "x") = Outcome.error Error.NonMapTypeError ∧
      NewFromMap (Value.map MapKeyType.string
        [(Value.str "b", Value.map MapKeyType.string
            [(Value.str "c", Value.ptr (some (Value.int 5)))]),
         (Value.str "a", Value.int 1)]) = Outcome.error Error.NonMapTypeError :=
  newFromMap_error_propagation (Value.str "x") (by decide) MapKeyType.string
    [(Value.str "b", Value.map MapKeyType.string
        [(Value.str "c", Value.ptr (some (Value.int 5)))]),
     (Value.str "a", Value.int 1)]
    ["a"] [] "b"
    (Value.map MapKeyType.string [(Value.str "c", Value.ptr (some (Value.int 5)))])
    Error.NonMapTypeError (by intro name h; cases h) (by decide)
    (by
      intro k hk
      simp only [List.mem_singleton] at hk
      subst hk
      exact ⟨Value.int 1, Value.int 1, rfl, rfl⟩)
    rfl rfl

/-- C14, the code at the failing inputs: an element that is a pointer to a
number, or a `*Collection`, is not stored; `NewFromMap` of the enclosing map
returns NonMapTypeError. -/
theorem newFromMap_rejects_pointer_to_non_map :
    NewFromMap (Value.map MapKeyType.string
        [(Value.str "k", Value.ptr (some (Value.int 5)))]) =
      Outcome.error Error.NonMapTypeError ∧
    NewFromMap (Value.map MapKeyType.string
        [(Value.str "k", Value.collection [⟨"name", Value.str "X"⟩])]) =
      Outcome.error Error.NonMapTypeError :=
  ⟨rfl, rfl⟩

/-- C16, the code at the failing inputs: a nil element, a nil pointer element,
and a nil element one level down each make `NewFromMap` panic. -/
theorem newFromMap_faults_on_nil_element :
    NewFromMap (Value.map MapKeyType.string [(Value.str "a", Value.nil)]) =
      Outcome.fault ∧
    NewFromMap (Value.map MapKeyType.string [(Value.str "a", Value.ptr none)]) =
      Outcome.fault ∧
    NewFromMap (Value.map MapKeyType.string
        [(Value.str "a", Value.map MapKeyType.string [(Value.str "b", Value.nil)])]) =
      Outcome.fault :=
  ⟨rfl, rfl, rfl⟩

/-- C18: when the JSON layer fails on the text, `NewFromJsonString` returns its
error; otherwise it returns `NewFromMap` of the decoded mapping, and a
Collection it returns mirrors that mapping: keys strictly ascending at every
nesting level.  When the text decodes to the entries `"b": 1, "a": 2`, in this
order, the result has `Keys() = ["a", "b"]` and `Get("a") = 2`.  What the JSON
layer decodes an object to is a `map[string]interface{}`, at every level. -/
theorem newFromJsonString_delegates
    (decode : String → Except Error (List (Value × Value))) (text : String)
    (hjson : ∀ object, decode text = Except.ok object →
      stringKeyed (Value.map MapKeyType.string object) = true) :
    (∀ err, decode text = Except.error err →
      NewFromJsonString decode text = Outcome.error err) ∧
    (∀ object, decode text = Except.ok object →
      NewFromJsonString decode text = NewFromMap (Value.map MapKeyType.string object) ∧
      ∀ c, NewFromJsonString decode text = Outcome.ok c →
        Mirrors (Value.map MapKeyType.string object) (Value.collection c.pairs)) ∧
    (decode text = Except.ok [(Value.str "b", Value.other "float64" "1"),
        (Value.str "a", Value.other "float64" "2")] →
      ∃ c, NewFromJsonString decode text = Outcome.ok c ∧ c.Keys = ["a", "b"] ∧
        c.Get "a" = Value.other "float64" "2") := by
  refine ⟨?_, ?_, ?_⟩
  · intro err herr
    simp [NewFromJsonString, herr]
  · intro object hobject
    have heq : NewFromJsonString decode text =
        NewFromMap (Value.map MapKeyType.string object) := by
      simp [NewFromJsonString, hobject]
    refine ⟨heq, ?_⟩
    intro c hc
    rw [heq] at hc
    exact mirrors_of_ok _ _ c (le_refl _) (hjson object hobject) hc
  · intro hobject
    refine ⟨⟨[⟨"a", Value.other "float64" "2"⟩, ⟨"b", Value.other "float64" "1"⟩]⟩,
      ?_, rfl, rfl⟩
    simp only [NewFromJsonString, hobject]
    rfl

/-- C18 at a concrete decoder, one that knows a single text: the example text
gives the Collection with the keys `"a"`, `"b"`, and a text that does not parse
gives the decoder's error. -/
theorem newFromJsonString_delegates_witness :
    (∃ c, NewFromJsonString
        (fun text => if text = "\x7b\"b\":1,\"a\":2\x7d" then
            Except.ok [(Value.str "b", Value.other "float64" "1"),
              (Value.str "a", Value.other "float64" "2")]
          else Except.error (Error.JsonError "unexpected end of JSON input"))
        "\x7b\"b\":1,\"a\":2\x7d" = Outcome.ok c ∧ c.Keys = ["a", "b"] ∧
        c.Get "a" = Value.other "float64" "2") ∧
    NewFromJsonString
        (fun text => if text = "\x7b\"b\":1,\"a\":2\x7d" then
            Except.ok [(Value.str "b", Value.other "float64" "1"),
              (Value.str "a", Value.other "float64" "2")]
          else Except.error (Error.JsonError "unexpected end of JSON input"))
        "\x7b" = Outcome.error (Error.JsonError "unexpected end of JSON input") :=
  ⟨(newFromJsonString_delegates _ "\x7b\"b\":1,\"a\":2\x7d"
      (by intro object h; simp at h; subst h; decide)).2.2 (by simp),
    (newFromJsonString_delegates _ "\x7b"
      (by intro object h; simp at h)).1 _ (by simp)⟩

/-! ## The claims on AsMap -/

/-- C15, as stated, fails on a nested map of primitive values whose key type is
not `string`: on `map[interface{}]interface{}{"a": 1}` and on
`map[int]string{1: "x"}` the call of `NewFromMap` panics. -/
theorem newFromMap_faults_on_non_string_keyed_map :
    NewFromMap (Value.map MapKeyType.iface [(Value.str "a", Value.int 1)]) =
      Outcome.fault ∧
    NewFromMap (Value.map (MapKeyType.other "int") [(Value.int 1, Value.str "x")]) =
      Outcome.fault :=
  ⟨rfl, rfl⟩

/-- C15, amended to maps with key type `string` at every level: for a nested
map whose leaves are neither nil nor pointers, `NewFromMap` succeeds and
`Present().AsMap()` of the result is the same mapping as the source: the same
keys at every level, equal leaves, nested maps the same recursively. -/
theorem asMap_newFromMap_round_trip (keyType : MapKeyType)
    (entries : List (Value × Value))
    (hplain : plainValue (Value.map keyType entries) = true) :
    ∃ c presented, NewFromMap (Value.map keyType entries) = Outcome.ok c ∧
      AsMap c = Outcome.ok presented ∧
      SameMapping (Value.map keyType entries) presented := by
  obtain ⟨stored, presented, -, hpres, hsame, hmap⟩ :=
    roundTrip_of_plain _ (Value.map keyType entries) (le_refl _) hplain
  obtain ⟨c, hnew, hstored⟩ := hmap keyType entries rfl
  subst hstored
  refine ⟨c, presented, hnew, ?_, hsame⟩
  rw [presentValue] at hpres
  exact hpres

/-- C15 at a concrete input: `{"b": {"y": 1}, "a": "x"}`. -/
theorem asMap_newFromMap_round_trip_witness :
    ∃ c presented,
      NewFromMap (Value.map MapKeyType.string
        [(Value.str "b", Value.map MapKeyType.string [(Value.str "y", Value.int 1)]),
         (Value.str "a", Value.str "x")]) = Outcome.ok c ∧
      AsMap c = Outcome.ok presented ∧
      SameMapping (Value.map MapKeyType.string
        [(Value.str "b", Value.map MapKeyType.string [(Value.str "y", Value.int 1)]),
         (Value.str "a", Value.str "x")]) presented :=
  asMap_newFromMap_round_trip MapKeyType.string
    [(Value.str "b", Value.map MapKeyType.string [(Value.str "y", Value.int 1)]),
     (Value.str "a", Value.str "x")] (by decide)

theorem presentablePairs_mem (pairs : List (Pair Value))
    (h : presentablePairs pairs = true) (pair : Pair Value) (hmem : pair ∈ pairs) :
    presentable pair.value = true := by
  induction pairs with
  | nil => simp at hmem
  | cons head rest ih =>
    obtain ⟨key, value⟩ := head
    simp only [presentablePairs, Bool.and_eq_true] at h
    rcases List.mem_cons.1 hmem with heq | hrest
    · rw [heq]; exact h.1
    · exact ih h.2 hrest

theorem asMapLoop_total (pairs : List (Pair Value))
    (h : ∀ pair ∈ pairs, ∃ presented, presentValue pair.value = Outcome.ok presented) :
    ∀ object, ∃ result, asMapLoop pairs object = Outcome.ok result := by
  induction pairs with
  | nil => intro object; exact ⟨object, rfl⟩
  | cons head rest ih =>
    intro object
    obtain ⟨key, value⟩ := head
    obtain ⟨presented, hp⟩ := h _ (List.mem_cons_self _ _)
    simp only at hp
    rw [asMapLoop, hp]
    exact ih (fun p hpmem => h p (List.mem_cons_of_mem _ hpmem)) _

theorem presentValue_total (n : Nat) : ∀ (value : Value), sizeOf value ≤ n →
    presentable value = true → ∃ presented, presentValue value = Outcome.ok presented := by
  induction n with
  | zero =>
    intro value hsize
    cases value <;> simp at hsize
  | succ n ih =>
    intro value hsize hp
    cases value with
    | nil => simp [presentable] at hp
    | namedCollection elem => simp [presentable] at hp
    | collection pairs =>
      simp only [presentable] at hp
      have hall : ∀ pair ∈ pairs, ∃ presented,
          presentValue pair.value = Outcome.ok presented := by
        intro pair hmem
        have h1 := List.sizeOf_lt_of_mem hmem
        have h2 : sizeOf pair.value < sizeOf pair := by
          obtain ⟨key, value⟩ := pair
          simp only [Pair.mk.sizeOf_spec]; omega
        simp only [Value.collection.sizeOf_spec] at hsize
        exact ih pair.value (by omega) (presentablePairs_mem pairs hp pair hmem)
      obtain ⟨object, hobject⟩ := asMapLoop_total pairs hall []
      exact ⟨Value.map MapKeyType.string object, by rw [presentValue, hobject]; rfl⟩
    | bool b => exact ⟨_, rfl⟩
    | int i => exact ⟨_, rfl⟩
    | str s => exact ⟨_, rfl⟩
    | map keyType entries => exact ⟨_, rfl⟩
    | ptr elem => exact ⟨_, rfl⟩
    | other kind text => exact ⟨_, rfl⟩
    | namedStr name s => exact ⟨_, rfl⟩
    | signed kind i => exact ⟨_, rfl⟩
    | unsigned kind n => exact ⟨_, rfl⟩

/-- What `AsMap` does on the Collections it can present: with unique keys and
`presentable` values, it returns the map with one entry for each pair, under
the key of the pair, holding `AsMap()` of the value when the value is a nested
Collection and the value itself otherwise. -/
theorem asMap_presents (c : Collection) (hu : c.Keys.Nodup)
    (hp : presentablePairs c.pairs = true) :
    AsMap c = Outcome.ok (Value.map MapKeyType.string
        (c.pairs.map (fun pair => (Value.str pair.key, presentedOf pair.value)))) ∧
      ∀ pair ∈ c.pairs,
        (∀ pairs, pair.value = Value.collection pairs →
          AsMap ⟨pairs⟩ = Outcome.ok (presentedOf pair.value)) ∧
        ((∀ pairs, pair.value ≠ Value.collection pairs) →
          presentedOf pair.value = pair.value) := by
  have hall : ∀ pair ∈ c.pairs, ∃ presented,
      presentValue pair.value = Outcome.ok presented := fun pair hmem =>
    presentValue_total _ pair.value (le_refl _) (presentablePairs_mem c.pairs hp pair hmem)
  constructor
  · have := asMapLoop_ok c.pairs [] hu (by intro pair _; simp) hall
    simp only [List.nil_append] at this
    simp [AsMap, this, asMapResult]
  · intro pair hmem
    obtain ⟨presented, hpres⟩ := hall pair hmem
    constructor
    · intro pairs hvalue
      rw [hvalue] at hpres
      simp only [presentedOf, hvalue, hpres]
      rw [presentValue] at hpres
      exact hpres
    · intro hnot
      have hpv := presentablePairs_mem c.pairs hp pair hmem
      cases hv : pair.value with
      | collection pairs => exact absurd hv (hnot pairs)
      | nil => rw [hv] at hpv; simp [presentable] at hpv
      | namedCollection elem => rw [hv] at hpv; simp [presentable] at hpv
      | _ => rfl

/-- C19, the code at the failing inputs: a value that is a non-nil pointer to
another type named `Collection`, or a nil `*Collection`, makes `AsMap` panic,
also when it sits in a nested Collection. -/
theorem asMap_faults_on_pointer_named_collection :
    AsMap ⟨[⟨"k", Value.namedCollection (some (Value.other "struct" "\x7b\x7d"))⟩]⟩ =
      Outcome.fault ∧
    AsMap ⟨[⟨"k", Value.namedCollection none⟩]⟩ = Outcome.fault ∧
    AsMap ⟨[⟨"child", Value.collection
      [⟨"k", Value.namedCollection (some (Value.other "struct" "\x7b\x7d"))⟩]⟩]⟩ =
      Outcome.fault :=
  ⟨rfl, rfl, rfl⟩

/-! ## The claims on String -/

theorem renderValue_of_not_namedStr (format : Value → String) (value : Value)
    (h : isNamedStr value = false) :
    renderValue format value = Outcome.ok (valueText format value) := by
  cases value <;> first
    | (simp [isNamedStr] at h; done)
    | simp [renderValue, valueText, StringOf]

theorem stringLoop_renders (format : Value → String) (pairs : List (Pair Value)) :
    ∀ (index : Nat) (str : String),
    (∀ pair ∈ pairs, isNamedStr pair.value = false) →
    stringLoop format pairs index str = Outcome.ok
      (str ++ (if index = 0 ∨ pairs.isEmpty = true then "" else ",") ++
        joinComma (pairs.map (pairText format))) := by
  induction pairs with
  | nil => intro index str _; simp [stringLoop, joinComma]
  | cons pair rest ih =>
    intro index str hall
    obtain ⟨key, value⟩ := pair
    have hvalue := renderValue_of_not_namedStr format value
      (hall _ (List.mem_cons_self _ _))
    rw [stringLoop, hvalue]
    simp only
    rw [ih _ _ (fun p hp => hall p (List.mem_cons_of_mem _ hp))]
    cases rest with
    | nil =>
      by_cases hindex : index = 0 <;>
        simp [joinComma, pairText, hindex, String.append_assoc]
    | cons next more =>
      by_cases hindex : index = 0 <;>
        simp [joinComma, pairText, hindex, String.append_assoc]

/-- The rendering of `String()` on a Collection none of whose values has a
defined string type: the comma-separated renderings of the pairs, in insertion
order, between braces. -/
theorem stringOf_renders (format : Value → String) (c : Collection)
    (h : ∀ pair ∈ c.pairs, isNamedStr pair.value = false) :
    StringOf format c =
      Outcome.ok ("\x7b" ++ joinComma (c.pairs.map (pairText format)) ++ "\x7d") := by
  simp [StringOf, stringLoop_renders format c.pairs 0 "" h]

/-- The example of the specification: `pkg`, a nested Collection and a boolean,
`fmt` printing `true` for the boolean. -/
theorem stringOf_example :
    StringOf (fun value => match value with
        | Value.bool true => "true"
        | _ => "?")
      (((New.Set "pkg" (Value.str "standard")).Set "detail"
        (Value.collection (New.Set "name" (Value.str "X")).pairs)).Set "isPublic"
          (Value.bool true)) =
      Outcome.ok
        "\x7b\"pkg\":\"standard\",\"detail\":\x7b\"name\":\"X\"\x7d,\"isPublic\":true\x7d" := by
  rfl

/-- C17, the code at the failing input: a value of a defined string type, as
`Name("x")` for `type Name string`, has kind String, and the assertion
`pair.value.(string)` makes `String()` panic, whatever `fmt` prints for other
values. -/
theorem stringOf_faults_on_defined_string_type (format : Value → String) :
    StringOf format ⟨[⟨"k", Value.namedStr "Name" "x"⟩]⟩ = Outcome.fault :=
  rfl

/-- C40, the code at the failing input: on the Collection built with
`Set("k", nil)`, `reflect.TypeOf(pair.value)` is nil, its `Kind()` panics, and
so does `AsMap`; likewise with other pairs before the nil value. -/
theorem asMap_faults_on_nil_value :
    AsMap (New.Set "k" Value.nil) = Outcome.fault ∧
      AsMap ((New.Set "pkg" (Value.str "standard")).Set "k" Value.nil) = Outcome.fault :=
  ⟨rfl, rfl⟩

end Collection

/-! ## The claims on Array -/

namespace Array

theorem find_loops (a : Array) (p : Array → Int → Value → Bool) (l : List Value) (n : Nat) :
    (findIndexLoop a p l n = -1 ∧ findLoop a p l n = Value.nil ∧
      ∀ (j : Nat) (v : Value), l[j]? = some v → p a ((n + j : Nat) : Int) v = false) ∨
    (∃ i : Nat, i < l.length ∧ findIndexLoop a p l n = ((n + i : Nat) : Int) ∧
      l[i]? = some (findLoop a p l n) ∧
      p a ((n + i : Nat) : Int) (findLoop a p l n) = true ∧
      ∀ (j : Nat) (v : Value), j < i → l[j]? = some v →
        p a ((n + j : Nat) : Int) v = false) := by
  induction l generalizing n with
  | nil => left; simp [findIndexLoop, findLoop]
  | cons v rest ih =>
    cases hp : p a (n : Int) v with
    | true =>
      right
      refine ⟨0, by simp, by simp [findIndexLoop, hp], by simp [findLoop, hp],
        by simp [findLoop, hp], ?_⟩
      intro j w hj
      omega
    | false =>
      rcases ih (n + 1) with ⟨h1, h2, h3⟩ | ⟨i, hi, h1, h2, h3, h4⟩
      · left
        refine ⟨by simp [findIndexLoop, hp, h1], by simp [findLoop, hp, h2], ?_⟩
        intro j w hj
        cases j with
        | zero =>
          simp only [List.getElem?_cons_zero, Option.some.injEq] at hj
          subst hj; simpa using hp
        | succ j =>
          simp only [List.getElem?_cons_succ] at hj
          have := h3 j w hj
          rw [show n + (j + 1) = n + 1 + j by omega]
          exact this
      · right
        refine ⟨i + 1, by simp [hi], ?_, ?_, ?_, ?_⟩
        · simp only [findIndexLoop, hp, Bool.false_eq_true, if_false, h1]
          congr 1; omega
        · simpa [findLoop, hp] using h2
        · simp only [findLoop, hp, Bool.false_eq_true, if_false]
          rw [show n + (i + 1) = n + 1 + i by omega]
          exact h3
        · intro j w hj hw
          cases j with
          | zero =>
            simp only [List.getElem?_cons_zero, Option.some.injEq] at hw
            subst hw; simpa using hp
          | succ j =>
            simp only [List.getElem?_cons_succ] at hw
            have := h4 j w (by omega) hw
            rw [show n + (j + 1) = n + 1 + j by omega]
            exact this

/-- C20, as stated, fails: on the Array `[nil]` with a testing function that
accepts every element, `Find` returns nil (the element found, which is the
absent sentinel too) while `FindIndex` returns 0, not -1. -/
theorem find_nil_element_but_findIndex_zero :
    (Array.mk [Value.nil]).Find (fun _ _ _ => true) = Value.nil ∧
      (Array.mk [Value.nil]).FindIndex (fun _ _ _ => true) = 0 ∧
      ¬ ((Array.mk [Value.nil]).FindIndex (fun _ _ _ => true) = -1 ↔
        (Array.mk [Value.nil]).Find (fun _ _ _ => true) = Value.nil) := by
  refine ⟨rfl, rfl, ?_⟩
  intro h
  have h2 := h.2 rfl
  simp [FindIndex, findIndexLoop] at h2

/-- C20, amended: if `FindIndex(p)` is -1 then `Find(p)` is nil; if `FindIndex(p)`
is not -1 then it is a position of the Array, the element there is `Find(p)`,
it satisfies `p`, and no earlier element does; and if no nil element of the
Array satisfies `p`, then `Find(p)` is nil only if `FindIndex(p)` is -1. -/
theorem find_findIndex_consistent (a : Array) (p : Array → Int → Value → Bool) :
    (a.FindIndex p = -1 → a.Find p = Value.nil) ∧
      (a.FindIndex p ≠ -1 →
        0 ≤ a.FindIndex p ∧ a.FindIndex p < (a.values.length : Int) ∧
        a.values[(a.FindIndex p).toNat]? = some (a.Find p) ∧
        p a (a.FindIndex p) (a.Find p) = true ∧
        ∀ (j : Nat) (v : Value), (j : Int) < a.FindIndex p → a.values[j]? = some v →
          p a (j : Int) v = false) ∧
      ((∀ (j : Nat), a.values[j]? = some Value.nil → p a (j : Int) Value.nil = false) →
        (a.Find p = Value.nil → a.FindIndex p = -1)) := by
  unfold FindIndex Find
  rcases find_loops a p a.values 0 with ⟨h1, h2, h3⟩ | ⟨i, hi, h1, h2, h3, h4⟩
  · refine ⟨fun _ => h2, fun h => absurd h1 h, fun _ _ => h1⟩
  · simp only [Nat.zero_add] at h1 h3 h4
    refine ⟨?_, ?_, ?_⟩
    · intro h; rw [h1] at h; omega
    · intro _
      rw [h1]
      refine ⟨by omega, by omega, by simpa using h2, h3, ?_⟩
      intro j v hj hv
      exact h4 j v (by omega) hv
    · intro hnil hfind
      rw [hfind] at h2 h3
      have := hnil i h2
      rw [this] at h3
      exact absurd h3 (by simp)

/-! ## Lemmas on the Array operations -/

theorem index_of_lt (a : Array) (i : Nat) (h : i < a.values.length) :
    a.index (i : Int) = Outcome.ok (a.values.get ⟨i, h⟩) := by
  have h1 : (0 : Int) ≤ (i : Int) ∧ (i : Int) < (a.values.length : Int) :=
    ⟨Int.natCast_nonneg i, by exact_mod_cast h⟩
  simp only [index, h1, and_self, if_true, Int.toNat_ofNat, List.getElem?_eq_getElem h]
  rfl

theorem joinLoop_eq (format : Value → String) (separator : String) (length : Nat)
    (values : List Value) : ∀ (i : Nat) (str : String), length = i + values.length →
    joinLoop format separator length values i str =
      str ++ joinWith separator (values.map format) := by
  induction values with
  | nil => intro i str _; simp [joinLoop, joinWith]
  | cons v rest ih =>
    intro i str hlen
    rw [joinLoop, ih (i + 1) _ (by simp only [List.length_cons] at hlen; omega)]
    cases rest with
    | nil =>
      have : ((i : Int) ≠ (length : Int) - 1) = False := by
        simp only [List.length_cons, List.length_nil] at hlen
        simp only [ne_eq, eq_iff_iff, iff_false, not_not]
        omega
      simp [this, joinWith]
    | cons next more =>
      have : ((i : Int) ≠ (length : Int) - 1) = True := by
        simp only [List.length_cons] at hlen
        simp only [ne_eq, eq_iff_iff, iff_true]
        omega
      simp [this, joinWith, String.append_assoc]

theorem reverseLoop_eq (a : Array) : ∀ (k : Nat) (acc : Array), k ≤ a.values.length →
    reverseLoop a k acc = Outcome.ok ⟨acc.values ++ (a.values.take k).reverse⟩ := by
  intro k
  induction k with
  | zero => intro acc _; simp [reverseLoop]
  | succ k ih =>
    intro acc hk
    have hlt : k < a.values.length := hk
    rw [reverseLoop, index_of_lt a k hlt]
    simp only
    rw [ih _ (Nat.le_of_lt hlt)]
    have htake : a.values.take (k + 1) =
        a.values.take k ++ [a.values.get ⟨k, hlt⟩] := by
      rw [List.take_succ, List.getElem?_eq_getElem hlt]
      rfl
    rw [htake]
    simp only [Push, List.reverse_append, List.reverse_cons, List.reverse_nil,
      List.nil_append, List.singleton_append, List.append_assoc]

/-- A valid slice has as many elements as its length says. -/
theorem elements_length (store : Store) (s : Slice) (h : valid store s) :
    (elements store s).length = s.length := by
  obtain ⟨h1, h2⟩ := h
  simp only [elements, List.length_take, List.length_drop]
  omega

/-- Writing behind the elements of a slice extends them by what is written. -/
theorem writeCells_elements (cells : List Value) (offset length : Nat) (values : List Value)
    (h : offset + length + values.length ≤ cells.length) :
    ((writeCells cells (offset + length) values).drop offset).take (length + values.length) =
      (cells.drop offset).take length ++ values := by
  have hlen : (cells.take (offset + length)).length = offset + length := by
    rw [List.length_take]; omega
  have h1 : (List.take (offset + length) cells).drop offset = (cells.drop offset).take length := by
    rw [List.drop_take]; congr 1; omega
  have h2 : ((cells.drop offset).take length).length = length := by
    rw [List.length_take, List.length_drop]; omega
  unfold writeCells
  rw [List.append_assoc, List.drop_append_of_le_length (by omega), h1, ← List.append_assoc,
    List.take_append_of_le_length (by rw [List.length_append, h2]),
    List.take_of_length_le (by rw [List.length_append, h2])]

/-- The result of `append` on a valid slice holds the elements that `Push` gives. -/
theorem append_elements (grow : Nat → Nat → Nat) (store : Store) (s : Slice)
    (values : List Value) (h : valid store s) :
    elements (append grow store s values).1 (append grow store s values).2 =
      (Push ⟨elements store s⟩ values).values := by
  show _ = elements store s ++ values
  have hlen := elements_length store s h
  obtain ⟨h1, h2⟩ := h
  unfold append
  split
  · next hfit =>
    by_cases hin : s.array < store.length
    · have hget : (store.set s.array (writeCells (store.getD s.array [])
          (s.offset + s.length) values)).getD s.array [] =
          writeCells (store.getD s.array []) (s.offset + s.length) values := by
        simp [List.getD_eq_getElem?_getD, List.getElem?_set, hin]
      simp only [elements] at hlen ⊢
      rw [hget, writeCells_elements _ _ _ _ (by omega)]
    · have hnil : store.getD s.array [] = [] := by
        simp [List.getD_eq_getElem?_getD, List.getElem?_eq_none (Nat.le_of_not_lt hin)]
      rw [hnil] at h2
      simp only [List.length_nil] at h2
      have hv : values = [] := List.eq_nil_of_length_eq_zero (by omega)
      subst hv
      have hl : s.length = 0 := by omega
      simp [elements, hl]
  · generalize hE : elements store s = E at hlen
    have hget : (store ++ [E ++ values ++ List.replicate
        (max (s.length + values.length) (grow s.capacity (s.length + values.length)) -
          (s.length + values.length)) Value.nil]).getD store.length [] =
        E ++ values ++ List.replicate
          (max (s.length + values.length) (grow s.capacity (s.length + values.length)) -
            (s.length + values.length)) Value.nil := by
      simp [List.getD_eq_getElem?_getD]
    simp only [elements]
    rw [hget, List.drop_zero, List.take_append_of_le_length (by simp [hlen]),
      List.take_of_length_le (by simp [hlen])]

/-- Writing within a backing array keeps its size. -/
theorem writeCells_length (cells : List Value) (position : Nat) (values : List Value)
    (h : position + values.length ≤ cells.length) :
    (writeCells cells position values).length = cells.length := by
  simp only [writeCells, List.length_append, List.length_take, List.length_drop]
  omega

/-- The result of `append` on a valid slice is valid in the new storage. -/
theorem append_valid (grow : Nat → Nat → Nat) (store : Store) (s : Slice)
    (values : List Value) (h : valid store s) :
    valid (append grow store s values).1 (append grow store s values).2 := by
  have hlen := elements_length store s h
  obtain ⟨h1, h2⟩ := h
  unfold append
  split
  · next hfit =>
    refine ⟨hfit, ?_⟩
    by_cases hin : s.array < store.length
    · have hget : (store.set s.array (writeCells (store.getD s.array [])
          (s.offset + s.length) values)).getD s.array [] =
          writeCells (store.getD s.array []) (s.offset + s.length) values := by
        simp [List.getD_eq_getElem?_getD, List.getElem?_set, hin]
      simp only [hget]
      rw [writeCells_length _ _ _ (by omega)]
      exact h2
    · have hnil : store.getD s.array [] = [] := by
        simp [List.getD_eq_getElem?_getD, List.getElem?_eq_none (Nat.le_of_not_lt hin)]
      rw [hnil] at h2
      simp only [List.length_nil] at h2
      simp only [Nat.zero_le, Nat.le_zero_eq] at h2 ⊢
      omega
  · refine ⟨le_max_left _ _, ?_⟩
    simp only [List.getD_eq_getElem?_getD, List.getElem?_concat_length, Option.getD_some,
      List.length_append, List.length_replicate, hlen]
    omega

/-- An Array that shares no storage with the receiver keeps its elements. -/
theorem append_other (grow : Nat → Nat → Nat) (store : Store) (s o : Slice)
    (values : List Value) (h : separate store s o) :
    elements (append grow store s values).1 o = elements store o := by
  rcases h with h0 | ⟨hne, hin⟩
  · simp [elements, h0]
  · unfold append
    split
    · simp [elements, List.getD_eq_getElem?_getD, List.getElem?_set, Ne.symm hne]
    · simp [elements, List.getD_eq_getElem?_getD, List.getElem?_append_left hin]

/-- An Array that shares no storage with the receiver shares none with the
result of `append`. -/
theorem append_separate (grow : Nat → Nat → Nat) (store : Store) (s o : Slice)
    (values : List Value) (h : separate store s o) :
    separate (append grow store s values).1 (append grow store s values).2 o := by
  rcases h with h0 | ⟨hne, hin⟩
  · exact Or.inl h0
  · refine Or.inr ?_
    unfold append
    split
    · exact ⟨hne, by simpa using hin⟩
    · exact ⟨Nat.ne_of_lt hin, by simp; omega⟩

/-! ## The claims on Join, Push, Concat, Pop, Shift and Reverse -/

/-- C26: `Join(sep)` is the default formatting of the elements, in order, with
the separator between each two of them and not after the last; the empty Array
gives the empty string and a one-element Array the text of its element. -/
theorem join_separates_elements (a : Array) (format : Value → String) (sep : String) :
    a.Join format sep = joinWith sep (a.values.map format) ∧
      (Array.mk []).Join format sep = "" ∧
      ∀ e, (Array.mk [e]).Join format sep = format e := by
  have h : ∀ b : Array, b.Join format sep = joinWith sep (b.values.map format) := by
    intro b
    simp [Join, joinLoop_eq format sep b.values.length b.values 0 "" (by simp)]
  exact ⟨h a, by rw [h]; rfl, fun e => by rw [h]; rfl⟩

/-- C27: `Push(vs...)` returns the elements of the Array followed by `vs`, in
order: its length is the sum of the lengths and its first `len(a)` elements are
those of the Array; `New(vs...)` has exactly the elements `vs`. -/
theorem push_appends_and_new_holds (a : Array) (vs : List Value) :
    (a.Push vs).values = a.values ++ vs ∧
      (a.Push vs).values.length = a.values.length + vs.length ∧
      (a.Push vs).values.take a.values.length = a.values ∧
      (New vs).values = vs := by
  simp [Push, New]

/-- Concat on Arrays that share no storage with the receiver: the result holds
the elements of the receiver followed by those of the others, in order. -/
theorem concat_elements (grow : Nat → Nat → Nat) (others : List Slice) :
    ∀ (store : Store) (s : Slice), valid store s → (∀ o ∈ others, separate store s o) →
      elements (Concat grow store s others).1 (Concat grow store s others).2 =
        elements store s ++ (others.map (elements store)).flatten := by
  induction others with
  | nil => intro store s _ _; simp [Concat]
  | cons other rest ih =>
    intro store s hvalid hsep
    have hrest : ∀ o ∈ rest, separate (append grow store s (elements store other)).1
        (append grow store s (elements store other)).2 o :=
      fun o ho => append_separate grow store s o _ (hsep o (List.mem_cons_of_mem _ ho))
    have hmap : rest.map (elements (append grow store s (elements store other)).1) =
        rest.map (elements store) :=
      List.map_congr_left (fun o ho =>
        append_other grow store s o _ (hsep o (List.mem_cons_of_mem _ ho)))
    have := ih _ _ (append_valid grow store s (elements store other) hvalid) hrest
    simp only [Concat, List.foldl_cons] at this ⊢
    rw [this, append_elements grow store s _ hvalid, hmap]
    simp [Push]

/-- Concat without arguments returns the receiver and leaves the storage as it
is. -/
theorem concat_no_arguments (grow : Nat → Nat → Nat) (store : Store) (s : Slice) :
    Concat grow store s [] = (store, s) := rfl

/-- Concat of `[1]` with `[2, 3]` and `[4]`, each in a backing array of its
own, whatever the runtime's growth of capacities. -/
theorem concat_elements_example (grow : Nat → Nat → Nat) :
    elements
        (Concat grow [[Value.int 1], [Value.int 2, Value.int 3], [Value.int 4]] ⟨0, 0, 1, 1⟩
          [⟨1, 0, 2, 2⟩, ⟨2, 0, 1, 1⟩]).1
        (Concat grow [[Value.int 1], [Value.int 2, Value.int 3], [Value.int 4]] ⟨0, 0, 1, 1⟩
          [⟨1, 0, 2, 2⟩, ⟨2, 0, 1, 1⟩]).2 =
      [Value.int 1, Value.int 2, Value.int 3, Value.int 4] := by
  rw [concat_elements grow _ _ _ (by simp [valid])
    (by intro o ho; simp at ho; rcases ho with rfl | rfl <;> simp [separate])]
  rfl

/-- C28, the code at the failing input: `base := New(1, 2)`, `a` is the Array
that `base.Pop()` returns, `o2` the one that `base.Shift()` returns, and
`a.Concat(New(9), o2)` is called.  Before the call the three Arrays hold `[1]`,
`[9]` and `[2]`, so that the claim asks for `[1, 9, 2]`.  The first `append`
finds spare capacity in `a` and writes 9 into the second cell of the backing
array of `base`, which is the cell that `o2` holds; the result is `[1, 9, 9]`,
and `base` holds `[1, 9]` afterwards, whatever the runtime's growth of
capacities. -/
theorem concat_overwrites_shared_argument (grow : Nat → Nat → Nat) :
    elements (sharedOther grow).1 (sharedBase grow).2 = [Value.int 1, Value.int 2] ∧
      elements (sharedOther grow).1 (popSlice (sharedBase grow).2) = [Value.int 1] ∧
      elements (sharedOther grow).1 (sharedOther grow).2 = [Value.int 9] ∧
      elements (sharedOther grow).1 (shiftSlice (sharedBase grow).2) = [Value.int 2] ∧
      elements (sharedConcat grow).1 (sharedConcat grow).2 =
        [Value.int 1, Value.int 9, Value.int 9] ∧
      elements (sharedConcat grow).1 (sharedBase grow).2 = [Value.int 1, Value.int 9] ∧
      elements (sharedConcat grow).1 (shiftSlice (sharedBase grow).2) = [Value.int 9] := by
  obtain ⟨k, hk⟩ : ∃ k, max 2 (grow 0 2) = 2 + k := ⟨max 2 (grow 0 2) - 2, by omega⟩
  obtain ⟨j, hj⟩ : ∃ j, max 1 (grow 0 1) = 1 + j := ⟨max 1 (grow 0 1) - 1, by omega⟩
  have hbase : sharedBase grow =
      ([[Value.int 1, Value.int 2] ++ List.replicate k Value.nil], ⟨0, 0, 2, 2 + k⟩) := by
    simp [sharedBase, newSlice, append, elements, hk]
  have hother : sharedOther grow = ([[Value.int 1, Value.int 2] ++ List.replicate k Value.nil,
      [Value.int 9] ++ List.replicate j Value.nil], ⟨1, 0, 1, 1 + j⟩) := by
    simp [sharedOther, hbase, newSlice, append, elements, hj]
  simp only [sharedConcat, hother, hbase]
  cases k with
  | zero => simp [Concat, append, elements, writeCells, popSlice, shiftSlice]
  | succ k =>
    have h3 : 3 ≤ 2 + (k + 1) := by omega
    simp [Concat, append, elements, writeCells, popSlice, shiftSlice, h3]

/-- C29: on an Array that ends in `last`, `Pop()` returns the elements before
it and `last`; on an Array that starts with `first`, `Shift()` returns the
elements after it and `first`; on the empty Array both return the Array and
nil.  Neither panics. -/
theorem pop_and_shift (a : Array) :
    (∀ init last, a.values = init ++ [last] → a.Pop = Outcome.ok (⟨init⟩, last)) ∧
      (∀ first rest, a.values = first :: rest → a.Shift = Outcome.ok (⟨rest⟩, first)) ∧
      (a.values = [] → a.Pop = Outcome.ok (a, Value.nil) ∧
        a.Shift = Outcome.ok (a, Value.nil)) := by
  refine ⟨?_, ?_, ?_⟩
  · intro init last h
    have hlen : a.values.length = init.length + 1 := by simp [h]
    have hlt : init.length < a.values.length := by omega
    have hidx := index_of_lt a init.length hlt
    have hlast : ((a.values.length : Int) - 1) = (init.length : Int) := by
      rw [hlen]; push_cast; omega
    have hget : a.values.get ⟨init.length, hlt⟩ = last := by
      simp [h]
    simp only [Pop, hlast, hidx, Int.toNat_ofNat, hget]
    simp [hlen, h]
  · intro first rest h
    have hlt : 0 < a.values.length := by simp [h]
    have hidx := index_of_lt a 0 hlt
    have hget : a.values.get ⟨0, hlt⟩ = first := by simp [h]
    simp only [Nat.cast_zero] at hidx
    simp only [Shift, hidx, hget]
    simp [h]
  · intro h
    simp [Pop, Shift, h]

/-- C30: `Reverse()` returns an Array of the same length whose element at
position `i` is the element at position `n - 1 - i` of the Array. -/
theorem reverse_mirrors_positions (a : Array) :
    ∃ r : Array, a.Reverse = Outcome.ok r ∧
      r.values.length = a.values.length ∧
      ∀ i, i < a.values.length →
        r.values[i]? = a.values[a.values.length - 1 - i]? := by
  refine ⟨⟨a.values.reverse⟩, ?_, by simp, ?_⟩
  · have hk : ((a.values.length : Int) - 1 + 1).toNat = a.values.length := by
      simp
    rw [Reverse, hk, reverseLoop_eq a _ _ (le_refl _)]
    simp [New, Push]
  · intro i hi
    simp only
    rw [List.getElem?_reverse hi]

/-! ## Lemmas on the scans -/

theorem includesLoop_eq_foundAt (equal : Value → Value → Outcome Bool) (v : Value)
    (values : List Value) : ∀ i : Nat,
    includesLoop equal v values = foundAt (indexOfLoop equal v values i) := by
  induction values with
  | nil => intro i; simp [includesLoop, indexOfLoop, foundAt]
  | cons x rest ih =>
    intro i
    rw [includesLoop, indexOfLoop]
    cases hx : equal x v with
    | ok b =>
      cases b with
      | true =>
        have : ((i : Int) = -1) = False := by
          simp only [eq_iff_iff, iff_false]; omega
        simp [foundAt, this]
      | false => exact ih (i + 1)
    | error err => rfl
    | fault => rfl

theorem indexOfLoop_first (equal : Value → Value → Outcome Bool) (v : Value)
    (before : List Value) (x : Value) (after : List Value)
    (hbefore : ∀ y ∈ before, equal y v = Outcome.ok false)
    (hx : equal x v = Outcome.ok true) : ∀ i : Nat,
    indexOfLoop equal v (before ++ x :: after) i =
      Outcome.ok ((i : Int) + (before.length : Int)) := by
  induction before with
  | nil => intro i; simp [indexOfLoop, hx]
  | cons y rest ih =>
    intro i
    rw [List.cons_append, indexOfLoop, hbefore y (List.mem_cons_self _ _)]
    simp only
    rw [ih (fun z hz => hbefore z (List.mem_cons_of_mem _ hz)) (i + 1)]
    simp only [List.length_cons, Nat.cast_add, Nat.cast_one, Outcome.ok.injEq]
    omega

theorem indexOfLoop_none (equal : Value → Value → Outcome Bool) (v : Value)
    (values : List Value) (hall : ∀ y ∈ values, equal y v = Outcome.ok false) :
    ∀ i : Nat, indexOfLoop equal v values i = Outcome.ok (-1) := by
  induction values with
  | nil => intro i; rfl
  | cons y rest ih =>
    intro i
    rw [indexOfLoop, hall y (List.mem_cons_self _ _)]
    exact ih (fun z hz => hall z (List.mem_cons_of_mem _ hz)) (i + 1)

/-! ## The claims on IndexOf, Includes and LastIndexOf -/

/-- C22, as stated, fails when a comparison of the scan panics: on the Array
`[1, New(2)]` and the value `New(2)`, the comparison of the second element with
the value compares two Arrays, values of one slice type, and Go's `==` panics;
so do `IndexOf` and `Includes`. -/
theorem indexOf_faults_on_two_slices :
    IndexOf ⟨[Value.int 1, Value.other "slice" "[2]"]⟩
        (fun x y => match x, y with
          | Value.other "slice" _, Value.other "slice" _ => Outcome.fault
          | _, _ => Outcome.ok false)
        (Value.other "slice" "[2]") = Outcome.fault ∧
      Includes ⟨[Value.int 1, Value.other "slice" "[2]"]⟩
        (fun x y => match x, y with
          | Value.other "slice" _, Value.other "slice" _ => Outcome.fault
          | _, _ => Outcome.ok false)
        (Value.other "slice" "[2]") = Outcome.fault :=
  ⟨rfl, rfl⟩

/-- C22, amended to the scans whose comparisons do not panic: when an element
equals the value and every element before it does not, `IndexOf` returns its
index, the smallest index of an element equal to the value; when no element
equals the value, `IndexOf` returns -1; and, whatever the comparisons do,
`Includes` returns whether the result of `IndexOf` is not -1, and panics when
`IndexOf` does. -/
theorem indexOf_first_match_and_includes (a : Array)
    (equal : Value → Value → Outcome Bool) (v : Value) :
    (∀ before x after, a.values = before ++ x :: after →
      (∀ y ∈ before, equal y v = Outcome.ok false) → equal x v = Outcome.ok true →
      a.IndexOf equal v = Outcome.ok (before.length : Int)) ∧
    ((∀ y ∈ a.values, equal y v = Outcome.ok false) →
      a.IndexOf equal v = Outcome.ok (-1)) ∧
    a.Includes equal v = foundAt (a.IndexOf equal v) := by
  refine ⟨?_, ?_, ?_⟩
  · intro before x after hsplit hbefore hx
    rw [IndexOf, hsplit, indexOfLoop_first equal v before x after hbefore hx 0]
    simp
  · intro hall
    exact indexOfLoop_none equal v a.values hall 0
  · exact includesLoop_eq_foundAt equal v a.values 0

/-- C22 at a concrete input: `["ant", "bison", "camel", "duck", "bison"]`, with
`==` on strings; `IndexOf("bison")` is 1 and `IndexOf("giraffe")` is -1. -/
theorem indexOf_first_match_and_includes_witness :
    IndexOf ⟨[Value.str "ant", Value.str "bison", Value.str "camel", Value.str "duck",
        Value.str "bison"]⟩
      (fun x y => match x, y with
        | Value.str s, Value.str t => Outcome.ok (decide (s = t))
        | _, _ => Outcome.ok false)
      (Value.str "bison") = Outcome.ok 1 ∧
    IndexOf ⟨[Value.str "ant", Value.str "bison", Value.str "camel", Value.str "duck",
        Value.str "bison"]⟩
      (fun x y => match x, y with
        | Value.str s, Value.str t => Outcome.ok (decide (s = t))
        | _, _ => Outcome.ok false)
      (Value.str "giraffe") = Outcome.ok (-1) :=
  ⟨(indexOf_first_match_and_includes _ _ _).1 [Value.str "ant"] (Value.str "bison")
      [Value.str "camel", Value.str "duck", Value.str "bison"] rfl
      (by intro y hy; simp only [List.mem_singleton] at hy; subst hy; simp)
      (by simp),
    (indexOf_first_match_and_includes _ _ _).2.1
      (by
        intro y hy
        simp only [List.mem_cons, List.mem_singleton, List.not_mem_nil, or_false] at hy
        rcases hy with h | h | h | h | h <;> subst h <;> simp)⟩

theorem index_of_getElem (a : Array) (i : Nat) (x : Value)
    (h : a.values[i]? = some x) : a.index (i : Int) = Outcome.ok x := by
  have hlt : i < a.values.length := by
    by_contra hge
    rw [List.getElem?_eq_none (by omega)] at h
    cases h
  have h1 : (0 : Int) ≤ (i : Int) ∧ (i : Int) < (a.values.length : Int) :=
    ⟨Int.natCast_nonneg i, by exact_mod_cast hlt⟩
  simp only [index, h1, and_self, if_true, Int.toNat_ofNat, h]

theorem lastIndexOfLoop_none (a : Array) (equal : Value → Value → Outcome Bool)
    (v : Value) : ∀ k : Nat, k ≤ a.values.length →
    (∀ j x, j < k → a.values[j]? = some x → equal x v = Outcome.ok false) →
    lastIndexOfLoop a equal v k = Outcome.ok (-1) := by
  intro k
  induction k with
  | zero => intro _ _; rfl
  | succ k ih =>
    intro hk hall
    have hlt : k < a.values.length := hk
    have hget := List.getElem?_eq_getElem hlt
    rw [lastIndexOfLoop, index_of_getElem a k _ hget]
    simp only
    rw [hall k _ (Nat.lt_succ_self k) hget]
    exact ih (Nat.le_of_lt hlt) (fun j x hj hx => hall j x (Nat.lt_succ_of_lt hj) hx)

theorem lastIndexOfLoop_last (a : Array) (equal : Value → Value → Outcome Bool)
    (v : Value) (i : Nat) (x : Value) (hx : a.values[i]? = some x)
    (htrue : equal x v = Outcome.ok true) : ∀ k : Nat, i < k → k ≤ a.values.length →
    (∀ j y, i < j → j < k → a.values[j]? = some y → equal y v = Outcome.ok false) →
    lastIndexOfLoop a equal v k = Outcome.ok (i : Int) := by
  intro k
  induction k with
  | zero => intro hik; omega
  | succ k ih =>
    intro hik hk hall
    have hlt : k < a.values.length := hk
    have hget := List.getElem?_eq_getElem hlt
    rw [lastIndexOfLoop, index_of_getElem a k _ hget]
    simp only
    by_cases hi : i = k
    · subst hi
      rw [hx] at hget
      simp only [Option.some.injEq] at hget
      rw [← hget, htrue]
    · rw [hall k _ (by omega) (Nat.lt_succ_self k) hget]
      exact ih (by omega) (Nat.le_of_lt hlt)
        (fun j y hij hj hy => hall j y hij (Nat.lt_succ_of_lt hj) hy)

theorem lastIndexOfLoop_returns (a : Array) (equal : Value → Value → Outcome Bool)
    (v : Value) (hcmp : ∀ x ∈ a.values, ∃ b, equal x v = Outcome.ok b) :
    ∀ k : Nat, k ≤ a.values.length → ∃ r, lastIndexOfLoop a equal v k = Outcome.ok r := by
  intro k
  induction k with
  | zero => intro _; exact ⟨-1, rfl⟩
  | succ k ih =>
    intro hk
    have hlt : k < a.values.length := hk
    have hget := List.getElem?_eq_getElem hlt
    rw [lastIndexOfLoop, index_of_getElem a k _ hget]
    simp only
    obtain ⟨b, hb⟩ := hcmp _ (List.getElem_mem hlt)
    rw [hb]
    cases b with
    | true => exact ⟨_, rfl⟩
    | false => exact ih (Nat.le_of_lt hlt)

theorem lastIndexOfStart_range (a : Array) (fromIndex : Int) :
    -1 ≤ a.lastIndexOfStart fromIndex ∧
      a.lastIndexOfStart fromIndex ≤ (a.values.length : Int) - 1 ∧
      ((0 ≤ fromIndex ∧ fromIndex ≤ (a.values.length : Int) - 1) →
        a.lastIndexOfStart fromIndex = fromIndex) ∧
      (¬ (0 ≤ fromIndex ∧ fromIndex ≤ (a.values.length : Int) - 1) →
        a.lastIndexOfStart fromIndex = (a.values.length : Int) - 1) := by
  unfold lastIndexOfStart
  split <;> rename_i h
  · refine ⟨by omega, le_refl _, ?_, fun _ => rfl⟩
    intro h2
    omega
  · refine ⟨by omega, by omega, fun _ => rfl, ?_⟩
    intro h2
    omega

/-- C21, as stated, fails when a comparison of the scan panics: on the Array
`[New(2), 1]`, the value `New(2)` and `fromIndex = -1`, the scan compares the
first element with the value, two Arrays, values of one slice type, and Go's
`==` panics; so does `LastIndexOf`. -/
theorem lastIndexOf_faults_on_two_slices :
    LastIndexOf ⟨[Value.other "slice" "[2]", Value.int 1]⟩
        (fun x y => match x, y with
          | Value.other "slice" _, Value.other "slice" _ => Outcome.fault
          | _, _ => Outcome.ok false)
        (Value.other "slice" "[2]") (-1) = Outcome.fault :=
  rfl

/-- C21, amended to the scans whose comparisons do not panic.  With `n` the
length of the Array and `s` the start of the scan, `s` is `fromIndex` when
`0 ≤ fromIndex ≤ n - 1` and `n - 1` otherwise; when the element at an index
`i ≤ s` equals the value and no element at an index in `i + 1 .. s` does,
`LastIndexOf` returns `i`, the greatest such index; when no element at an index
up to `s` equals the value, it returns -1; and when no comparison with an
element panics, `LastIndexOf` returns: no index expression is out of range. -/
theorem lastIndexOf_greatest_match (a : Array) (equal : Value → Value → Outcome Bool)
    (v : Value) (fromIndex : Int) :
    ((0 ≤ fromIndex ∧ fromIndex ≤ (a.values.length : Int) - 1) →
      a.lastIndexOfStart fromIndex = fromIndex) ∧
    (¬ (0 ≤ fromIndex ∧ fromIndex ≤ (a.values.length : Int) - 1) →
      a.lastIndexOfStart fromIndex = (a.values.length : Int) - 1) ∧
    (∀ (i : Nat) (x : Value), (i : Int) ≤ a.lastIndexOfStart fromIndex →
      a.values[i]? = some x → equal x v = Outcome.ok true →
      (∀ (j : Nat) (y : Value), i < j → (j : Int) ≤ a.lastIndexOfStart fromIndex →
        a.values[j]? = some y → equal y v = Outcome.ok false) →
      a.LastIndexOf equal v fromIndex = Outcome.ok (i : Int)) ∧
    ((∀ (j : Nat) (y : Value), (j : Int) ≤ a.lastIndexOfStart fromIndex →
        a.values[j]? = some y → equal y v = Outcome.ok false) →
      a.LastIndexOf equal v fromIndex = Outcome.ok (-1)) ∧
    ((∀ x ∈ a.values, ∃ b, equal x v = Outcome.ok b) →
      ∃ r, a.LastIndexOf equal v fromIndex = Outcome.ok r) := by
  obtain ⟨hlow, hhigh, hin, hout⟩ := lastIndexOfStart_range a fromIndex
  have hk : (a.lastIndexOfStart fromIndex + 1).toNat ≤ a.values.length := by omega
  have hiff : ∀ j : Nat, j < (a.lastIndexOfStart fromIndex + 1).toNat ↔
      (j : Int) ≤ a.lastIndexOfStart fromIndex := by
    intro j; omega
  refine ⟨hin, hout, ?_, ?_, ?_⟩
  · intro i x hi hx htrue hafter
    exact lastIndexOfLoop_last a equal v i x hx htrue _ ((hiff i).2 hi) hk
      (fun j y hij hj hy => hafter j y hij ((hiff j).1 hj) hy)
  · intro hall
    exact lastIndexOfLoop_none a equal v _ hk
      (fun j x hj hx => hall j x ((hiff j).1 hj) hx)
  · intro hcmp
    exact lastIndexOfLoop_returns a equal v hcmp _ hk

/-- C21 at a concrete input: `[5, 12, 8, 130, 44].LastIndexOf(12, -1)` is 1,
with `==` on ints. -/
theorem lastIndexOf_greatest_match_witness :
    LastIndexOf ⟨[Value.int 5, Value.int 12, Value.int 8, Value.int 130, Value.int 44]⟩
      (fun x y => match x, y with
        | Value.int i, Value.int j => Outcome.ok (decide (i = j))
        | _, _ => Outcome.ok false)
      (Value.int 12) (-1) = Outcome.ok 1 :=
  (lastIndexOf_greatest_match _ _ _ (-1)).2.2.1 1 (Value.int 12) (by decide) rfl rfl
    (by
      intro j y hij hj hy
      have hj4 : j ≤ 4 := by
        have : (j : Int) ≤ 4 := hj
        omega
      interval_cases j <;> simp at hy <;> subst hy <;> rfl)

/-! ## Lemmas on Sort -/

theorem sortPassFrom_perm {α : Type} (f : α → α → Int) (l : List α) :
    ∀ a, (sortPassFrom f a l).1.Perm (a :: l) := by
  induction l with
  | nil => intro a; exact List.Perm.refl _
  | cons b rest ih =>
    intro a
    rw [sortPassFrom]
    split
    · exact ((ih a).cons b).trans (List.Perm.swap a b rest)
    · exact (ih b).cons a

theorem sortPass_perm {α : Type} (f : α → α → Int) (l : List α) :
    (sortPass f l).1.Perm l := by
  cases l with
  | nil => exact List.Perm.refl _
  | cons a rest => exact sortPassFrom_perm f rest a

theorem sortPassFrom_inversions {α : Type} (f : α → α → Int) (l : List α) :
    ∀ a, (∀ x ∈ a :: l, ∀ y ∈ a :: l, f x y > 0 → ¬ f y x > 0) →
    inversions f (sortPassFrom f a l).1 + (sortPassFrom f a l).2 =
      inversions f (a :: l) := by
  induction l with
  | nil => intro a _; rfl
  | cons b rest ih =>
    intro a hasym
    have hmem : ∀ z, z ∈ a :: rest → z ∈ a :: b :: rest := by
      intro z hz
      rcases List.mem_cons.1 hz with h | h
      · exact h ▸ List.mem_cons_self _ _
      · exact List.mem_cons_of_mem _ (List.mem_cons_of_mem _ h)
    rw [sortPassFrom]
    split
    · rename_i hgt
      have hba : ¬ f b a > 0 :=
        hasym a (List.mem_cons_self _ _) b
          (List.mem_cons_of_mem _ (List.mem_cons_self _ _)) hgt
      have hih := ih a (fun x hx y hy => hasym x (hmem x hx) y (hmem y hy))
      have hcount := (sortPassFrom_perm f rest a).countP_eq
        (fun y => decide (f b y > 0))
      simp only [inversions, List.countP_cons, hgt, hba, decide_True, decide_False,
        if_true] at hih hcount ⊢
      simp only [Bool.false_eq_true, if_false] at hcount
      omega
    · rename_i hle
      have hih := ih b (fun x hx y hy => hasym x (List.mem_cons_of_mem _ hx) y
        (List.mem_cons_of_mem _ hy))
      have hcount := (sortPassFrom_perm f rest b).countP_eq
        (fun y => decide (f a y > 0))
      simp only [inversions, List.countP_cons, hle, decide_False] at hih hcount ⊢
      simp only [Bool.false_eq_true, if_false] at hcount ⊢
      omega

theorem sortPassFrom_no_swap {α : Type} (f : α → α → Int) (l : List α) :
    ∀ a, (sortPassFrom f a l).2 = 0 →
    (sortPassFrom f a l).1 = a :: l ∧ List.Chain (fun x y => ¬ f x y > 0) a l := by
  induction l with
  | nil => intro a _; exact ⟨rfl, List.Chain.nil⟩
  | cons b rest ih =>
    intro a h
    rw [sortPassFrom] at h ⊢
    split at h
    · simp at h
    · rename_i hle
      simp only [hle, if_false]
      obtain ⟨heq, hchain⟩ := ih b h
      exact ⟨by rw [heq], List.Chain.cons hle hchain⟩

theorem sortPass_no_swap {α : Type} (f : α → α → Int) (l : List α)
    (h : (sortPass f l).2 = 0) :
    (sortPass f l).1 = l ∧ List.Chain' (fun x y => ¬ f x y > 0) l := by
  cases l with
  | nil => exact ⟨rfl, trivial⟩
  | cons a rest => exact sortPassFrom_no_swap f rest a h

theorem sortPass_inversions {α : Type} (f : α → α → Int) (l : List α)
    (hasym : ∀ x ∈ l, ∀ y ∈ l, f x y > 0 → ¬ f y x > 0) :
    inversions f (sortPass f l).1 + (sortPass f l).2 = inversions f l := by
  cases l with
  | nil => rfl
  | cons a rest => exact sortPassFrom_inversions f rest a hasym

theorem sortLoop_returns {α : Type} (f : α → α → Int) (fuel : Nat) :
    ∀ l : List α, (∀ x ∈ l, ∀ y ∈ l, f x y > 0 → ¬ f y x > 0) →
    inversions f l < fuel →
    ∃ sorted, sortLoop f fuel l = some sorted ∧ sorted.Perm l ∧
      List.Chain' (fun x y => ¬ f x y > 0) sorted := by
  induction fuel with
  | zero => intro l _ h; omega
  | succ fuel ih =>
    intro l hasym hinv
    rw [sortLoop]
    have hcount := sortPass_inversions f l hasym
    have hperm := sortPass_perm f l
    split
    · rename_i hzero
      obtain ⟨heq, hchain⟩ := sortPass_no_swap f l hzero
      exact ⟨_, rfl, hperm, by rw [heq]; exact hchain⟩
    · rename_i hpos
      obtain ⟨sorted, hsorted, hp, hchain⟩ := ih (sortPass f l).1
        (fun x hx y hy => hasym x (hperm.mem_iff.1 hx) y (hperm.mem_iff.1 hy))
        (by omega)
      exact ⟨sorted, hsorted, hp.trans hperm, hchain⟩

theorem chain_pairwise_of_trans_on {α : Type} (r : α → α → Prop) (l : List α) :
    ∀ a, (∀ x ∈ a :: l, ∀ y ∈ a :: l, ∀ z ∈ a :: l, r x y → r y z → r x z) →
    List.Chain r a l → (a :: l).Pairwise r := by
  induction l with
  | nil => intro a _ _; exact List.pairwise_singleton r a
  | cons b rest ih =>
    intro a htrans hchain
    obtain ⟨hab, hrest⟩ := List.chain_cons.1 hchain
    have hpw := ih b (fun x hx y hy z hz => htrans x (List.mem_cons_of_mem _ hx) y
      (List.mem_cons_of_mem _ hy) z (List.mem_cons_of_mem _ hz)) hrest
    refine List.Pairwise.cons ?_ hpw
    intro y hy
    rcases List.mem_cons.1 hy with h | h
    · rw [h]; exact hab
    · exact htrans a (List.mem_cons_self _ _) b
        (List.mem_cons_of_mem _ (List.mem_cons_self _ _)) y (List.mem_cons_of_mem _ hy)
        hab ((List.pairwise_cons.1 hpw).1 y h)

theorem chain'_pairwise_of_trans_on {α : Type} (r : α → α → Prop) (l : List α)
    (htrans : ∀ x ∈ l, ∀ y ∈ l, ∀ z ∈ l, r x y → r y z → r x z)
    (hchain : List.Chain' r l) : l.Pairwise r := by
  cases l with
  | nil => exact List.Pairwise.nil
  | cons a rest => exact chain_pairwise_of_trans_on r rest a htrans hchain

theorem inversions_le {α : Type} (f : α → α → Int) (l : List α) :
    inversions f l ≤ l.length * l.length := by
  induction l with
  | nil => simp [inversions]
  | cons a rest ih =>
    have hc := List.countP_le_length (fun y => decide (f a y > 0)) (l := rest)
    simp only [inversions, List.length_cons]
    nlinarith

theorem sortLoop_two_forever (fuel : Nat) : ∀ x y : Value,
    sortLoop (fun _ _ => (1 : Int)) fuel [x, y] = none := by
  induction fuel with
  | zero => intro x y; rfl
  | succ fuel ih =>
    intro x y
    have hpass : sortPass (fun _ _ => (1 : Int)) [x, y] = ([y, x], 1) := by
      simp [sortPass, sortPassFrom]
    rw [sortLoop, hpass]
    simpa using ih y x

theorem sortLoop_more_fuel {α : Type} (f : α → α → Int) (fuel : Nat) :
    ∀ (l sorted : List α), sortLoop f fuel l = some sorted →
    ∀ more, fuel ≤ more → sortLoop f more l = some sorted := by
  induction fuel with
  | zero => intro l sorted h; simp [sortLoop] at h
  | succ fuel ih =>
    intro l sorted h more hmore
    obtain ⟨m, rfl⟩ : ∃ m, more = m + 1 := ⟨more - 1, by omega⟩
    rw [sortLoop] at h ⊢
    split
    · rename_i hzero
      simpa [hzero] using h
    · rename_i hpos
      simp only [hpos, if_false] at h
      exact ih _ _ h m (by omega)

/-! ## The claims on Sort -/

/-- C23: with a compare function consistent with a total preorder on the
elements of the Array (`compare(x, y) <= 0`, "x is not strictly after y", is
total and transitive on them), `Sort` ends, after at most one pass more than
the Array has inverted pairs, and leaves a permutation of the elements in which
`compare(a[i], a[j]) <= 0` for all positions `i < j`. -/
theorem sort_sorts_a_permutation (a : Array) (function : Value → Value → Int)
    (htotal : ∀ x ∈ a.values, ∀ y ∈ a.values, function x y ≤ 0 ∨ function y x ≤ 0)
    (htrans : ∀ x ∈ a.values, ∀ y ∈ a.values, ∀ z ∈ a.values,
      function x y ≤ 0 → function y z ≤ 0 → function x z ≤ 0) :
    ∃ sorted : Array,
      (∀ fuel, inversions function a.values < fuel →
        a.SortWith function fuel = some sorted) ∧
      sorted.values.Perm a.values ∧
      sorted.values.Pairwise (fun x y => function x y ≤ 0) := by
  have hasym : ∀ x ∈ a.values, ∀ y ∈ a.values, function x y > 0 → ¬ function y x > 0 := by
    intro x hx y hy hgt
    rcases htotal x hx y hy with h | h <;> omega
  obtain ⟨sorted, hsorted, hperm, hchain⟩ :=
    sortLoop_returns function (inversions function a.values + 1) a.values hasym
      (Nat.lt_succ_self _)
  refine ⟨⟨sorted⟩, ?_, hperm, ?_⟩
  · intro fuel hfuel
    simp [SortWith, sortLoop_more_fuel function _ _ _ hsorted fuel hfuel]
  · have hchain' : List.Chain' (fun x y => function x y ≤ 0) sorted :=
      hchain.imp (fun h => by omega)
    exact chain'_pairwise_of_trans_on _ sorted
      (fun x hx y hy z hz => htrans x (hperm.mem_iff.1 hx) y (hperm.mem_iff.1 hy) z
        (hperm.mem_iff.1 hz)) hchain'

/-- C23 at a concrete input: `[4, 2, 5, 1, 3]` with `a - b` on ints. -/
theorem sort_sorts_a_permutation_witness :
    ∃ sorted : Array,
      (∀ fuel, inversions (fun x y => match x, y with
            | Value.int i, Value.int j => i - j
            | _, _ => 0)
          [Value.int 4, Value.int 2, Value.int 5, Value.int 1, Value.int 3] < fuel →
        SortWith ⟨[Value.int 4, Value.int 2, Value.int 5, Value.int 1, Value.int 3]⟩
          (fun x y => match x, y with
            | Value.int i, Value.int j => i - j
            | _, _ => 0) fuel = some sorted) ∧
      sorted.values.Perm
        [Value.int 4, Value.int 2, Value.int 5, Value.int 1, Value.int 3] ∧
      sorted.values.Pairwise (fun x y => (match x, y with
            | Value.int i, Value.int j => i - j
            | _, _ => 0) ≤ 0) := by
  have hint : ∀ x ∈ [Value.int 4, Value.int 2, Value.int 5, Value.int 1, Value.int 3],
      ∃ i, x = Value.int i := by
    intro x hx
    simp only [List.mem_cons, List.mem_singleton, List.not_mem_nil, or_false] at hx
    rcases hx with h | h | h | h | h <;> exact ⟨_, h⟩
  exact sort_sorts_a_permutation
    ⟨[Value.int 4, Value.int 2, Value.int 5, Value.int 1, Value.int 3]⟩ _
    (by
      intro x hx y hy
      obtain ⟨i, rfl⟩ := hint x hx
      obtain ⟨j, rfl⟩ := hint y hy
      simp only
      omega)
    (by
      intro x hx y hy z hz
      obtain ⟨i, rfl⟩ := hint x hx
      obtain ⟨j, rfl⟩ := hint y hy
      obtain ⟨k, rfl⟩ := hint z hz
      simp only
      omega)

/-- The example of the specification: `[4, 2, 5, 1, 3]` with `a - b` becomes
`[1, 2, 3, 4, 5]`, in four passes. -/
theorem sort_example :
    SortWith ⟨[Value.int 4, Value.int 2, Value.int 5, Value.int 1, Value.int 3]⟩
      (fun x y => match x, y with
        | Value.int i, Value.int j => i - j
        | _, _ => 0) 4 =
      some ⟨[Value.int 1, Value.int 2, Value.int 3, Value.int 4, Value.int 5]⟩ := by
  rfl

/-- C25, as stated, fails: with the compare function that always returns 1,
every pass over the Array `[1, 2]` swaps its two elements, and `Sort` does not
return, however many passes it is given. -/
theorem sort_never_returns_with_constant_compare :
    ¬ ∃ fuel sorted,
      SortWith ⟨[Value.int 1, Value.int 2]⟩ (fun _ _ => 1) fuel = some sorted := by
  rintro ⟨fuel, sorted, h⟩
  simp [SortWith, sortLoop_two_forever fuel] at h

/-- C25, amended to compare functions that are never positive in both
directions on two elements of the Array: `Sort` returns after at most
`n * n + 1` passes, `n` the length of the Array (every pass but the last
removes at least one inverted pair). -/
theorem sort_returns_when_asymmetric (a : Array) (function : Value → Value → Int)
    (hasym : ∀ x ∈ a.values, ∀ y ∈ a.values, function x y > 0 → ¬ function y x > 0) :
    ∃ passes sorted, passes ≤ a.values.length * a.values.length + 1 ∧
      ∀ fuel, passes ≤ fuel → a.SortWith function fuel = some sorted := by
  obtain ⟨sorted, hsorted, -, -⟩ :=
    sortLoop_returns function (inversions function a.values + 1) a.values hasym
      (Nat.lt_succ_self _)
  refine ⟨inversions function a.values + 1, ⟨sorted⟩, ?_, ?_⟩
  · have := inversions_le function a.values
    omega
  · intro fuel hfuel
    simp [SortWith, sortLoop_more_fuel function _ _ _ hsorted fuel hfuel]

/-- C25 at a concrete input: `[2, 1]` with the compare function that is 1 on
`(2, 1)` and -1 elsewhere. -/
theorem sort_returns_when_asymmetric_witness :
    ∃ passes sorted, passes ≤ 2 * 2 + 1 ∧
      ∀ fuel, passes ≤ fuel →
        SortWith ⟨[Value.int 2, Value.int 1]⟩
          (fun x y => match x, y with
            | Value.int 2, Value.int 1 => 1
            | _, _ => -1) fuel = some sorted :=
  sort_returns_when_asymmetric ⟨[Value.int 2, Value.int 1]⟩ _
    (by
      intro x hx y hy
      simp only [List.mem_cons, List.mem_singleton, List.not_mem_nil, or_false] at hx hy
      rcases hx with rfl | rfl <;> rcases hy with rfl | rfl <;> simp)

theorem sortPassFrom_map {α β : Type} (f : α → α → Int) (g : β → α) (l : List β) :
    ∀ p, (sortPassFrom (fun x y => f (g x) (g y)) p l).1.map g =
        (sortPassFrom f (g p) (l.map g)).1 ∧
      (sortPassFrom (fun x y => f (g x) (g y)) p l).2 =
        (sortPassFrom f (g p) (l.map g)).2 := by
  induction l with
  | nil => intro p; exact ⟨rfl, rfl⟩
  | cons q rest ih =>
    intro p
    simp only [List.map_cons, sortPassFrom]
    split
    · simp [(ih p).1, (ih p).2]
    · simp [(ih q).1, (ih q).2]

theorem sortPass_map {α β : Type} (f : α → α → Int) (g : β → α) (l : List β) :
    (sortPass (fun x y => f (g x) (g y)) l).1.map g = (sortPass f (l.map g)).1 ∧
      (sortPass (fun x y => f (g x) (g y)) l).2 = (sortPass f (l.map g)).2 := by
  cases l with
  | nil => exact ⟨rfl, rfl⟩
  | cons p rest => exact sortPassFrom_map f g rest p

theorem sortLoop_map {α β : Type} (f : α → α → Int) (g : β → α) (fuel : Nat) :
    ∀ l : List β, (sortLoop (fun x y => f (g x) (g y)) fuel l).map (List.map g) =
      sortLoop f fuel (l.map g) := by
  induction fuel with
  | zero => intro l; rfl
  | succ fuel ih =>
    intro l
    obtain ⟨h1, h2⟩ := sortPass_map f g l
    rw [sortLoop, sortLoop, ← h2, ← h1]
    split
    · rfl
    · exact ih _

theorem sortPassFrom_keeps_order {α : Type} (f : α → α → Int) (u v : α)
    (huv : ¬ f u v > 0) (l : List α) :
    ∀ a, List.Sublist [u, v] (a :: l) → List.Sublist [u, v] (sortPassFrom f a l).1 := by
  induction l with
  | nil => intro a h; exact h
  | cons b rest ih =>
    intro a h
    rw [sortPassFrom]
    split
    · rename_i hgt
      -- the pair `a`, `b` is swapped
      show List.Sublist [u, v] (b :: (sortPassFrom f a rest).1)
      rcases List.sublist_cons_iff.1 h with h1 | ⟨r, hr, hsub⟩
      · -- `u`, `v` are both among `b :: rest`
        rcases List.sublist_cons_iff.1 h1 with h2 | ⟨r2, hr2, hsub2⟩
        · exact List.Sublist.cons b (ih a (List.Sublist.cons a h2))
        · obtain ⟨rfl, rfl⟩ : u = b ∧ r2 = [v] := by
            simp only [List.cons.injEq] at hr2
            exact ⟨hr2.1, hr2.2.symm⟩
          have hv : v ∈ rest := List.singleton_sublist.1 hsub2
          have hv2 : v ∈ (sortPassFrom f a rest).1 :=
            (sortPassFrom_perm f rest a).mem_iff.2 (List.mem_cons_of_mem _ hv)
          exact List.Sublist.cons₂ u (List.singleton_sublist.2 hv2)
      · obtain ⟨rfl, rfl⟩ : u = a ∧ r = [v] := by
          simp only [List.cons.injEq] at hr
          exact ⟨hr.1, hr.2.symm⟩
        rcases List.sublist_cons_iff.1 hsub with h2 | ⟨r2, hr2, hsub2⟩
        · exact List.Sublist.cons b (ih u (List.Sublist.cons₂ u h2))
        · simp only [List.cons.injEq] at hr2
          rw [hr2.1] at huv
          exact absurd hgt huv
    · show List.Sublist [u, v] (a :: (sortPassFrom f b rest).1)
      rcases List.sublist_cons_iff.1 h with h1 | ⟨r, hr, hsub⟩
      · exact List.Sublist.cons a (ih b h1)
      · obtain ⟨rfl, rfl⟩ : u = a ∧ r = [v] := by
          simp only [List.cons.injEq] at hr
          exact ⟨hr.1, hr.2.symm⟩
        have hv : v ∈ b :: rest := List.singleton_sublist.1 hsub
        have hv2 : v ∈ (sortPassFrom f b rest).1 :=
          (sortPassFrom_perm f rest b).mem_iff.2 hv
        exact List.Sublist.cons₂ u (List.singleton_sublist.2 hv2)

theorem sortLoop_keeps_order {α : Type} (f : α → α → Int) (u v : α)
    (huv : ¬ f u v > 0) (fuel : Nat) : ∀ (l sorted : List α),
    sortLoop f fuel l = some sorted → List.Sublist [u, v] l →
    List.Sublist [u, v] sorted := by
  induction fuel with
  | zero => intro l sorted h; simp [sortLoop] at h
  | succ fuel ih =>
    intro l sorted h hsub
    have hpass : List.Sublist [u, v] (sortPass f l).1 := by
      cases l with
      | nil => exact hsub
      | cons a rest => exact sortPassFrom_keeps_order f u v huv rest a hsub
    rw [sortLoop] at h
    split at h
    · simp only [Option.some.injEq] at h
      rw [← h]; exact hpass
    · exact ih _ _ h hpass

/-- C24: `Sort` is stable.  With a compare function consistent with a total
preorder on the elements (of which the proof uses that it is never positive in
both directions), run the loops of `Sort` on the elements tagged with their
input positions, the compare function reading the elements only: they end, the
elements of the result are the Array that `Sort` leaves, and two tagged
elements `p` before `q` in the input with `compare(p, q) = 0` and
`compare(q, p) = 0` are in the same order in the result. -/
theorem sort_is_stable (a : Array) (function : Value → Value → Int)
    (htotal : ∀ x ∈ a.values, ∀ y ∈ a.values, function x y ≤ 0 ∨ function y x ≤ 0) :
    ∃ (passes : Nat) (tagged : List (Nat × Value)),
      (∀ fuel, passes ≤ fuel →
        sortLoop (fun p q => function p.2 q.2) fuel a.values.enum = some tagged ∧
        a.SortWith function fuel = some ⟨tagged.map (fun p => p.2)⟩) ∧
      ∀ p q, List.Sublist [p, q] a.values.enum →
        function p.2 q.2 = 0 → function q.2 p.2 = 0 → List.Sublist [p, q] tagged := by
  have hsnd : a.values.enum.map (fun p => p.2) = a.values := by
    exact List.enum_map_snd a.values
  have hasym : ∀ p ∈ a.values.enum, ∀ q ∈ a.values.enum,
      function p.2 q.2 > 0 → ¬ function q.2 p.2 > 0 := by
    intro p hp q hq hgt
    have hp2 : p.2 ∈ a.values := by
      rw [← hsnd]; exact List.mem_map.2 ⟨p, hp, rfl⟩
    have hq2 : q.2 ∈ a.values := by
      rw [← hsnd]; exact List.mem_map.2 ⟨q, hq, rfl⟩
    rcases htotal p.2 hp2 q.2 hq2 with h | h <;> omega
  obtain ⟨tagged, htagged, -, -⟩ :=
    sortLoop_returns (fun p q : Nat × Value => function p.2 q.2)
      (inversions (fun p q : Nat × Value => function p.2 q.2) a.values.enum + 1)
      a.values.enum hasym (Nat.lt_succ_self _)
  refine ⟨inversions (fun p q : Nat × Value => function p.2 q.2) a.values.enum + 1,
    tagged, ?_, ?_⟩
  · intro fuel hfuel
    have hrun := sortLoop_more_fuel _ _ _ _ htagged fuel hfuel
    refine ⟨hrun, ?_⟩
    have hmap := sortLoop_map function (fun p : Nat × Value => p.2) fuel a.values.enum
    rw [hrun, hsnd] at hmap
    simp only [Option.map_some'] at hmap
    simp [SortWith, ← hmap]
  · intro p q hsub hpq _
    exact sortLoop_keeps_order _ p q (by simp only [hpq]; omega) _ _ _ htagged hsub

/-- C24 at a concrete input: `["b1", "a", "b2"]` compared by the first letter;
`"b1"` stays before `"b2"`. -/
theorem sort_is_stable_witness :
    ∃ (passes : Nat) (tagged : List (Nat × Value)),
      (∀ fuel, passes ≤ fuel →
        sortLoop (fun p q : Nat × Value => (match p.2, q.2 with
            | Value.str s, Value.str t => ((s.get 0).toNat : Int) - ((t.get 0).toNat : Int)
            | _, _ => 0)) fuel
          [Value.str "b1", Value.str "a", Value.str "b2"].enum = some tagged ∧
        SortWith ⟨[Value.str "b1", Value.str "a", Value.str "b2"]⟩
          (fun x y => match x, y with
            | Value.str s, Value.str t => ((s.get 0).toNat : Int) - ((t.get 0).toNat : Int)
            | _, _ => 0) fuel = some ⟨tagged.map (fun p => p.2)⟩) ∧
      ∀ p q, List.Sublist [p, q] [Value.str "b1", Value.str "a", Value.str "b2"].enum →
        (match p.2, q.2 with
          | Value.str s, Value.str t => ((s.get 0).toNat : Int) - ((t.get 0).toNat : Int)
          | _, _ => 0) = 0 →
        (match q.2, p.2 with
          | Value.str s, Value.str t => ((s.get 0).toNat : Int) - ((t.get 0).toNat : Int)
          | _, _ => 0) = 0 → List.Sublist [p, q] tagged :=
  sort_is_stable ⟨[Value.str "b1", Value.str "a", Value.str "b2"]⟩
    (fun x y => match x, y with
      | Value.str s, Value.str t => ((s.get 0).toNat : Int) - ((t.get 0).toNat : Int)
      | _, _ => 0)
    (by
      intro x hx y hy
      simp only [List.mem_cons, List.mem_singleton, List.not_mem_nil, or_false] at hx hy
      rcases hx with rfl | rfl | rfl <;> rcases hy with rfl | rfl | rfl <;> decide)

/-- An example of stability: `["b1", "a", "b2"]` compared by the first letter
becomes `["a", "b1", "b2"]`. -/
theorem sort_stable_example :
    SortWith ⟨[Value.str "b1", Value.str "a", Value.str "b2"]⟩
      (fun x y => match x, y with
        | Value.str s, Value.str t => ((s.get 0).toNat : Int) - ((t.get 0).toNat : Int)
        | _, _ => 0) 2 =
      some ⟨[Value.str "a", Value.str "b1", Value.str "b2"]⟩ := by
  rfl

/-! ## The claims on Filter and Map -/

theorem filterLoop_eq (a : Array) (f : Array → Int → Value → Bool) (l : List Value) :
    ∀ (i : Nat) (acc : Array),
    (filterLoop a f l i acc).values = acc.values ++
      ((l.enumFrom i).filter (fun p => f a (p.1 : Int) p.2)).map (fun p => p.2) := by
  induction l with
  | nil => intro i acc; simp [filterLoop]
  | cons v rest ih =>
    intro i acc
    rw [filterLoop]
    by_cases h : f a (i : Int) v = true
    · simp [h, ih, Push, List.enumFrom_cons, List.filter_cons]
    · simp [h, ih, List.enumFrom_cons, List.filter_cons]

theorem mapLoop_eq (a : Array) (f : Array → Int → Value → Value) (l : List Value) :
    ∀ (i : Nat) (acc : Array),
    (mapLoop a f l i acc).values = acc.values ++
      (l.enumFrom i).map (fun p => f a (p.1 : Int) p.2) := by
  induction l with
  | nil => intro i acc; simp [mapLoop]
  | cons v rest ih =>
    intro i acc
    rw [mapLoop]
    simp [ih, Push, List.enumFrom_cons]

/-- C31: `Filter(f)` returns the elements `a[i]` for which `f(a, i, a[i])` is
true, each as often as it passes, in the order of the Array, and nothing else:
its elements are those of the positions that pass, position by position, and
form a subsequence of the Array. -/
theorem filter_keeps_passing_elements (a : Array)
    (f : Array → Int → Value → Bool) :
    (a.Filter f).values =
        (a.values.enum.filter (fun p => f a (p.1 : Int) p.2)).map (fun p => p.2) ∧
      List.Sublist (a.Filter f).values a.values := by
  have h : (a.Filter f).values =
      (a.values.enum.filter (fun p => f a (p.1 : Int) p.2)).map (fun p => p.2) := by
    simp [Filter, filterLoop_eq, New, Push, List.enum]
  refine ⟨h, ?_⟩
  rw [h]
  have hsub := (List.filter_sublist (p := fun p : Nat × Value => f a (p.1 : Int) p.2)
    a.values.enum).map (fun p => p.2)
  rw [List.enum_map_snd] at hsub
  exact hsub

/-- C32: `Map(f)` returns an Array of the same length whose element at every
index `i` is `f(a, i, a[i])`. -/
theorem map_applies_at_every_index (a : Array)
    (f : Array → Int → Value → Value) :
    (a.Map f).values.length = a.values.length ∧
      ∀ (i : Nat) (x : Value), a.values[i]? = some x →
        (a.Map f).values[i]? = some (f a (i : Int) x) := by
  have h : (a.Map f).values = a.values.enum.map (fun p => f a (p.1 : Int) p.2) := by
    simp [Map, mapLoop_eq, New, Push, List.enum]
  refine ⟨by simp [h], ?_⟩
  intro i x hx
  rw [h, List.getElem?_map, List.enum, List.getElem?_enumFrom, hx]
  simp

/-! ## The claims on Sort with an arbitrary compare function -/

theorem sortPassFrom_of_chain {α : Type} (f : α → α → Int) (l : List α) :
    ∀ a, List.Chain (fun x y => ¬ f x y > 0) a l → (sortPassFrom f a l).2 = 0 := by
  induction l with
  | nil => intro a _; rfl
  | cons b rest ih =>
    intro a h
    obtain ⟨hab, hrest⟩ := List.chain_cons.1 h
    rw [sortPassFrom]
    simp only [hab, if_false]
    exact ih b hrest

theorem sortPass_zero_iff {α : Type} (f : α → α → Int) (l : List α) :
    (sortPass f l).2 = 0 ↔ List.Chain' (fun x y => ¬ f x y > 0) l := by
  constructor
  · intro h; exact (sortPass_no_swap f l h).2
  · intro h
    cases l with
    | nil => rfl
    | cons a rest => exact sortPassFrom_of_chain f rest a h

theorem sortLoop_some {α : Type} (f : α → α → Int) (fuel : Nat) :
    ∀ (l sorted : List α), sortLoop f fuel l = some sorted →
    sorted.Perm l ∧ List.Chain' (fun x y => ¬ f x y > 0) sorted := by
  induction fuel with
  | zero => intro l sorted h; simp [sortLoop] at h
  | succ fuel ih =>
    intro l sorted h
    rw [sortLoop] at h
    split at h
    · rename_i hzero
      simp only [Option.some.injEq] at h
      obtain ⟨heq, hchain⟩ := sortPass_no_swap f l hzero
      rw [← h, heq]
      exact ⟨List.Perm.refl _, hchain⟩
    · obtain ⟨hperm, hchain⟩ := ih _ _ h
      exact ⟨hperm.trans (sortPass_perm f l), hchain⟩

/-- C39: whatever the compare function is, when `Sort` ends the Array holds a
permutation of its former elements in which every adjacent pair satisfies
`compare(a[i-1], a[i]) <= 0`; and the first pass makes no swap exactly when
every adjacent pair of the input satisfies that condition, in which case it
leaves the Array unchanged and `Sort` ends with it. -/
theorem sort_result_for_any_compare (a : Array) (function : Value → Value → Int) :
    (∀ fuel sorted, a.SortWith function fuel = some sorted →
      sorted.values.Perm a.values ∧
        List.Chain' (fun x y => function x y ≤ 0) sorted.values) ∧
    ((sortPass function a.values).2 = 0 ↔
      List.Chain' (fun x y => function x y ≤ 0) a.values) ∧
    (List.Chain' (fun x y => function x y ≤ 0) a.values →
      (sortPass function a.values).1 = a.values ∧
        a.SortWith function 1 = some a) := by
  have hrel : ∀ l : List Value, List.Chain' (fun x y => ¬ function x y > 0) l ↔
      List.Chain' (fun x y => function x y ≤ 0) l := by
    intro l
    constructor <;> intro h <;> exact h.imp (fun h => by omega)
  refine ⟨?_, ?_, ?_⟩
  · intro fuel sorted h
    cases hrun : sortLoop function fuel a.values with
    | none => simp [SortWith, hrun] at h
    | some result =>
      simp only [SortWith, hrun, Option.map_some', Option.some.injEq] at h
      obtain ⟨hperm, hchain⟩ := sortLoop_some function fuel _ _ hrun
      rw [← h]
      exact ⟨hperm, (hrel _).1 hchain⟩
  · rw [sortPass_zero_iff, hrel]
  · intro hchain
    have hzero := (sortPass_zero_iff function a.values).2 ((hrel _).2 hchain)
    have heq := (sortPass_no_swap function a.values hzero).1
    refine ⟨heq, ?_⟩
    simp [SortWith, sortLoop, hzero, heq]

/-! ## Lemmas on the Array presenter -/

theorem uint64OfInt64_of_nonneg (i : Int) (h0 : 0 ≤ i) (h1 : i < 2 ^ 63) :
    ((uint64OfInt64 i : Nat) : Int) = i := by
  have h2 : i % 2 ^ 64 = i := Int.emod_eq_of_lt h0 (by omega)
  simp only [uint64OfInt64, h2]
  exact Int.toNat_of_nonneg h0

theorem signed_lt_of_inRange (kind : SignedKind) (i : Int)
    (h : inRange (Value.signed kind i)) : i < 2 ^ 63 := by
  cases kind <;> simp only [inRange, signedBits] at h <;> omega

theorem asUint64_of_nonNegative (x : Value) (hrange : inRange x)
    (h : isAccepted x) :
    ∃ n : Nat, asUint64 x = Outcome.ok n ∧ numericValue x = some (n : Int) := by
  obtain ⟨⟨i, hi, h0⟩, hptr⟩ := h
  cases x with
  | int j =>
    simp only [numericValue, Option.some.injEq] at hi
    subst hi
    simp only [inRange] at hrange
    refine ⟨uint64OfInt64 j, ?_, ?_⟩
    · simp [asUint64, not_lt.2 h0]
    · simp [numericValue, uint64OfInt64_of_nonneg j h0 hrange.2]
  | signed kind j =>
    simp only [numericValue, Option.some.injEq] at hi
    subst hi
    have hlt := signed_lt_of_inRange kind j hrange
    refine ⟨uint64OfInt64 j, ?_, ?_⟩
    · simp [asUint64, not_lt.2 h0]
    · simp [numericValue, uint64OfInt64_of_nonneg j h0 hlt]
  | unsigned kind n =>
    refine ⟨n, ?_, rfl⟩
    cases kind <;> first | rfl | simp [isUintptr] at hptr
  | _ => simp [numericValue] at hi

theorem asUint64_of_not_nonNegative (x : Value) (h : ¬ isAccepted x) :
    asUint64 x = Outcome.error Error.ElementTypeNotUint64Error := by
  cases x with
  | int j =>
    have hneg : j < 0 := by
      by_contra hge
      exact h ⟨⟨j, rfl, not_lt.1 hge⟩, rfl⟩
    simp [asUint64, hneg]
  | signed kind j =>
    have hneg : j < 0 := by
      by_contra hge
      exact h ⟨⟨j, rfl, not_lt.1 hge⟩, rfl⟩
    simp [asUint64, hneg]
  | unsigned kind n =>
    cases kind <;> first
      | rfl
      | exact absurd ⟨⟨(n : Int), rfl, Int.natCast_nonneg n⟩, rfl⟩ h
  | _ => rfl

theorem asUint64Loop_ok (l : List Value) : ∀ (slice : List Nat),
    (∀ x ∈ l, ∃ n : Nat, asUint64 x = Outcome.ok n ∧ numericValue x = some (n : Int)) →
    ∃ result : List Nat, asUint64Loop l slice = Outcome.ok (slice ++ result) ∧
      result.map (fun n : Nat => some (n : Int)) = l.map numericValue := by
  induction l with
  | nil => intro slice _; exact ⟨[], by simp [asUint64Loop], rfl⟩
  | cons x rest ih =>
    intro slice h
    obtain ⟨n, hn, hv⟩ := h x (List.mem_cons_self _ _)
    obtain ⟨result, hres, hmap⟩ := ih (slice ++ [n])
      (fun y hy => h y (List.mem_cons_of_mem _ hy))
    refine ⟨n :: result, ?_, ?_⟩
    · rw [asUint64Loop, hn]
      simpa using hres
    · simp [hmap, hv]

theorem asUint64Loop_error (l : List Value) : ∀ (slice : List Nat),
    (∃ x ∈ l, ¬ isAccepted x) →
    asUint64Loop l slice = Outcome.error Error.ElementTypeNotUint64Error := by
  induction l with
  | nil => intro slice h; obtain ⟨x, hx, -⟩ := h; simp at hx
  | cons x rest ih =>
    intro slice h
    by_cases hx : isAccepted x
    · have hrest : ∃ y ∈ rest, ¬ isAccepted y := by
        obtain ⟨y, hy, hny⟩ := h
        rcases List.mem_cons.1 hy with rfl | hy
        · exact absurd hx hny
        · exact ⟨y, hy, hny⟩
      rw [asUint64Loop]
      cases hres : asUint64 x with
      | ok n => exact ih _ hrest
      | error err =>
        cases x <;> simp only [asUint64] at hres <;> first
          | (split at hres <;> simp_all)
          | simp_all
      | fault =>
        cases x <;> simp only [asUint64] at hres <;> first
          | (split at hres <;> simp_all)
          | simp_all
    · rw [asUint64Loop, asUint64_of_not_nonNegative x hx]

/-! ## The claims on the Array presenter -/

/-- C33, as stated, fails on an element of kind `Uintptr`: `uintptr(5)` is a
value of an unsigned integer kind, in the range of its type and not negative,
and `AsUint64Slice` on the Array that holds it returns
ElementTypeNotUint64Error. -/
theorem asUint64Slice_refuses_uintptr :
    isNonNegativeInteger (Value.unsigned UnsignedKind.Uintptr 5) ∧
      inRange (Value.unsigned UnsignedKind.Uintptr 5) ∧
      AsUint64Slice ⟨[Value.unsigned UnsignedKind.Uintptr 5]⟩ =
        Outcome.error Error.ElementTypeNotUint64Error := by
  refine ⟨⟨5, rfl, by decide⟩, ?_, rfl⟩
  simp [inRange, unsignedBits]

/-- C33, amended to the integer kinds that the switch lists (`Uintptr` is not
one of them): for an Array of values in the ranges of their types,
`AsUint64Slice` succeeds exactly when every element is of one of the kinds
`Int`, ..., `Int64`, `Uint`, ..., `Uint64` and, if signed, not negative; the
slice it returns has the length of the Array and holds, position by position,
the numbers of the elements; in every other case it returns
ElementTypeNotUint64Error. -/
theorem asUint64Slice_accepts_non_negative_integers (a : Array)
    (hrange : ∀ x ∈ a.values, inRange x) :
    ((∃ slice, a.AsUint64Slice = Outcome.ok slice) ↔
      ∀ x ∈ a.values, isAccepted x) ∧
    (∀ slice, a.AsUint64Slice = Outcome.ok slice →
      slice.length = a.values.length ∧
        slice.map (fun n : Nat => some (n : Int)) = a.values.map numericValue) ∧
    ((¬ ∀ x ∈ a.values, isAccepted x) →
      a.AsUint64Slice = Outcome.error Error.ElementTypeNotUint64Error) := by
  have herr : (¬ ∀ x ∈ a.values, isAccepted x) →
      a.AsUint64Slice = Outcome.error Error.ElementTypeNotUint64Error := by
    intro h
    have h2 : ∃ x ∈ a.values, ¬ isAccepted x := by
      by_contra hnone
      apply h
      intro x hx
      by_contra hx2
      exact hnone ⟨x, hx, hx2⟩
    exact asUint64Loop_error a.values [] h2
  have hok : (∀ x ∈ a.values, isAccepted x) →
      ∃ result : List Nat, a.AsUint64Slice = Outcome.ok result ∧
        result.map (fun n : Nat => some (n : Int)) = a.values.map numericValue := by
    intro h
    obtain ⟨result, hres, hmap⟩ := asUint64Loop_ok a.values []
      (fun x hx => asUint64_of_nonNegative x (hrange x hx) (h x hx))
    exact ⟨result, by simpa [AsUint64Slice] using hres, hmap⟩
  have hall : ∀ slice, a.AsUint64Slice = Outcome.ok slice →
      ∀ x ∈ a.values, isAccepted x := by
    intro slice hslice
    by_contra hnot
    rw [herr hnot] at hslice
    cases hslice
  refine ⟨⟨fun ⟨slice, hslice⟩ => hall slice hslice,
    fun h => (hok h).imp (fun _ hr => hr.1)⟩, ?_, herr⟩
  intro slice hslice
  obtain ⟨result, hres, hmap⟩ := hok (hall slice hslice)
  rw [hres] at hslice
  simp only [Outcome.ok.injEq] at hslice
  subst hslice
  refine ⟨?_, hmap⟩
  have := congrArg List.length hmap
  simpa using this

/-- C33 at a concrete input: `[0, uint8(200), int16(7)]` is accepted and
`[1, -1]` is refused. -/
theorem asUint64Slice_accepts_non_negative_integers_witness :
    AsUint64Slice ⟨[Value.int 0, Value.unsigned UnsignedKind.Uint8 200,
        Value.signed SignedKind.Int16 7]⟩ = Outcome.ok [0, 200, 7] ∧
      AsUint64Slice ⟨[Value.int 1, Value.int (-1)]⟩ =
        Outcome.error Error.ElementTypeNotUint64Error :=
  ⟨rfl,
    (asUint64Slice_accepts_non_negative_integers ⟨[Value.int 1, Value.int (-1)]⟩
      (by
        intro x hx
        simp only [List.mem_cons, List.mem_singleton, List.not_mem_nil, or_false] at hx
        rcases hx with rfl | rfl <;> simp [inRange])).2.2
      (by
        intro h
        obtain ⟨⟨i, hi, h0⟩, -⟩ := h (Value.int (-1)) (by simp)
        simp only [numericValue, Option.some.injEq] at hi
        omega)⟩

/-- C34, the code at the failing input: `uint64(1 << 63)` is a value of type
`uint64`; `AsInt64Slice` returns no error and the slice `[-1 << 63]`, which is
not the number of the element. -/
theorem asInt64Slice_wraps_large_uint64 :
    inRange (Value.unsigned UnsignedKind.Uint64 9223372036854775808) ∧
      AsInt64Slice ⟨[Value.unsigned UnsignedKind.Uint64 9223372036854775808]⟩ =
        Outcome.ok [-9223372036854775808] ∧
      numericValue (Value.unsigned UnsignedKind.Uint64 9223372036854775808) ≠
        some (-9223372036854775808) := by
  refine ⟨?_, rfl, ?_⟩
  · simp [inRange, unsignedBits]
  · simp [numericValue]

end Array

/-! ## The claims on Object -/

namespace Object

theorem lookup_isSome_iff (key : String) (entries : List (String × Value)) :
    (lookup key entries).isSome = true ↔ key ∈ entries.map (fun entry => entry.1) := by
  induction entries with
  | nil => simp [lookup]
  | cons entry rest ih =>
    obtain ⟨k, v⟩ := entry
    by_cases hk : k = key
    · simp [lookup, hk]
    · have hk2 : ¬ key = k := fun h => hk h.symm
      simp [lookup, hk, hk2, ih]

theorem lookup_assign_same (key : String) (value : Value)
    (entries : List (String × Value)) :
    lookup key (assign key value entries) = some value := by
  induction entries with
  | nil => simp [assign, lookup]
  | cons entry rest ih =>
    obtain ⟨k, v⟩ := entry
    by_cases hk : k = key
    · simp [assign, lookup, hk]
    · simp [assign, lookup, hk, ih]

theorem lookup_assign_other (key other : String) (value : Value)
    (entries : List (String × Value)) (hne : other ≠ key) :
    lookup other (assign key value entries) = lookup other entries := by
  have hne2 : ¬ key = other := fun h => hne h.symm
  induction entries with
  | nil => simp [assign, lookup, hne2]
  | cons entry rest ih =>
    obtain ⟨k, v⟩ := entry
    by_cases hk : k = key
    · subst hk
      simp [assign, lookup, hne2]
    · by_cases hko : k = other
      · subst hko
        simp [assign, lookup, hk]
      · simp [assign, lookup, hk, hko, ih]

theorem remove_cons (key k : String) (v : Value) (rest : List (String × Value)) :
    remove key ((k, v) :: rest) =
      if k = key then remove key rest else (k, v) :: remove key rest := by
  by_cases hk : k = key <;> simp [remove, List.filter_cons, hk]

theorem lookup_remove_same (key : String) (entries : List (String × Value)) :
    lookup key (remove key entries) = none := by
  induction entries with
  | nil => rfl
  | cons entry rest ih =>
    obtain ⟨k, v⟩ := entry
    rw [remove_cons]
    by_cases hk : k = key
    · rw [if_pos hk]; exact ih
    · rw [if_neg hk, lookup, if_neg hk]; exact ih

theorem lookup_remove_other (key other : String) (entries : List (String × Value))
    (hne : other ≠ key) :
    lookup other (remove key entries) = lookup other entries := by
  induction entries with
  | nil => rfl
  | cons entry rest ih =>
    obtain ⟨k, v⟩ := entry
    rw [remove_cons]
    by_cases hk : k = key
    · have hko : ¬ k = other := fun h => hne (h ▸ hk)
      rw [if_pos hk, lookup, if_neg hko]; exact ih
    · rw [if_neg hk]
      by_cases hko : k = other
      · rw [lookup, lookup, if_pos hko, if_pos hko]
      · rw [lookup, lookup, if_neg hko, if_neg hko]; exact ih

theorem clear_all (keys : List String) : ∀ entries : List (String × Value),
    (∀ entry ∈ entries, entry.1 ∈ keys) →
    keys.foldl (fun entries key => remove key entries) entries = [] := by
  induction keys with
  | nil =>
    intro entries h
    cases entries with
    | nil => rfl
    | cons entry rest => exact absurd (h entry (List.mem_cons_self _ _)) (by simp)
  | cons key rest ih =>
    intro entries h
    rw [List.foldl_cons]
    apply ih
    intro entry hentry
    simp only [remove, List.mem_filter, decide_eq_true_eq] at hentry
    rcases List.mem_cons.1 (h entry hentry.1) with heq | hin
    · exact absurd heq hentry.2
    · exact hin

theorem mem_keys_iff_has (o : Object) (key : String) :
    key ∈ o.Keys ↔ o.Has key = true := by
  rw [Keys, (Collection.sortStrings_perm _).mem_iff, Has, lookup_isSome_iff]

theorem assign_keys (key : String) (value : Value) (entries : List (String × Value)) :
    (assign key value entries).map (fun entry => entry.1) =
      if key ∈ entries.map (fun entry => entry.1) then entries.map (fun entry => entry.1)
      else entries.map (fun entry => entry.1) ++ [key] := by
  induction entries with
  | nil => simp [assign]
  | cons entry rest ih =>
    obtain ⟨k, v⟩ := entry
    by_cases hk : k = key
    · simp [assign, hk]
    · have hk2 : ¬ key = k := fun h => hk h.symm
      simp only [assign, hk, if_false, List.map_cons, ih, List.mem_cons, hk2, false_or]
      split <;> simp

/-- The operations keep the invariant of the map: `New()` has no key twice, and
what `Set`, `Delete` and `Clear` make of a well-formed Object is well formed. -/
theorem wellFormed_kept (o : Object) (key : String) (value : Value)
    (h : o.wellFormed) :
    New.wellFormed ∧ (∀ o', o.Set key value = Outcome.ok o' → o'.wellFormed) ∧
      (o.Delete key).wellFormed ∧ o.Clear.wellFormed := by
  refine ⟨List.nodup_nil, ?_, ?_, ?_⟩
  · intro o' hset
    cases o with
    | nil => simp [Set] at hset
    | map es =>
      simp only [Set, Outcome.ok.injEq] at hset
      subst hset
      unfold wellFormed
      simp only [entries]
      rw [assign_keys]
      split
      · exact h
      · rename_i hnot
        exact List.Nodup.append h (List.nodup_singleton _)
          (by simpa [List.disjoint_singleton] using hnot)
  · unfold Delete
    split
    · exact (h.sublist ((List.filter_sublist _).map _))
    · exact h
  · cases o with
    | nil => exact List.nodup_nil
    | map es =>
      unfold wellFormed Clear
      simp only [entries]
      rw [clear_all _ _ (fun entry hentry => List.mem_map.2 ⟨entry, hentry, rfl⟩)]
      exact List.nodup_nil

/-- C35: `Keys()` of an Object holds the keys of the Object and nothing else,
each once; it has length `Length()`, is in strictly ascending order, and is the
same for every Object with the same keys, in whatever order they were set. -/
theorem object_keys_sorted_once (o : Object) (hwf : o.wellFormed) :
    (∀ key, key ∈ o.Keys ↔ o.Has key = true) ∧
      o.Keys.Nodup ∧
      o.Keys.length = o.Length ∧
      o.Keys.Pairwise Collection.keyLT ∧
      ∀ o' : Object, (o'.entries.map (fun entry => entry.1)).Perm
          (o.entries.map (fun entry => entry.1)) → o'.Keys = o.Keys := by
  refine ⟨mem_keys_iff_has o, Collection.sortStrings_nodup _ hwf, ?_,
    Collection.sortStrings_strict _ hwf, ?_⟩
  · simp [Keys, Length, (Collection.sortStrings_perm _).length_eq]
  · intro o' hperm
    exact Collection.sortStrings_eq_of_perm _ _ hperm

/-- C35 at a concrete input: the map with the keys `"b"`, `"a"`, enumerated in
this order and in the other order. -/
theorem object_keys_sorted_once_witness :
    (Object.map [("b", Value.int 1), ("a", Value.int 2)]).Keys = ["a", "b"] ∧
      (Object.map [("a", Value.int 2), ("b", Value.int 1)]).Keys =
        (Object.map [("b", Value.int 1), ("a", Value.int 2)]).Keys :=
  ⟨by decide,
    (object_keys_sorted_once (Object.map [("b", Value.int 1), ("a", Value.int 2)])
      (by unfold wellFormed; decide)).2.2.2.2
      (Object.map [("a", Value.int 2), ("b", Value.int 1)]) (by decide)⟩

/-- C36: `Values()` has the length of `Keys()` and holds `Get(Keys()[i])` at
every position `i`; `ForEach(f)` runs `f` on `(Keys()[i], Get(Keys()[i]))` in
order, `Length()` times: the calls it makes are those of a left fold over
`Keys()`, and a callback that records its arguments records exactly that
list. -/
theorem object_values_parallel_and_forEach (o : Object) :
    o.Values.length = o.Keys.length ∧
      (∀ (i : Nat) (key : String), o.Keys[i]? = some key →
        o.Values[i]? = some (o.Get key)) ∧
      (∀ (σ : Type) (f : String → Value → σ → σ) (state : σ),
        o.ForEach f state = o.Keys.foldl (fun s key => f key (o.Get key) s) state) ∧
      o.ForEach (fun key value calls => calls ++ [(key, value)]) [] =
        o.Keys.map (fun key => (key, o.Get key)) ∧
      (o.ForEach (fun key value calls => calls ++ [(key, value)]) []).length =
        o.Length := by
  have hget : ∀ key ∈ o.Keys, o.index key = o.Get key := by
    intro key hkey
    have hhas := (mem_keys_iff_has o key).1 hkey
    simp [Get, hhas]
  have hfold : ∀ (σ : Type) (f : String → Value → σ → σ) (state : σ),
      o.ForEach f state = o.Keys.foldl (fun s key => f key (o.Get key) s) state := by
    intro σ f state
    unfold ForEach
    have hgen : ∀ (keys : List String) (s : σ), (∀ key ∈ keys, o.index key = o.Get key) →
        keys.foldl (fun s key => f key (o.index key) s) s =
          keys.foldl (fun s key => f key (o.Get key) s) s := by
      intro keys
      induction keys with
      | nil => intro s _; rfl
      | cons key rest ih =>
        intro s h
        rw [List.foldl_cons, List.foldl_cons, h key (List.mem_cons_self _ _)]
        exact ih _ (fun k hk => h k (List.mem_cons_of_mem _ hk))
    exact hgen _ _ hget
  have htrace : o.ForEach (fun key value calls => calls ++ [(key, value)]) [] =
      o.Keys.map (fun key => (key, o.Get key)) := by
    rw [hfold]
    have hgen : ∀ (keys : List String) (calls : List (String × Value)),
        keys.foldl (fun s key => s ++ [(key, o.Get key)]) calls =
          calls ++ keys.map (fun key => (key, o.Get key)) := by
      intro keys
      induction keys with
      | nil => intro calls; simp
      | cons key rest ih => intro calls; simp [ih]
    simpa using hgen o.Keys []
  refine ⟨by simp [Values, Keys], ?_, hfold, htrace, ?_⟩
  · intro i key hkey
    have hmem : key ∈ o.Keys := by
      obtain ⟨hlt, heq⟩ := List.getElem?_eq_some.1 hkey
      rw [← heq]
      exact List.getElem_mem hlt
    have hkey2 : (Collection.sortStrings (o.entries.map (fun entry => entry.1)))[i]? =
        some key := hkey
    simp [Values, List.getElem?_map, hkey2, hget key hmem]
  · rw [htrace]
    simp [Keys, Length, (Collection.sortStrings_perm _).length_eq]

/-- C37, as stated, fails on the nil Object, the zero value of the type, which
`NewFromMap(nil)` returns: `Set` assigns to an entry of the nil map and
panics. -/
theorem set_faults_on_nil_object :
    Object.nil.Set "k" (Value.int 1) = Outcome.fault :=
  rfl

/-- C37, amended to Objects that are not nil for `Set`: the map laws.  On a map
`Set(k, v)` returns an Object on which `Has(k)` is true and `Get(k)` is `v`;
after `Delete(k)`, `Has(k)` is false and `Get(k)` is nil; in both cases `Has`
and `Get` of every other key are unchanged; after `Clear()`, `Length()` is 0;
and `Get` of an absent key is nil. -/
theorem object_map_laws (o : Object) (k : String) (v : Value) :
    (∀ entries, o = Object.map entries →
      ∃ o', o.Set k v = Outcome.ok o' ∧ o'.Has k = true ∧ o'.Get k = v ∧
        ∀ k', k' ≠ k → o'.Has k' = o.Has k' ∧ o'.Get k' = o.Get k') ∧
      (o.Delete k).Has k = false ∧ (o.Delete k).Get k = Value.nil ∧
      (∀ k', k' ≠ k → (o.Delete k).Has k' = o.Has k' ∧
        (o.Delete k).Get k' = o.Get k') ∧
      o.Clear.Length = 0 ∧
      (o.Has k = false → o.Get k = Value.nil) := by
  have hdel : (o.Delete k).Has k = false := by
    unfold Delete
    split
    · simp [Has, entries, lookup_remove_same]
    · rename_i h
      simpa using h
  refine ⟨?_, hdel, ?_, ?_, ?_, ?_⟩
  · intro es ho
    subst ho
    refine ⟨Object.map (assign k v es), rfl, ?_, ?_, ?_⟩
    · simp [Has, entries, lookup_assign_same]
    · simp [Get, Has, index, entries, lookup_assign_same]
    · intro k' hne
      have h1 := lookup_assign_other k k' v es hne
      simp only [Get, Has, index, entries, h1]
      exact ⟨trivial, trivial⟩
  · simp [Get, hdel]
  · intro k' hne
    unfold Delete
    split
    · have h1 := lookup_remove_other k k' o.entries hne
      have h2 : (Object.map (remove k o.entries)).entries = remove k o.entries := rfl
      simp only [Get, Has, index, h2, h1]
      exact ⟨trivial, trivial⟩
    · exact ⟨rfl, rfl⟩
  · cases o with
    | nil => rfl
    | map es =>
      simp only [Length, Clear, entries]
      rw [clear_all _ _ (fun entry hentry => List.mem_map.2 ⟨entry, hentry, rfl⟩)]
      rfl
  · intro h
    simp [Get, h]

/-- What `AsStruct` does with a target that is not the nil interface: a value
that is not a pointer gives NonPtrTypeError and a pointer to something that is
not a struct gives PtrToNonStructTypeError, the target being left as it is,
whatever the decoder would do; for a pointer to a struct the result is that of
the decoder on the text of the Object. -/
theorem asStruct_checks_target (marshal : Object → String)
    (decode : String → Target → Option Error × Target) (o : Object) :
    (∀ value, AsStruct marshal decode o (Target.nonPointer value) =
      Outcome.ok (some Error.NonPtrTypeError, Target.nonPointer value)) ∧
    (∀ pointee, AsStruct marshal decode o (Target.pointer false pointee) =
      Outcome.ok (some Error.PtrToNonStructTypeError, Target.pointer false pointee)) ∧
    (∀ pointee, AsStruct marshal decode o (Target.pointer true pointee) =
      Outcome.ok (decode (marshal o) (Target.pointer true pointee))) :=
  ⟨fun _ => rfl, fun _ => rfl, fun _ => rfl⟩

/-- C38, the code at the failing input: for the nil interface as target,
`reflect.TypeOf(v)` is nil and `t.Kind()` panics; `AsStruct` returns no error,
whatever the Object and the JSON layer are. -/
theorem asStruct_faults_on_nil_target (marshal : Object → String)
    (decode : String → Target → Option Error × Target) (o : Object) :
    AsStruct marshal decode o Target.nilInterface = Outcome.fault :=
  rfl

end Object

end Standard
